import Mathlib

/-
Verification of the BTW ("Better than WAV") lossless audio codec, a
single-header C library (btw.h).  The development below is a shallow
embedding of the code: byte buffers are total functions `Nat → Nat`
(each byte kept `< 256`, the `% 256` at every store mirroring the
`unsigned char` type), machine integers are `Nat`/`Int`, the C `while`
loops become structural recursions on an explicit fuel that is always
sufficient (each loop strictly decreases its controlling variable by at
least one per iteration, so the variable's entry value works as fuel),
and the one loop with no intrinsic bound (the decoder's unary scan
`while (grab_bit(...))`) returns `Option`, with `none` modelling the
nontermination / out-of-bounds reading that the C would exhibit.
Out-parameters (`*out_len`, the decoded buffer, the filled `btw_def`)
are modelled as return values; NULL-able pointer arguments are
`Option`s.  `exit(EXIT_FAILURE)` in `btw_encode` is modelled as `none`.
-/

set_option maxRecDepth 1000000

namespace BTW

/-- A byte buffer: C memory as a total function from byte index to byte. -/
def Buf : Type := Nat → Nat

/-- Store one byte (an array write `buf[i] = v`). -/
def stb (buf : Buf) (i v : Nat) : Buf :=
  fun j => if j = i then v else buf j

/-- All bytes of the buffer are in range of `unsigned char`. -/
def bytesLT (buf : Buf) : Prop := ∀ i, buf i < 256

/-- `#define BTW_BLOCK_SIZE 512` -/
def BTW_BLOCK_SIZE : Nat := 512

/-- `#define BTW_HEADER_SIZE 20` -/
def BTW_HEADER_SIZE : Nat := 20

/-- `#define BTW_MAGIC ('b' | 't' << 8 | 'w' << 16 | 'f' << 24)` -/
def BTW_MAGIC : Nat := 98 ||| (116 <<< 8) ||| (119 <<< 16) ||| (102 <<< 24)

/-- The stream parameter struct `btw_def`. -/
structure btw_def where
  channels : Nat
  bits_per_sample : Nat
  sample_rate : Nat
  sample_count : Nat
deriving DecidableEq

/-- `BTW_abs`: absolute value on `long long`. -/
def BTW_abs (number : Int) : Int :=
  if 0 ≤ number then number else number * -1

/-- The body of `bits_required`'s loop `while (number >>= 1) r++;`,
with fuel: each iteration halves `number`, so `number`'s entry value
bounds the iteration count. -/
def bitsRequiredAux : Nat → Nat → Nat
  | 0, _ => 0
  | fuel + 1, number =>
    let number' := number >>> 1
    if number' ≠ 0 then bitsRequiredAux fuel number' + 1 else 0

/-- `bits_required`: index of the highest set bit (0 for inputs 0 and 1). -/
def bits_required (number : Nat) : Nat := bitsRequiredAux number number

/-- `put_bit`: OR one bit into the buffer at (byte `out_pos`, bit `bit_pos`),
advancing the cursor by one bit. -/
def put_bit (output : Buf) (out_pos bit_pos bit : Nat) : Buf × Nat × Nat :=
  let output' := stb output out_pos
    ((output out_pos ||| ((bit <<< bit_pos) &&& 255)) % 256)
  let bit_pos' := (bit_pos + 1) % 8
  (output', out_pos + (if bit_pos' = 0 then 1 else 0), bit_pos')

/-- The `while (bits >= 8)` loop of `put_number`: whole-byte stores.
State: buffer, byte position, remaining bit count, remaining value. -/
def putNumLoop : Nat → Buf → Nat → Nat → Nat → Buf × Nat × Nat × Nat
  | 0, output, out_pos, bits, number => (output, out_pos, bits, number)
  | fuel + 1, output, out_pos, bits, number =>
    if 8 ≤ bits then
      putNumLoop fuel (stb output out_pos ((number &&& 255) % 256))
        (out_pos + 1) (bits - 8) (number >>> 8)
    else
      (output, out_pos, bits, number)

/-- `put_number`: write the low `bits` bits of `number` LSB-first at the
cursor, spilling across byte boundaries.  The first (partial) and last
(partial) bytes are ORed into the buffer, interior bytes are assigned. -/
def put_number (output : Buf) (out_pos bit_pos bits number : Nat) :
    Buf × Nat × Nat :=
  let s : Buf × Nat × Nat × Nat × Nat :=
    if 8 - bit_pos < bits then
      let cast := number &&& (255 >>> bit_pos)
      let output' := stb output out_pos
        ((output out_pos ||| ((cast <<< bit_pos) &&& 255)) % 256)
      let l := putNumLoop (bits - (8 - bit_pos)) output' (out_pos + 1)
        (bits - (8 - bit_pos)) (number >>> (8 - bit_pos))
      (l.1, l.2.1, 0, l.2.2.1, l.2.2.2)
    else
      (output, out_pos, bit_pos, bits, number)
  match s with
  | (output, out_pos, bit_pos, bits, number) =>
    if bits ≠ 0 then
      let cast := number &&& (255 >>> (8 - bits))
      let output' := stb output out_pos
        ((output out_pos ||| (cast <<< bit_pos)) % 256)
      let bit_pos' := (bit_pos + bits) % 8
      (output', out_pos + (if bit_pos' = 0 then 1 else 0), bit_pos')
    else
      (output, out_pos, bit_pos)

/-- The `while (ones >= 8)` loop of `put_ones`: whole bytes of `0xff`. -/
def putOnesLoop : Nat → Buf → Nat → Nat → Buf × Nat × Nat
  | 0, output, out_pos, ones => (output, out_pos, ones)
  | fuel + 1, output, out_pos, ones =>
    if 8 ≤ ones then
      putOnesLoop fuel (stb output out_pos 255) (out_pos + 1) (ones - 8)
    else
      (output, out_pos, ones)

/-- `put_ones`: write a run of `ones` 1-bits at the cursor. -/
def put_ones (output : Buf) (out_pos bit_pos ones : Nat) : Buf × Nat × Nat :=
  let s : Buf × Nat × Nat × Nat :=
    if 8 - bit_pos < ones then
      let output' := stb output out_pos
        ((output out_pos ||| ((255 <<< bit_pos) &&& 255)) % 256)
      let l := putOnesLoop (ones - (8 - bit_pos)) output' (out_pos + 1)
        (ones - (8 - bit_pos))
      (l.1, l.2.1, 0, l.2.2)
    else
      (output, out_pos, bit_pos, ones)
  match s with
  | (output, out_pos, bit_pos, ones) =>
    if ones ≠ 0 then
      let output' := stb output out_pos
        ((output out_pos ||| (((255 >>> (8 - ones)) <<< bit_pos) &&& 255)) % 256)
      let bit_pos' := (bit_pos + ones) % 8
      (output', out_pos + (if bit_pos' = 0 then 1 else 0), bit_pos')
    else
      (output, out_pos, bit_pos)

/-- `grab_bit`: read one bit at the cursor, advancing it.
Returns (bit, byte position, bit position). -/
def grab_bit (input : Buf) (in_pos bit_pos : Nat) : Nat × Nat × Nat :=
  let r := (input in_pos >>> bit_pos) &&& 1
  let bit_pos' := (bit_pos + 1) % 8
  (r, in_pos + (if bit_pos' = 0 then 1 else 0), bit_pos')

/-- The `while (bits >= 8)` loop of `grab_number`: whole-byte reads,
accumulating `r |= input[pos++] << tally`.
State: value so far, byte position, remaining bits, tally. -/
def grabNumLoop : Nat → Buf → Nat → Nat → Nat → Nat → Nat × Nat × Nat × Nat
  | 0, _, in_pos, bits, tally, r => (r, in_pos, bits, tally)
  | fuel + 1, input, in_pos, bits, tally, r =>
    if 8 ≤ bits then
      grabNumLoop fuel input (in_pos + 1) (bits - 8) (tally + 8)
        (r ||| (input in_pos <<< tally))
    else
      (r, in_pos, bits, tally)

/-- `grab_number`: read `bits` bits LSB-first at the cursor.
Returns (value, byte position, bit position). -/
def grab_number (input : Buf) (in_pos bit_pos bits : Nat) : Nat × Nat × Nat :=
  let s : Nat × Nat × Nat × Nat × Nat :=
    if 8 - bit_pos < bits then
      let r := input in_pos >>> bit_pos
      let l := grabNumLoop (bits - (8 - bit_pos)) input (in_pos + 1)
        (bits - (8 - bit_pos)) (8 - bit_pos) r
      (l.1, l.2.1, 0, l.2.2.1, l.2.2.2)
    else
      (0, in_pos, bit_pos, bits, 0)
  match s with
  | (r, in_pos, bit_pos, bits, tally) =>
    if bits ≠ 0 then
      let r' := r ||| (((input in_pos >>> bit_pos) &&& (255 >>> (8 - bits))) <<< tally)
      let bit_pos' := (bit_pos + bits) % 8
      (r', in_pos + (if bit_pos' = 0 then 1 else 0), bit_pos')
    else
      (r, in_pos, bit_pos)

/-! ### Encoder (`btw_encode`) -/

/-- The first per-channel loop of `btw_encode`: accumulate
`av_diff += BTW_abs(cur_sample - prev_sample)` over the block.
Fuel is the remaining sample count (the loop runs `cap` times). -/
def encAv (samples : Nat → Int) (ch i chan : Nat) :
    Nat → Nat → Int → Int → Int
  | 0, _, _, av_diff => av_diff
  | fuel + 1, l, prev_sample, av_diff =>
    let cur_sample := samples ((i + l) * ch + chan)
    encAv samples ch i chan fuel (l + 1) cur_sample
      (av_diff + BTW_abs (cur_sample - prev_sample))

/-- The Rice parameter `btw_encode` computes for the block of `cap`
samples starting at frame `i` on channel `chan`:
`rice_len = bits_required(av_diff / BTW_BLOCK_SIZE)` (the divisor is
the constant 512, whatever `cap` is). -/
def riceLenOf (samples : Nat → Int) (ch i cap chan : Nat) : Nat :=
  bits_required ((encAv samples ch i chan cap 0 0 0 / 512).toNat)

/-- The second per-channel loop of `btw_encode`: for each sample, write
sign bit, unary quotient (`rice_un` ones and a 0 terminator), and the
`rice_len`-bit remainder.  State is (buffer, `*out_len`, `rice_bit_pos`). -/
def encSamples (samples : Nat → Int) (ch i chan rice_len : Nat) :
    Nat → Nat → Int → Buf × Nat × Nat → Buf × Nat × Nat
  | 0, _, _, st => st
  | fuel + 1, l, prev_sample, st =>
    let cur_sample := samples ((i + l) * ch + chan)
    let diff := cur_sample - prev_sample
    let st := put_bit st.1 st.2.1 st.2.2 (if diff < 0 then 1 else 0)
    let a := (BTW_abs diff).toNat
    let rice_un := a >>> rice_len
    let st := put_ones st.1 st.2.1 st.2.2 rice_un
    let st := put_bit st.1 st.2.1 st.2.2 0
    let st := put_number st.1 st.2.1 st.2.2 rice_len a
    encSamples samples ch i chan rice_len fuel (l + 1) cur_sample st

/-- One channel of one block of `btw_encode`: Rice-parameter estimation,
the `bits_per_rice_len`-bit parameter field, then the codewords. -/
def encChannel (samples : Nat → Int) (ch i cap bits_per_rice_len chan : Nat)
    (st : Buf × Nat × Nat) : Buf × Nat × Nat :=
  let rice_len := riceLenOf samples ch i cap chan
  let st := put_number st.1 st.2.1 st.2.2 bits_per_rice_len rice_len
  encSamples samples ch i chan rice_len cap 0 0 st

/-- The `for (chan = 0; chan < def->channels; chan++)` loop of
`btw_encode` (fuel = remaining channel count). -/
def encChannels (samples : Nat → Int) (ch i cap bits_per_rice_len : Nat) :
    Nat → Nat → Buf × Nat × Nat → Buf × Nat × Nat
  | 0, _, st => st
  | fuel + 1, chan, st =>
    encChannels samples ch i cap bits_per_rice_len fuel (chan + 1)
      (encChannel samples ch i cap bits_per_rice_len chan st)

/-- The `while (i < def->sample_count)` block loop of `btw_encode`.
`cap = min(sample_count - i, 512)` and `i += cap` each iteration, so
the loop runs exactly `⌈sample_count / 512⌉` times; that count is the
structural fuel here. -/
def encBlocks (samples : Nat → Int) (d : btw_def) (bits_per_rice_len : Nat) :
    Nat → Nat → Buf × Nat × Nat → Buf × Nat × Nat
  | 0, _, st => st
  | fuel + 1, i, st =>
    let cap := if d.sample_count - i < BTW_BLOCK_SIZE then d.sample_count - i
      else BTW_BLOCK_SIZE
    let st := encChannels samples d.channels i cap bits_per_rice_len
      d.channels 0 st
    encBlocks samples d bits_per_rice_len fuel (i + cap) st

/-- The output allocation size of `btw_encode`:
`max_len = channels * sample_count * bits_per_sample / 8 + 1024`. -/
def btw_max_len (d : btw_def) : Nat :=
  d.channels * d.sample_count * d.bits_per_sample / 8 + 1024

/-- Header write of `btw_encode`, stage 1: the magic word into the
fresh `calloc`ed (all-zero) buffer.  (The five successive `put_number`
statements of the source are named `encHdr1` … `encHeader` here.) -/
def encHdr1 : Buf × Nat × Nat :=
  put_number (fun _ => 0) 0 0 32 BTW_MAGIC

/-- Header write, stage 2: the 64-bit `sample_count`. -/
def encHdr2 (d : btw_def) : Buf × Nat × Nat :=
  put_number encHdr1.1 encHdr1.2.1 encHdr1.2.2 64 d.sample_count

/-- Header write, stage 3: the 16-bit `channels`. -/
def encHdr3 (d : btw_def) : Buf × Nat × Nat :=
  put_number (encHdr2 d).1 (encHdr2 d).2.1 (encHdr2 d).2.2 16 d.channels

/-- Header write, stage 4: the 16-bit `bits_per_sample`. -/
def encHdr4 (d : btw_def) : Buf × Nat × Nat :=
  put_number (encHdr3 d).1 (encHdr3 d).2.1 (encHdr3 d).2.2 16
    d.bits_per_sample

/-- Header writes complete: the 32-bit `sample_rate` last. -/
def encHeader (d : btw_def) : Buf × Nat × Nat :=
  put_number (encHdr4 d).1 (encHdr4 d).2.1 (encHdr4 d).2.2 32 d.sample_rate

/-- `btw_encode`.  A NULL `samples` or `def` pointer or any zero
parameter field hits `exit(EXIT_FAILURE)`, modelled as `none`.  The
`calloc(max_len, 1)` buffer is the all-zero function (`btw_max_len`
gives its size; the code never bounds-checks against it).  Returns the
output buffer and the final `*out_len`. -/
def btw_encode (samples? : Option (Nat → Int)) (def? : Option btw_def) :
    Option (Buf × Nat) :=
  match samples?, def? with
  | some samples, some d =>
    if d.channels = 0 ∨ d.sample_rate = 0 ∨ d.sample_count = 0 ∨
        d.bits_per_sample = 0 then
      none
    else
      let bits_per_rice_len := bits_required d.bits_per_sample
      let st := encHeader d
      let numBlocks := (d.sample_count + 511) / 512
      let st := encBlocks samples d bits_per_rice_len numBlocks 0
        (st.1, st.2.1, 0)
      some (st.1, st.2.1 + (if st.2.2 ≠ 0 then 1 else 0))
  | _, _ => none

/-! ### Header reader (`btw_read_metadata`) -/

/-- Header read, stage 1: the 64-bit `sample_count` at byte 4.  (The
four successive `grab_number` statements of `btw_read_metadata` are
named `readHdr1` … `readHdr4` here.) -/
def readHdr1 (data : Buf) : Nat × Nat × Nat := grab_number data 4 0 64

/-- Header read, stage 2: the 16-bit `channels`. -/
def readHdr2 (data : Buf) : Nat × Nat × Nat :=
  grab_number data (readHdr1 data).2.1 (readHdr1 data).2.2 16

/-- Header read, stage 3: the 16-bit `bits_per_sample`. -/
def readHdr3 (data : Buf) : Nat × Nat × Nat :=
  grab_number data (readHdr2 data).2.1 (readHdr2 data).2.2 16

/-- Header read, stage 4: the 32-bit `sample_rate`. -/
def readHdr4 (data : Buf) : Nat × Nat × Nat :=
  grab_number data (readHdr3 data).2.1 (readHdr3 data).2.2 32

/-- `btw_read_metadata`: if the first four bytes are `'b','t','w','f'`
(98, 116, 119, 102), read the four parameter fields starting at byte 4;
otherwise return the caller's `def` untouched. -/
def btw_read_metadata (data : Buf) (d : btw_def) : btw_def :=
  if data 0 = 98 ∧ data 1 = 116 ∧ data 2 = 119 ∧ data 3 = 102 then
    { channels := (readHdr2 data).1, bits_per_sample := (readHdr3 data).1,
      sample_rate := (readHdr4 data).1, sample_count := (readHdr1 data).1 }
  else
    d

/-! ### Decoder (`btw_decode`) -/

/-- The decoder's unary scan `while (grab_bit(...)) diff += 1 << rice_len;`.
This loop has no intrinsic bound (an all-ones input never stops it, and
the C would read past the buffer), so it carries a fuel and returns
`none` when the fuel runs out.  Returns (`diff`, byte pos, bit pos). -/
def grab_unary (input : Buf) (rice_len : Nat) :
    Nat → Nat → Nat → Nat → Option (Nat × Nat × Nat)
  | 0, _, _, _ => none
  | fuel + 1, in_pos, bit_pos, diff =>
    let g := grab_bit input in_pos bit_pos
    if g.1 = 1 then
      grab_unary input rice_len fuel g.2.1 g.2.2 (diff + (1 <<< rice_len))
    else
      some (diff, g.2.1, g.2.2)

/-- The per-sample loop of `btw_decode` for one channel: sign bit, unary
quotient, `rice_len`-bit remainder, sign application, prediction update,
store into the output, `(*out_len)++`.  State: byte pos, bit pos, output
samples, `*out_len`. -/
def decSamples (data : Buf) (F ch i chan rice_len : Nat) :
    Nat → Nat → Int → Nat → Nat → (Nat → Int) → Nat →
    Option (Nat × Nat × (Nat → Int) × Nat)
  | 0, _, _, in_pos, bit_pos, out, out_len =>
    some (in_pos, bit_pos, out, out_len)
  | fuel + 1, j, prev_sample, in_pos, bit_pos, out, out_len =>
    let g := grab_bit data in_pos bit_pos
    let sign := g.1
    match grab_unary data rice_len F g.2.1 g.2.2 0 with
    | none => none
    | some (diffU, p, b) =>
      let g2 := grab_number data p b rice_len
      let diffU := diffU ||| g2.1
      let diff : Int := if sign = 1 then (diffU : Int) * -1 else (diffU : Int)
      let v := prev_sample + diff
      let out' := fun idx => if idx = (i + j) * ch + chan then v else out idx
      decSamples data F ch i chan rice_len fuel (j + 1) v g2.2.1 g2.2.2
        out' (out_len + 1)

/-- The `for (chan = 0; chan < def->channels; chan++)` loop of
`btw_decode`: read the Rice parameter field, then the block's samples. -/
def decChannels (data : Buf) (F ch i cap bits_per_rice_len : Nat) :
    Nat → Nat → Nat → Nat → (Nat → Int) → Nat →
    Option (Nat × Nat × (Nat → Int) × Nat)
  | 0, _, in_pos, bit_pos, out, out_len => some (in_pos, bit_pos, out, out_len)
  | fuel + 1, chan, in_pos, bit_pos, out, out_len =>
    let g := grab_number data in_pos bit_pos bits_per_rice_len
    let rice_len := g.1
    match decSamples data F ch i chan rice_len cap 0 0 g.2.1 g.2.2 out out_len with
    | none => none
    | some (p, b, out, ol) =>
      decChannels data F ch i cap bits_per_rice_len fuel (chan + 1) p b out ol

/-- The block loop of `btw_decode`.  After each block it realigns the
input cursor to the next byte boundary:
`in_pos += (bit_pos != 0); bit_pos = 0;`.  Like `encBlocks`, the loop
runs exactly `⌈sample_count / 512⌉` times (the structural fuel). -/
def decBlocks (data : Buf) (F : Nat) (d : btw_def) (bits_per_rice_len : Nat) :
    Nat → Nat → Nat → Nat → (Nat → Int) → Nat →
    Option (Nat × Nat × (Nat → Int) × Nat)
  | 0, _, in_pos, bit_pos, out, out_len => some (in_pos, bit_pos, out, out_len)
  | fuel + 1, i, in_pos, bit_pos, out, out_len =>
    let cap := if d.sample_count - i < BTW_BLOCK_SIZE then d.sample_count - i
      else BTW_BLOCK_SIZE
    match decChannels data F d.channels i cap bits_per_rice_len d.channels 0
        in_pos bit_pos out out_len with
    | none => none
    | some (p, b, out, ol) =>
      decBlocks data F d bits_per_rice_len fuel (i + cap)
        (p + (if b ≠ 0 then 1 else 0)) 0 out ol

/-- `btw_decode`.  `data` is the NULL-able input pointer; `d0` the
caller's `btw_def` (filled via `btw_read_metadata`); `init` the
(uninitialized) `malloc`ed output buffer's arbitrary initial contents;
`F` the fuel handed to each unary scan (see `grab_unary`).  Returns
(decoded samples, `*out_len`, filled `btw_def`); `none` models both the
NULL / zero-field returns and out-of-bounds unary scans. -/
def btw_decode (F : Nat) (data? : Option Buf) (d0 : btw_def)
    (init : Nat → Int) : Option ((Nat → Int) × Nat × btw_def) :=
  match data? with
  | none => none
  | some data =>
    let d := btw_read_metadata data d0
    if d.channels = 0 ∨ d.sample_rate = 0 ∨ d.sample_count = 0 ∨
        d.bits_per_sample = 0 then
      none
    else
      let bits_per_rice_len := bits_required d.bits_per_sample
      let numBlocks := (d.sample_count + 511) / 512
      match decBlocks data F d bits_per_rice_len numBlocks 0 BTW_HEADER_SIZE 0
          init 0 with
      | none => none
      | some (_, _, out, out_len) => some (out, out_len, d)

/-! ### Specification-level view of the bitstream

The buffer is viewed as a flat bit sequence (`bitAt`), and the encoded
stream as a list of chunks `(width, value)`: each chunk is `width` bits
holding the low `width` bits of `value`, LSB first.  These definitions
are the yardstick that the byte-level cursor functions above are proved
against. -/

/-- Bit number `t` of the buffer (bit `t % 8` of byte `t / 8`). -/
def bitAt (buf : Buf) (t : Nat) : Bool := (buf (t / 8)).testBit (t % 8)

/-- Every bit from position `t` on is clear (the untouched tail of a
`calloc`ed buffer). -/
def zeroFrom (buf : Buf) (t : Nat) : Prop := ∀ j, t ≤ j → bitAt buf j = false

/-- Bits `t, t+1, …, t+w-1` of the buffer hold the low `w` bits of `v`. -/
def matchesVal (buf : Buf) (t w v : Nat) : Prop :=
  ∀ k, k < w → bitAt buf (t + k) = v.testBit k

/-- The value of bits `t, …, t+w-1` read LSB-first. -/
def readVal (buf : Buf) : Nat → Nat → Nat
  | _, 0 => 0
  | t, w + 1 => (bitAt buf t).toNat + 2 * readVal buf (t + 1) w

/-- Total bit width of a chunk list. -/
def chunksWidth : List (Nat × Nat) → Nat
  | [] => 0
  | c :: rest => c.1 + chunksWidth rest

/-- The buffer holds the given chunk list starting at bit `t`. -/
def matchesChunks (buf : Buf) : Nat → List (Nat × Nat) → Prop
  | _, [] => True
  | t, c :: rest => matchesVal buf t c.1 c.2 ∧ matchesChunks buf (t + c.1) rest

/-- The chunks one coded sample contributes: sign bit, unary quotient
(`a >>> rice_len` ones), 0 terminator, `rice_len`-bit remainder. -/
def sampleChunks (rice_len : Nat) (prev cur : Int) : List (Nat × Nat) :=
  let diff := cur - prev
  let a := (BTW_abs diff).toNat
  [(1, if diff < 0 then 1 else 0),
   (a >>> rice_len, 2 ^ (a >>> rice_len) - 1),
   (1, 0),
   (rice_len, a)]

/-- Chunks of the codewords of one channel's block samples (mirrors the
traversal of `encSamples`). -/
def chanSampleChunks (samples : Nat → Int) (ch i chan rice_len : Nat) :
    Nat → Nat → Int → List (Nat × Nat)
  | 0, _, _ => []
  | fuel + 1, l, prev =>
    let cur := samples ((i + l) * ch + chan)
    sampleChunks rice_len prev cur ++
      chanSampleChunks samples ch i chan rice_len fuel (l + 1) cur

/-- Chunks of one channel of one block: the Rice-parameter field then
the codewords (mirrors `encChannel`). -/
def chanChunks (samples : Nat → Int) (ch i cap bits_per_rice_len chan : Nat) :
    List (Nat × Nat) :=
  (bits_per_rice_len, riceLenOf samples ch i cap chan) ::
    chanSampleChunks samples ch i chan (riceLenOf samples ch i cap chan) cap 0 0

/-- Chunks of all channels of one block (mirrors `encChannels`). -/
def channelsChunks (samples : Nat → Int) (ch i cap bits_per_rice_len : Nat) :
    Nat → Nat → List (Nat × Nat)
  | 0, _ => []
  | fuel + 1, chan =>
    chanChunks samples ch i cap bits_per_rice_len chan ++
      channelsChunks samples ch i cap bits_per_rice_len fuel (chan + 1)

/-- Chunks of the whole coded payload (mirrors `encBlocks`). -/
def blocksChunks (samples : Nat → Int) (d : btw_def) (bits_per_rice_len : Nat) :
    Nat → Nat → List (Nat × Nat)
  | 0, _ => []
  | fuel + 1, i =>
    let cap := if d.sample_count - i < BTW_BLOCK_SIZE then d.sample_count - i
      else BTW_BLOCK_SIZE
    channelsChunks samples d.channels i cap bits_per_rice_len d.channels 0 ++
      blocksChunks samples d bits_per_rice_len fuel (i + cap)

/-- Chunks of the 20-byte header. -/
def headerChunks (d : btw_def) : List (Nat × Nat) :=
  [(32, BTW_MAGIC), (64, d.sample_count), (16, d.channels),
   (16, d.bits_per_sample), (32, d.sample_rate)]

/-- The invariant of an encoder cursor state (buffer, byte pos, bit
pos): bit offset in range, bytes in range, everything at or after the
cursor still clear. -/
def Inv (st : Buf × Nat × Nat) : Prop :=
  st.2.2 < 8 ∧ bytesLT st.1 ∧ zeroFrom st.1 (8 * st.2.1 + st.2.2)

/-- One write step took state `st` to `st'`, appending the chunk
`(w, v)` at the cursor: the cursor advanced by exactly `w` bits, bits
before the old cursor are untouched, bits at or after the new cursor
are still clear, and the `w` written bits hold `v`. -/
def WriteOk (st st' : Buf × Nat × Nat) (w v : Nat) : Prop :=
  8 * st'.2.1 + st'.2.2 = (8 * st.2.1 + st.2.2) + w ∧
  st'.2.2 < 8 ∧ bytesLT st'.1 ∧
  (∀ j, j < 8 * st.2.1 + st.2.2 → bitAt st'.1 j = bitAt st.1 j) ∧
  zeroFrom st'.1 (8 * st.2.1 + st.2.2 + w) ∧
  matchesVal st'.1 (8 * st.2.1 + st.2.2) w v

/-- A sequence of write steps took `st` to `st'`, appending the chunk
list `L` at the cursor (the list form of `WriteOk`). -/
def WritesChunks (st st' : Buf × Nat × Nat) (L : List (Nat × Nat)) : Prop :=
  8 * st'.2.1 + st'.2.2 = (8 * st.2.1 + st.2.2) + chunksWidth L ∧
  st'.2.2 < 8 ∧ bytesLT st'.1 ∧
  (∀ j, j < 8 * st.2.1 + st.2.2 → bitAt st'.1 j = bitAt st.1 j) ∧
  zeroFrom st'.1 (8 * st.2.1 + st.2.2 + chunksWidth L) ∧
  matchesChunks st'.1 (8 * st.2.1 + st.2.2) L

/-- The zeroth-order absolute-difference sum of one channel's block, as
a plain sum: `Σ_{l<cap} |s[i+l] - s[i+l-1]|` with `s[i-1]` read as 0
(the per-block prediction reset). -/
def specAbsSum (samples : Nat → Int) (ch i cap chan : Nat) : Nat :=
  ∑ l ∈ Finset.range cap,
    (samples ((i + l) * ch + chan) -
      (if l = 0 then 0 else samples ((i + l - 1) * ch + chan))).natAbs

/-- Concrete input of the block-misalignment failure: 513 samples, one
channel, 2 bits per sample; all samples 0 except the 513th, which is 1. -/
def ex1Samples : Nat → Int := fun idx => if idx = 512 then 1 else 0

/-- Stream parameters for `ex1Samples`. -/
def ex1Def : btw_def := ⟨1, 2, 1, 513⟩

/-- Concrete input of the output-buffer overflow: 3072 frames of the
alternating −1/+1 signal on one channel at 1 bit per sample. -/
def ex9Samples : Nat → Int := fun idx => if idx % 2 = 0 then -1 else 1

/-- Stream parameters for `ex9Samples`. -/
def ex9Def : btw_def := ⟨1, 1, 8000, 3072⟩

/-- A concrete valid 1-sample encoded stream (header for
`channels = bits_per_sample = sample_rate = sample_count = 1`, then the
2-bit codeword of a zero sample), zero-extended. -/
def ex10Data : Buf := fun i =>
  [98, 116, 119, 102, 1, 0, 0, 0, 0, 0, 0, 0, 1, 0, 1, 0, 1, 0, 0, 0].getD i 0

/-- Concrete input of the Rice-parameter-field overflow: a single
sample of value 1024 at 1 bit per sample.  The encoder computes
`rice_len = bits_required(1024/512) = 1` but writes it in
`bits_required(1) = 0` bits, so the decoder reads `rice_len = 0`. -/
def ex3Samples : Nat → Int := fun _ => 1024

/-- Stream parameters for `ex3Samples`. -/
def ex3Def : btw_def := ⟨1, 1, 1, 1⟩

/-- Decode-after-encode observation: the decoded sample at index `idx`
of the stream `btw_encode` produces (with unary-scan fuel `F` and a
zeroed scratch output). -/
def decodedAt (samples : Nat → Int) (d : btw_def) (F idx : Nat) :
    Option Int :=
  match btw_encode (some samples) (some d) with
  | none => none
  | some (buf, _) =>
    match btw_decode F (some buf) d (fun _ => 0) with
    | none => none
    | some (out, _, _) => some (out idx)

/-- The all-zero (silent) signal. -/
def zeroSig : Nat → Int := fun _ => 0

/-- The alternating +1/−1 signal (frame-indexed, `ch` channels, every
channel carries +1, −1, +1, …). -/
def altSig (ch : Nat) : Nat → Int := fun idx => if (idx / ch) % 2 = 0 then 1 else -1

/-- The unit-step ramp 0, 1, 2, … (frame-indexed, `ch` channels). -/
def rampSig (ch : Nat) : Nat → Int := fun idx => ((idx / ch : Nat) : Int)

/-! ## Proofs

### Bit-view basics -/

theorem bitAt_byte (buf : Buf) (p j : Nat) (hj : j < 8) :
    bitAt buf (8 * p + j) = (buf p).testBit j := by
  unfold bitAt
  rw [Nat.mul_add_div (by norm_num), Nat.mul_add_mod, Nat.div_eq_of_lt hj,
    Nat.mod_eq_of_lt hj, Nat.add_zero]

theorem bitAt_stb_same (buf : Buf) (p v j : Nat) (hj : j < 8) :
    bitAt (stb buf p v) (8 * p + j) = v.testBit j := by
  rw [bitAt_byte _ _ _ hj]
  unfold stb
  simp

theorem bitAt_stb_ne (buf : Buf) (p v t : Nat) (h : t / 8 ≠ p) :
    bitAt (stb buf p v) t = bitAt buf t := by
  unfold bitAt stb
  simp [h]

theorem bit_decomp (t : Nat) : 8 * (t / 8) + t % 8 = t ∧ t % 8 < 8 :=
  ⟨Nat.div_add_mod t 8, Nat.mod_lt _ (by norm_num)⟩

theorem bytesLT_stb (buf : Buf) (p v : Nat) (hB : bytesLT buf)
    (hv : v < 256) : bytesLT (stb buf p v) := by
  intro i
  unfold stb
  by_cases h : i = p <;> simp [h, hv, hB i]

/-- Oring a value shifted past the width of `a` is addition. -/
theorem lor_shiftLeft_eq_add (a b t : Nat) (ha : a < 2 ^ t) :
    a ||| (b <<< t) = a + 2 ^ t * b := by
  have h1 : (a ||| b <<< t) % 2 ^ t = a := by
    apply Nat.eq_of_testBit_eq
    intro i
    rw [Nat.testBit_mod_two_pow, Nat.testBit_lor, Nat.testBit_shiftLeft]
    by_cases hi : i < t
    · have : ¬ t ≤ i := by omega
      simp [hi, this]
    · have hai : a.testBit i = Nat.testBit a i := rfl
      have hfalse : a.testBit i = false :=
        Nat.testBit_eq_false_of_lt
          (lt_of_lt_of_le ha (Nat.pow_le_pow_right (by norm_num) (by omega)))
      simp [hi, hfalse]
  have h2 : (a ||| b <<< t) / 2 ^ t = b := by
    apply Nat.eq_of_testBit_eq
    intro i
    rw [← Nat.shiftRight_eq_div_pow, Nat.testBit_shiftRight, Nat.testBit_lor,
      Nat.testBit_shiftLeft]
    have hfalse : a.testBit (t + i) = false :=
      Nat.testBit_eq_false_of_lt
        (lt_of_lt_of_le ha (Nat.pow_le_pow_right (by norm_num) (by omega)))
    have ht : t ≤ t + i := by omega
    have : t + i - t = i := by omega
    simp [hfalse, ht, this]
  calc a ||| b <<< t
      = 2 ^ t * ((a ||| b <<< t) / 2 ^ t) + (a ||| b <<< t) % 2 ^ t :=
        (Nat.div_add_mod _ _).symm
    _ = a + 2 ^ t * b := by rw [h1, h2]; omega

theorem matchesVal_congr (buf buf' : Buf) (t w v : Nat)
    (h : ∀ k, k < w → bitAt buf' (t + k) = bitAt buf (t + k))
    (hm : matchesVal buf t w v) : matchesVal buf' t w v := by
  intro k hk
  rw [h k hk, hm k hk]

theorem matchesVal_take (buf : Buf) (t w w' v : Nat) (hw : w' ≤ w)
    (hm : matchesVal buf t w v) : matchesVal buf t w' v := by
  intro k hk
  exact hm k (by omega)

theorem matchesVal_drop (buf : Buf) (t w s v : Nat) (hs : s ≤ w)
    (hm : matchesVal buf t w v) : matchesVal buf (t + s) (w - s) (v >>> s) := by
  intro k hk
  have := hm (s + k) (by omega)
  rw [Nat.testBit_shiftRight]
  rw [show t + s + k = t + (s + k) by omega]
  exact this

theorem readVal_w_zero (buf : Buf) (t : Nat) : readVal buf t 0 = 0 := rfl

theorem readVal_w_succ (buf : Buf) (t w : Nat) :
    readVal buf t (w + 1) = (bitAt buf t).toNat + 2 * readVal buf (t + 1) w :=
  rfl

theorem readVal_congr (buf buf' : Buf) (t w : Nat)
    (h : ∀ k, k < w → bitAt buf' (t + k) = bitAt buf (t + k)) :
    readVal buf' t w = readVal buf t w := by
  induction w generalizing t with
  | zero => rfl
  | succ w ih =>
    rw [readVal_w_succ, readVal_w_succ]
    have h0 := h 0 (by omega)
    rw [Nat.add_zero] at h0
    rw [h0, ih (t + 1) (fun k hk => by
      rw [show t + 1 + k = t + (1 + k) by omega]
      exact h (1 + k) (by omega))]

theorem readVal_lt (buf : Buf) (t w : Nat) : readVal buf t w < 2 ^ w := by
  induction w generalizing t with
  | zero => simp [readVal_w_zero]
  | succ w ih =>
    rw [readVal_w_succ]
    have h1 := ih (t + 1)
    have h2 : (bitAt buf t).toNat ≤ 1 := Bool.toNat_le _
    have : 2 ^ (w + 1) = 2 * 2 ^ w := by ring
    omega

theorem readVal_of_matches (buf : Buf) (t w v : Nat)
    (hm : matchesVal buf t w v) : readVal buf t w = v % 2 ^ w := by
  induction w generalizing t v with
  | zero => simp [readVal_w_zero, Nat.mod_one]
  | succ w ih =>
    rw [readVal_w_succ]
    have h0 := hm 0 (by omega)
    rw [Nat.add_zero] at h0
    have htail : matchesVal buf (t + 1) w (v >>> 1) := by
      intro k hk
      have := hm (1 + k) (by omega)
      rw [Nat.testBit_shiftRight]
      rw [show t + 1 + k = t + (1 + k) by omega]
      exact this
    rw [h0, ih (t + 1) (v >>> 1) htail]
    have hsplit : v % (2 * 2 ^ w) = v % 2 + 2 * (v / 2 % 2 ^ w) := Nat.mod_mul
    have hpow : (2 : Nat) ^ (w + 1) = 2 * 2 ^ w := by ring
    have hshift : v >>> 1 = v / 2 := by
      rw [Nat.shiftRight_eq_div_pow, pow_one]
    have hbit : (v.testBit 0).toNat = v % 2 := by
      rw [Nat.testBit_zero]
      rcases Nat.mod_two_eq_zero_or_one v with h | h <;> simp [h]
    rw [hpow, hsplit, hbit, hshift]

theorem readVal_split (buf : Buf) (t w1 w2 : Nat) :
    readVal buf t (w1 + w2) =
      readVal buf t w1 + 2 ^ w1 * readVal buf (t + w1) w2 := by
  induction w1 generalizing t with
  | zero => simp [readVal_w_zero]
  | succ w1 ih =>
    have hcomm : w1 + 1 + w2 = (w1 + w2) + 1 := by omega
    rw [hcomm, readVal_w_succ, readVal_w_succ, ih (t + 1)]
    have : t + 1 + w1 = t + (w1 + 1) := by omega
    rw [this]
    have hpow : (2 : Nat) ^ (w1 + 1) = 2 * 2 ^ w1 := by ring
    rw [hpow]
    ring

theorem readVal_zero_region (buf : Buf) (t w : Nat)
    (h : ∀ k, k < w → bitAt buf (t + k) = false) : readVal buf t w = 0 := by
  have : matchesVal buf t w 0 := by
    intro k hk
    simp [h k hk]
  rw [readVal_of_matches _ _ _ _ this, Nat.zero_mod]

theorem testBit_toNat (x i : Nat) : (x.testBit i).toNat = x / 2 ^ i % 2 := by
  rw [Nat.testBit_to_div_mod]
  rcases Nat.mod_two_eq_zero_or_one (x / 2 ^ i) with h | h <;> simp [h]

theorem mask_low (w : Nat) (hw : w ≤ 8) : 255 >>> (8 - w) = 2 ^ w - 1 := by
  interval_cases w <;> rfl

theorem mask_high (b : Nat) (hb : b < 8) : 255 >>> b = 2 ^ (8 - b) - 1 := by
  interval_cases b <;> rfl

theorem readVal_within_byte (buf : Buf) (p b w : Nat) (hbw : b + w ≤ 8) :
    readVal buf (8 * p + b) w = (buf p >>> b) % 2 ^ w := by
  induction w generalizing b with
  | zero => simp [readVal_w_zero, Nat.mod_one]
  | succ w ih =>
    rw [readVal_w_succ, bitAt_byte _ _ _ (by omega)]
    rw [show 8 * p + b + 1 = 8 * p + (b + 1) by omega, ih (b + 1) (by omega)]
    have hsh : buf p >>> (b + 1) = (buf p >>> b) / 2 := by
      rw [Nat.shiftRight_add, Nat.shiftRight_eq_div_pow, pow_one]
    have hsplit : buf p >>> b % (2 * 2 ^ w) =
        buf p >>> b % 2 + 2 * ((buf p >>> b) / 2 % 2 ^ w) := Nat.mod_mul
    have hpow : (2 : Nat) ^ (w + 1) = 2 * 2 ^ w := by ring
    rw [hpow, hsplit, hsh, testBit_toNat, Nat.shiftRight_eq_div_pow]

theorem readVal_byte (buf : Buf) (p : Nat) (hB : buf p < 256) :
    readVal buf (8 * p) 8 = buf p := by
  have := readVal_within_byte buf p 0 8 (by omega)
  rw [Nat.add_zero] at this
  rw [this, Nat.shiftRight_zero, Nat.mod_eq_of_lt (by norm_num; omega)]

theorem byteOr_testBit (x m j : Nat) (hj : j < 8) :
    ((x ||| m) % 256).testBit j = (x.testBit j || m.testBit j) := by
  rw [show (256 : Nat) = 2 ^ 8 by norm_num, Nat.testBit_mod_two_pow,
    Nat.testBit_lor]
  simp [hj]

theorem and255_testBit (v j : Nat) (hj : j < 8) :
    (v &&& 255).testBit j = v.testBit j := by
  rw [show (255 : Nat) = 2 ^ 8 - 1 by norm_num, Nat.testBit_and,
    Nat.testBit_two_pow_sub_one]
  simp [hj]

theorem bit_shl_testBit (bit b j : Nat) (hbit : bit ≤ 1) :
    (bit <<< b).testBit j = (decide (j = b) && bit.testBit 0) := by
  rw [Nat.testBit_shiftLeft]
  interval_cases bit
  · simp [Nat.zero_testBit]
  · by_cases hjb : j = b
    · subst hjb
      simp [Nat.sub_self]
    · by_cases hge : j ≥ b
      · have h1 : j - b ≠ 0 := by omega
        have : Nat.testBit 1 (j - b) = false := by
          apply Nat.testBit_eq_false_of_lt
          have : 2 ≤ 2 ^ (j - b) := by
            calc (2 : Nat) = 2 ^ 1 := by norm_num
            _ ≤ 2 ^ (j - b) := Nat.pow_le_pow_right (by norm_num) (by omega)
          omega
        simp [hjb, this]
      · simp [hjb, hge]

/-! ### Specifications of the bit-cursor primitives -/

theorem put_bit_spec (output : Buf) (p b bit : Nat) (hb : b < 8)
    (hbit : bit ≤ 1) (hB : bytesLT output)
    (hz : bitAt output (8 * p + b) = false) :
    8 * (put_bit output p b bit).2.1 + (put_bit output p b bit).2.2 =
        (8 * p + b) + 1 ∧
    (put_bit output p b bit).2.2 < 8 ∧
    bytesLT (put_bit output p b bit).1 ∧
    (∀ i, i < 8 * p + b ∨ 8 * p + b + 1 ≤ i →
      bitAt (put_bit output p b bit).1 i = bitAt output i) ∧
    matchesVal (put_bit output p b bit).1 (8 * p + b) 1 bit := by
  have hval : (put_bit output p b bit).1 p =
      (output p ||| ((bit <<< b) &&& 255)) % 256 := by
    show stb output p _ p = _
    unfold stb
    simp
  have hbyte : ∀ j, j < 8 →
      ((put_bit output p b bit).1 p).testBit j =
        ((output p).testBit j || (decide (j = b) && bit.testBit 0)) := by
    intro j hj
    rw [hval, byteOr_testBit _ _ _ hj, and255_testBit _ _ hj,
      bit_shl_testBit _ _ _ hbit]
  refine ⟨?_, ?_, ?_, ?_, ?_⟩
  · show 8 * (p + ite _ _ _) + (b + 1) % 8 = 8 * p + b + 1
    by_cases hb7 : b = 7
    · subst hb7
      simp
      omega
    · have h1 : (b + 1) % 8 = b + 1 := Nat.mod_eq_of_lt (by omega)
      have h2 : b + 1 ≠ 0 := by omega
      simp only [h1, if_neg h2]
      omega
  · show (b + 1) % 8 < 8
    exact Nat.mod_lt _ (by norm_num)
  · exact bytesLT_stb _ _ _ hB (Nat.mod_lt _ (by norm_num))
  · intro i hi
    by_cases hip : i / 8 = p
    · have hd := bit_decomp i
      have hi8 : i = 8 * p + i % 8 := by omega
      rw [hi8, bitAt_byte _ _ _ hd.2, bitAt_byte _ _ _ hd.2]
      rw [hbyte _ hd.2]
      have hne : ¬ (i % 8 = b) := by omega
      simp [hne]
    · exact bitAt_stb_ne _ _ _ _ hip
  · intro k hk
    have hk0 : k = 0 := by omega
    subst hk0
    rw [Nat.add_zero, show (8 * p + b) = 8 * p + b from rfl,
      bitAt_byte _ _ _ hb, hbyte _ hb]
    rw [bitAt_byte _ _ _ hb] at hz
    simp [hz]

theorem grab_bit_spec (input : Buf) (p b : Nat) (hb : b < 8) :
    (grab_bit input p b).1 = (bitAt input (8 * p + b)).toNat ∧
    8 * (grab_bit input p b).2.1 + (grab_bit input p b).2.2 =
      (8 * p + b) + 1 ∧
    (grab_bit input p b).2.2 < 8 := by
  refine ⟨?_, ?_, ?_⟩
  · show (input p >>> b) &&& 1 = _
    rw [Nat.and_one_is_mod, Nat.shiftRight_eq_div_pow,
      bitAt_byte _ _ _ hb, testBit_toNat]
  · show 8 * (p + ite _ _ _) + (b + 1) % 8 = 8 * p + b + 1
    by_cases hb7 : b = 7
    · subst hb7
      simp
      omega
    · have h1 : (b + 1) % 8 = b + 1 := Nat.mod_eq_of_lt (by omega)
      have h2 : b + 1 ≠ 0 := by omega
      simp only [h1, if_neg h2]
      omega
  · exact Nat.mod_lt _ (by norm_num)

theorem putNumLoop_spec (fuel : Nat) :
    ∀ (output : Buf) (pos bits number : Nat), bits ≤ fuel → bytesLT output →
    (putNumLoop fuel output pos bits number).2.1 = pos + bits / 8 ∧
    (putNumLoop fuel output pos bits number).2.2.1 = bits % 8 ∧
    (putNumLoop fuel output pos bits number).2.2.2 =
      number >>> (8 * (bits / 8)) ∧
    bytesLT (putNumLoop fuel output pos bits number).1 ∧
    (∀ i, i < 8 * pos ∨ 8 * pos + 8 * (bits / 8) ≤ i →
      bitAt (putNumLoop fuel output pos bits number).1 i = bitAt output i) ∧
    matchesVal (putNumLoop fuel output pos bits number).1 (8 * pos)
      (8 * (bits / 8)) number := by
  induction fuel with
  | zero =>
    intro output pos bits number hle hB
    have hb0 : bits = 0 := by omega
    subst hb0
    refine ⟨?_, ?_, ?_, hB, fun i _ => rfl, ?_⟩
    · show pos = pos + 0 / 8
      omega
    · show (0 : Nat) = 0 % 8
      omega
    · show number = number >>> (8 * (0 / 8))
      rw [show (8 * (0 / 8)) = 0 from rfl, Nat.shiftRight_zero]
    · intro k hk
      exact absurd hk (by omega)
  | succ fuel ih =>
    intro output pos bits number hle hB
    by_cases h8 : 8 ≤ bits
    · have hstep : putNumLoop (fuel + 1) output pos bits number =
          putNumLoop fuel (stb output pos ((number &&& 255) % 256))
            (pos + 1) (bits - 8) (number >>> 8) := by
        simp [putNumLoop, h8]
      have hB' : bytesLT (stb output pos ((number &&& 255) % 256)) :=
        bytesLT_stb _ _ _ hB (Nat.mod_lt _ (by norm_num))
      obtain ⟨ih1, ih2, ih3, ih4, ih5, ih6⟩ :=
        ih (stb output pos ((number &&& 255) % 256)) (pos + 1) (bits - 8)
          (number >>> 8) (by omega) hB'
      have hdiv : bits / 8 = (bits - 8) / 8 + 1 := by omega
      have hmod : bits % 8 = (bits - 8) % 8 := by omega
      rw [hstep]
      refine ⟨?_, ?_, ?_, ih4, ?_, ?_⟩
      · rw [ih1]; omega
      · rw [ih2, hmod]
      · rw [ih3, ← Nat.shiftRight_add]
        congr 1
        omega
      · intro i hi
        have hstb : bitAt (stb output pos ((number &&& 255) % 256)) i =
            bitAt output i := by
          apply bitAt_stb_ne
          have hd := bit_decomp i
          omega
        rw [← hstb]
        apply ih5
        omega
      · intro k hk
        by_cases hk8 : k < 8
        · have h1 : bitAt (putNumLoop fuel
              (stb output pos ((number &&& 255) % 256)) (pos + 1) (bits - 8)
              (number >>> 8)).1 (8 * pos + k) =
              bitAt (stb output pos ((number &&& 255) % 256)) (8 * pos + k) := by
            apply ih5
            omega
          rw [h1, bitAt_stb_same _ _ _ _ hk8]
          rw [show ((256 : Nat)) = 2 ^ 8 by norm_num, Nat.testBit_mod_two_pow,
            and255_testBit _ _ hk8]
          simp [hk8]
        · have hkrange : k - 8 < 8 * ((bits - 8) / 8) := by omega
          have h2 := ih6 (k - 8) hkrange
          rw [show 8 * (pos + 1) + (k - 8) = 8 * pos + k by omega] at h2
          rw [h2, Nat.testBit_shiftRight]
          congr 1
          omega
    · have hstep : putNumLoop (fuel + 1) output pos bits number =
          (output, pos, bits, number) := by
        simp [putNumLoop, h8]
      rw [hstep]
      refine ⟨?_, ?_, ?_, hB, fun i _ => rfl, ?_⟩
      · show pos = pos + bits / 8
        omega
      · show bits = bits % 8
        omega
      · show number = number >>> (8 * (bits / 8))
        have hz : 8 * (bits / 8) = 0 := by omega
        rw [hz, Nat.shiftRight_zero]
      · intro k hk
        exact absurd hk (by omega)

theorem and255_of_lt (m : Nat) (hm : m < 256) : m &&& 255 = m := by
  rw [show (255 : Nat) = 2 ^ 8 - 1 by norm_num, Nat.and_pow_two_sub_one_eq_mod,
    Nat.mod_eq_of_lt (by norm_num; omega)]

theorem masked_testBit (n w b j : Nat) :
    ((n &&& (2 ^ w - 1)) <<< b).testBit j =
      (decide (b ≤ j) && (decide (j - b < w) && n.testBit (j - b))) := by
  rw [Nat.testBit_shiftLeft, Nat.testBit_and, Nat.testBit_two_pow_sub_one]
  by_cases hbj : b ≤ j
  · simp [hbj, Bool.and_comm]
  · simp [hbj]

/-- One ORed store of the low `w` bits of `n` into bits `b, …, b+w-1` of
byte `p` (the single-byte write all three write paths of `put_number`
and `put_ones` reduce to). -/
theorem or_write_spec (output : Buf) (p b w n : Nat) (hb : b < 8)
    (hbw : b + w ≤ 8) (hB : bytesLT output)
    (hz : ∀ k, k < w → bitAt output (8 * p + b + k) = false) :
    bytesLT (stb output p
      ((output p ||| ((n &&& (2 ^ w - 1)) <<< b)) % 256)) ∧
    (∀ i, i < 8 * p + b ∨ 8 * p + b + w ≤ i →
      bitAt (stb output p
        ((output p ||| ((n &&& (2 ^ w - 1)) <<< b)) % 256)) i = bitAt output i) ∧
    matchesVal (stb output p
      ((output p ||| ((n &&& (2 ^ w - 1)) <<< b)) % 256)) (8 * p + b) w n := by
  have hbyte : ∀ j, j < 8 →
      (((output p ||| ((n &&& (2 ^ w - 1)) <<< b)) % 256)).testBit j =
        ((output p).testBit j ||
          (decide (b ≤ j) && (decide (j - b < w) && n.testBit (j - b)))) := by
    intro j hj
    rw [byteOr_testBit _ _ _ hj, masked_testBit]
  refine ⟨?_, ?_, ?_⟩
  · exact bytesLT_stb _ _ _ hB (Nat.mod_lt _ (by norm_num))
  · intro i hi
    by_cases hip : i / 8 = p
    · have hd := bit_decomp i
      have hi8 : i = 8 * p + i % 8 := by omega
      rw [hi8, bitAt_byte _ _ _ hd.2, bitAt_byte _ _ _ hd.2]
      show (stb output p _ p).testBit _ = _
      unfold stb
      rw [if_pos rfl, hbyte _ hd.2]
      have : ¬ (b ≤ i % 8) ∨ ¬ (i % 8 - b < w) := by omega
      rcases this with h | h <;> simp [h]
    · exact bitAt_stb_ne _ _ _ _ hip
  · intro k hk
    rw [show 8 * p + b + k = 8 * p + (b + k) by omega,
      bitAt_stb_same _ _ _ _ (by omega), hbyte _ (by omega)]
    have h1 : b ≤ b + k := by omega
    have h2 : b + k - b = k := by omega
    have hzk := hz k hk
    rw [show 8 * p + b + k = 8 * p + (b + k) by omega,
      bitAt_byte _ _ _ (by omega)] at hzk
    simp [h1, h2, hk, hzk]

theorem put_number_spec (output : Buf) (p b w n : Nat) (hb : b < 8)
    (hB : bytesLT output)
    (hz : ∀ k, k < w → bitAt output (8 * p + b + k) = false) :
    8 * (put_number output p b w n).2.1 + (put_number output p b w n).2.2 =
      (8 * p + b) + w ∧
    (put_number output p b w n).2.2 < 8 ∧
    bytesLT (put_number output p b w n).1 ∧
    (∀ i, i < 8 * p + b ∨ 8 * p + b + w ≤ i →
      bitAt (put_number output p b w n).1 i = bitAt output i) ∧
    matchesVal (put_number output p b w n).1 (8 * p + b) w n := by
  by_cases hcase : 8 - b < w
  · -- first partial byte, interior bytes, then a possible trailing part
    have hw1 : 255 >>> b = 2 ^ (8 - b) - 1 := mask_high b hb
    set w1 := 8 - b with hw1def
    set y1 := (output p ||| (((n &&& (255 >>> b)) <<< b) &&& 255)) % 256 with hy1
    have hy1' : y1 = (output p ||| ((n &&& (2 ^ w1 - 1)) <<< b)) % 256 := by
      rw [hy1, hw1]
      congr 2
      apply and255_of_lt
      have h1 : n &&& (2 ^ w1 - 1) < 2 ^ w1 := by
        rw [Nat.and_pow_two_sub_one_eq_mod]
        exact Nat.mod_lt _ (Nat.two_pow_pos _)
      calc (n &&& (2 ^ w1 - 1)) <<< b < 2 ^ w1 <<< b := by
            rw [Nat.shiftLeft_eq, Nat.shiftLeft_eq]
            exact mul_lt_mul_of_pos_right h1 (Nat.two_pow_pos _)
        _ ≤ 256 := by
            rw [Nat.shiftLeft_eq, ← pow_add,
              show w1 + b = 8 by omega]
            norm_num
    obtain ⟨hO1, hO2, hO3⟩ :=
      or_write_spec output p b w1 n hb (by omega) hB
        (fun k hk => hz k (by omega))
    rw [← hy1'] at hO1 hO2 hO3
    set buf1 := stb output p y1 with hbuf1
    set bits1 := w - w1 with hbits1
    set number1 := n >>> w1 with hnumber1
    obtain ⟨hL1, hL2, hL3, hL4, hL5, hL6⟩ :=
      putNumLoop_spec bits1 buf1 (p + 1) bits1 number1 le_rfl hO1
    set L := putNumLoop bits1 buf1 (p + 1) bits1 number1 with hL
    set pos2 := p + 1 + bits1 / 8 with hpos2
    set bits2 := bits1 % 8 with hbits2
    set number2 := number1 >>> (8 * (bits1 / 8)) with hnumber2
    have hres : put_number output p b w n =
        (if bits2 ≠ 0 then
          (stb L.1 pos2
            ((L.1 pos2 ||| ((number2 &&& (255 >>> (8 - bits2))) <<< 0)) % 256),
           pos2 + (if (0 + bits2) % 8 = 0 then 1 else 0), (0 + bits2) % 8)
        else
          (L.1, pos2, 0)) := by
      show put_number output p b w n = _
      unfold put_number
      rw [if_pos hcase]
      simp only [← hy1, ← hbuf1, ← hbits1, ← hnumber1, ← hL]
      rw [hL1, hL2, hL3]
    have hww1 : w1 < w := hcase
    have hbw1 : b + w1 = 8 := by omega
    have hdm : 8 * (bits1 / 8) + bits2 = bits1 := by
      rw [hbits2]
      omega
    have hnum1bit : ∀ u, number1.testBit u = n.testBit (w1 + u) := by
      intro u
      rw [hnumber1, Nat.testBit_shiftRight]
    have hnum2bit : ∀ u, number2.testBit u =
        n.testBit (w1 + 8 * (bits1 / 8) + u) := by
      intro u
      rw [hnumber2, Nat.testBit_shiftRight, hnum1bit]
      congr 1
      omega
    by_cases hb2 : bits2 = 0
    · rw [hres, if_neg (by omega)]
      refine ⟨?_, by norm_num, hL4, ?_, ?_⟩
      · show 8 * pos2 + 0 = 8 * p + b + w
        omega
      · intro i hi
        have hstep1 : bitAt (L.1) i = bitAt buf1 i := by
          apply hL5
          omega
        rw [show (L.1, pos2, (0 : Nat)).1 = L.1 from rfl, hstep1]
        apply hO2
        omega
      · intro k hk
        by_cases hkw1 : k < w1
        · have hstep1 : bitAt (L.1) (8 * p + b + k) = bitAt buf1 (8 * p + b + k) := by
            apply hL5
            omega
          show bitAt L.1 (8 * p + b + k) = n.testBit k
          rw [hstep1]
          exact hO3 k hkw1
        · have hkk : k - w1 < 8 * (bits1 / 8) := by omega
          have := hL6 (k - w1) hkk
          rw [show 8 * (p + 1) + (k - w1) = 8 * p + b + k by omega] at this
          show bitAt L.1 (8 * p + b + k) = n.testBit k
          rw [this, hnum1bit]
          congr 1
          omega
    · have hb28 : bits2 < 8 := by
        rw [hbits2]
        omega
      have hzL : ∀ k, k < bits2 → bitAt L.1 (8 * pos2 + 0 + k) = false := by
        intro k hk
        have h1 : bitAt L.1 (8 * pos2 + 0 + k) = bitAt buf1 (8 * pos2 + 0 + k) := by
          apply hL5
          omega
        have h2 : bitAt buf1 (8 * pos2 + 0 + k) = bitAt output (8 * pos2 + 0 + k) := by
          apply hO2
          omega
        have h3 := hz (w1 + 8 * (bits1 / 8) + k) (by omega)
        rw [show 8 * p + b + (w1 + 8 * (bits1 / 8) + k) = 8 * pos2 + 0 + k
          by omega] at h3
        rw [h1, h2, h3]
      obtain ⟨hP1, hP2, hP3⟩ :=
        or_write_spec L.1 pos2 0 bits2 number2 (by norm_num) (by omega) hL4 hzL
      have hy3 : (L.1 pos2 ||| ((number2 &&& (255 >>> (8 - bits2))) <<< 0)) % 256 =
          (L.1 pos2 ||| ((number2 &&& (2 ^ bits2 - 1)) <<< 0)) % 256 := by
        rw [mask_low bits2 (by omega)]
      rw [hres, if_pos hb2, hy3]
      have hmod2 : (0 + bits2) % 8 = bits2 := by
        rw [Nat.zero_add]
        exact Nat.mod_eq_of_lt hb28
      rw [hmod2]
      refine ⟨?_, ?_, hP1, ?_, ?_⟩
      · rw [if_neg hb2]
        show 8 * (pos2 + 0) + bits2 = 8 * p + b + w
        omega
      · rw [if_neg hb2]
        exact hb28
      · rw [if_neg hb2]
        intro i hi
        have h1 : bitAt (stb L.1 pos2
            ((L.1 pos2 ||| ((number2 &&& (2 ^ bits2 - 1)) <<< 0)) % 256)) i =
            bitAt L.1 i := by
          apply hP2
          omega
        have h2 : bitAt L.1 i = bitAt buf1 i := by
          apply hL5
          omega
        rw [h1, h2]
        apply hO2
        omega
      · rw [if_neg hb2]
        intro k hk
        set res := stb L.1 pos2
          ((L.1 pos2 ||| ((number2 &&& (2 ^ bits2 - 1)) <<< 0)) % 256) with hresdef
        by_cases hkw1 : k < w1
        · have h1 : bitAt res (8 * p + b + k) = bitAt L.1 (8 * p + b + k) := by
            apply hP2
            omega
          have h2 : bitAt L.1 (8 * p + b + k) = bitAt buf1 (8 * p + b + k) := by
            apply hL5
            omega
          show bitAt res (8 * p + b + k) = n.testBit k
          rw [h1, h2]
          exact hO3 k hkw1
        · by_cases hkmid : k - w1 < 8 * (bits1 / 8)
          · have h1 : bitAt res (8 * p + b + k) = bitAt L.1 (8 * p + b + k) := by
              apply hP2
              omega
            have h2 := hL6 (k - w1) hkmid
            rw [show 8 * (p + 1) + (k - w1) = 8 * p + b + k by omega] at h2
            show bitAt res (8 * p + b + k) = n.testBit k
            rw [h1, h2, hnum1bit]
            congr 1
            omega
          · have hkk : k - w1 - 8 * (bits1 / 8) < bits2 := by omega
            have h1 := hP3 (k - w1 - 8 * (bits1 / 8)) hkk
            rw [show 8 * pos2 + 0 + (k - w1 - 8 * (bits1 / 8)) = 8 * p + b + k
              by omega] at h1
            show bitAt res (8 * p + b + k) = n.testBit k
            rw [h1, hnum2bit]
            congr 1
            omega
  · -- everything fits before the next byte boundary
    have hw8 : w ≤ 8 - b := by omega
    by_cases hw0 : w = 0
    · subst hw0
      have hres : put_number output p b 0 n = (output, p, b) := by
        unfold put_number
        rw [if_neg hcase]
        simp
      rw [hres]
      refine ⟨?_, hb, hB, fun i _ => rfl, fun k hk => by omega⟩
      show 8 * p + b = 8 * p + b + 0
      omega
    · have hres : put_number output p b w n =
          (stb output p
            ((output p ||| ((n &&& (255 >>> (8 - w))) <<< b)) % 256),
           p + (if (b + w) % 8 = 0 then 1 else 0), (b + w) % 8) := by
        unfold put_number
        rw [if_neg hcase]
        simp only []
        rw [if_pos hw0]
      have hy : (output p ||| ((n &&& (255 >>> (8 - w))) <<< b)) % 256 =
          (output p ||| ((n &&& (2 ^ w - 1)) <<< b)) % 256 := by
        rw [mask_low w (by omega)]
      obtain ⟨hP1, hP2, hP3⟩ :=
        or_write_spec output p b w n hb (by omega) hB hz
      rw [hres, hy]
      refine ⟨?_, Nat.mod_lt _ (by norm_num), hP1, hP2, hP3⟩
      by_cases hbw8 : b + w = 8
      · rw [hbw8]
        simp
        omega
      · have h1 : (b + w) % 8 = b + w := Nat.mod_eq_of_lt (by omega)
        have h2 : b + w ≠ 0 := by omega
        rw [h1]
        simp only [if_neg h2]
        omega

theorem putOnesLoop_spec (fuel : Nat) :
    ∀ (output : Buf) (pos ones : Nat), ones ≤ fuel → bytesLT output →
    (putOnesLoop fuel output pos ones).2.1 = pos + ones / 8 ∧
    (putOnesLoop fuel output pos ones).2.2 = ones % 8 ∧
    bytesLT (putOnesLoop fuel output pos ones).1 ∧
    (∀ i, i < 8 * pos ∨ 8 * pos + 8 * (ones / 8) ≤ i →
      bitAt (putOnesLoop fuel output pos ones).1 i = bitAt output i) ∧
    (∀ k, k < 8 * (ones / 8) →
      bitAt (putOnesLoop fuel output pos ones).1 (8 * pos + k) = true) := by
  induction fuel with
  | zero =>
    intro output pos ones hle hB
    have h0 : ones = 0 := by omega
    subst h0
    refine ⟨?_, ?_, hB, fun i _ => rfl, ?_⟩
    · show pos = pos + 0 / 8
      omega
    · show (0 : Nat) = 0 % 8
      omega
    · intro k hk
      exact absurd hk (by omega)
  | succ fuel ih =>
    intro output pos ones hle hB
    by_cases h8 : 8 ≤ ones
    · have hstep : putOnesLoop (fuel + 1) output pos ones =
          putOnesLoop fuel (stb output pos 255) (pos + 1) (ones - 8) := by
        simp [putOnesLoop, h8]
      have hB' : bytesLT (stb output pos 255) :=
        bytesLT_stb _ _ _ hB (by norm_num)
      obtain ⟨ih1, ih2, ih3, ih4, ih5⟩ :=
        ih (stb output pos 255) (pos + 1) (ones - 8) (by omega) hB'
      rw [hstep]
      refine ⟨?_, ?_, ih3, ?_, ?_⟩
      · rw [ih1]
        omega
      · rw [ih2]
        omega
      · intro i hi
        have hstb : bitAt (stb output pos 255) i = bitAt output i := by
          apply bitAt_stb_ne
          have hd := bit_decomp i
          omega
        rw [← hstb]
        apply ih4
        omega
      · intro k hk
        by_cases hk8 : k < 8
        · have h1 : bitAt (putOnesLoop fuel (stb output pos 255) (pos + 1)
              (ones - 8)).1 (8 * pos + k) =
              bitAt (stb output pos 255) (8 * pos + k) := by
            apply ih4
            omega
          rw [h1, bitAt_stb_same _ _ _ _ hk8]
          rw [show (255 : Nat) = 2 ^ 8 - 1 by norm_num,
            Nat.testBit_two_pow_sub_one]
          simp [hk8]
        · have := ih5 (k - 8) (by omega)
          rw [show 8 * (pos + 1) + (k - 8) = 8 * pos + k by omega] at this
          exact this
    · have hstep : putOnesLoop (fuel + 1) output pos ones =
          (output, pos, ones) := by
        simp [putOnesLoop, h8]
      rw [hstep]
      refine ⟨?_, ?_, hB, fun i _ => rfl, ?_⟩
      · show pos = pos + ones / 8
        omega
      · show ones = ones % 8
        omega
      · intro k hk
        exact absurd hk (by omega)

theorem ones_first_byte (b : Nat) (hb : b < 8) :
    (255 <<< b) &&& 255 = (((2 : Nat) ^ (8 - b) - 1) &&& (2 ^ (8 - b) - 1)) <<< b := by
  rw [Nat.and_self]
  interval_cases b <;> rfl

theorem ones_partial_byte (o : Nat) (ho : o ≤ 8) :
    ((255 >>> (8 - o)) <<< 0) &&& 255 =
      (((2 : Nat) ^ o - 1) &&& (2 ^ o - 1)) <<< 0 := by
  rw [mask_low o ho, Nat.and_self]
  apply and255_of_lt
  have h1 := Nat.two_pow_pos o
  have h2 : (2 : Nat) ^ o ≤ 2 ^ 8 := Nat.pow_le_pow_right (by norm_num) ho
  norm_num at h2 ⊢
  omega

theorem put_ones_spec (output : Buf) (p b q : Nat) (hb : b < 8)
    (hB : bytesLT output)
    (hz : ∀ k, k < q → bitAt output (8 * p + b + k) = false) :
    8 * (put_ones output p b q).2.1 + (put_ones output p b q).2.2 =
      (8 * p + b) + q ∧
    (put_ones output p b q).2.2 < 8 ∧
    bytesLT (put_ones output p b q).1 ∧
    (∀ i, i < 8 * p + b ∨ 8 * p + b + q ≤ i →
      bitAt (put_ones output p b q).1 i = bitAt output i) ∧
    (∀ k, k < q → bitAt (put_ones output p b q).1 (8 * p + b + k) = true) := by
  by_cases hcase : 8 - b < q
  · set w1 := 8 - b with hw1def
    have hofb := ones_first_byte b hb
    rw [show ((2:Nat) ^ (8 - b) - 1) = 2 ^ w1 - 1 from rfl] at hofb
    obtain ⟨hO1, hO2, hO3⟩ :=
      or_write_spec output p b w1 (2 ^ w1 - 1) hb (by omega) hB
        (fun k hk => hz k (by omega))
    set y1 := (output p ||| ((255 <<< b) &&& 255)) % 256 with hy1
    have hy1' : y1 = (output p ||| (((2 ^ w1 - 1) &&& (2 ^ w1 - 1)) <<< b)) % 256 := by
      rw [hy1, hofb]
    rw [← hy1'] at hO1 hO2 hO3
    set buf1 := stb output p y1 with hbuf1
    set ones1 := q - w1 with hones1
    obtain ⟨hL1, hL2, hL3, hL4, hL5⟩ :=
      putOnesLoop_spec ones1 buf1 (p + 1) ones1 le_rfl hO1
    set L := putOnesLoop ones1 buf1 (p + 1) ones1 with hL
    set pos2 := p + 1 + ones1 / 8 with hpos2
    set ones2 := ones1 % 8 with hones2
    have hres : put_ones output p b q =
        (if ones2 ≠ 0 then
          (stb L.1 pos2
            ((L.1 pos2 ||| (((255 >>> (8 - ones2)) <<< 0) &&& 255)) % 256),
           pos2 + (if (0 + ones2) % 8 = 0 then 1 else 0), (0 + ones2) % 8)
        else
          (L.1, pos2, 0)) := by
      show put_ones output p b q = _
      unfold put_ones
      rw [if_pos hcase]
      simp only [← hy1, ← hbuf1, ← hones1, ← hL]
      rw [hL1, hL2]
    have hww1 : w1 < q := hcase
    have hbw1 : b + w1 = 8 := by omega
    have hdm : 8 * (ones1 / 8) + ones2 = ones1 := by
      rw [hones2]
      omega
    by_cases ho2 : ones2 = 0
    · rw [hres, if_neg (by omega)]
      refine ⟨?_, by norm_num, hL3, ?_, ?_⟩
      · show 8 * pos2 + 0 = 8 * p + b + q
        omega
      · intro i hi
        have h1 : bitAt L.1 i = bitAt buf1 i := by
          apply hL4
          omega
        show bitAt L.1 i = bitAt output i
        rw [h1]
        apply hO2
        omega
      · intro k hk
        by_cases hkw1 : k < w1
        · have h1 : bitAt L.1 (8 * p + b + k) = bitAt buf1 (8 * p + b + k) := by
            apply hL4
            omega
          show bitAt L.1 (8 * p + b + k) = true
          rw [h1, hO3 k hkw1, Nat.testBit_two_pow_sub_one]
          simp [hkw1]
        · have := hL5 (k - w1) (by omega)
          rw [show 8 * (p + 1) + (k - w1) = 8 * p + b + k by omega] at this
          exact this
    · have ho28 : ones2 < 8 := by
        rw [hones2]
        omega
      have hzL : ∀ k, k < ones2 → bitAt L.1 (8 * pos2 + 0 + k) = false := by
        intro k hk
        have h1 : bitAt L.1 (8 * pos2 + 0 + k) = bitAt buf1 (8 * pos2 + 0 + k) := by
          apply hL4
          omega
        have h2 : bitAt buf1 (8 * pos2 + 0 + k) = bitAt output (8 * pos2 + 0 + k) := by
          apply hO2
          omega
        have h3 := hz (w1 + 8 * (ones1 / 8) + k) (by omega)
        rw [show 8 * p + b + (w1 + 8 * (ones1 / 8) + k) = 8 * pos2 + 0 + k
          by omega] at h3
        rw [h1, h2, h3]
      obtain ⟨hP1, hP2, hP3⟩ :=
        or_write_spec L.1 pos2 0 ones2 (2 ^ ones2 - 1) (by norm_num) (by omega)
          hL3 hzL
      have hy3 : (L.1 pos2 ||| (((255 >>> (8 - ones2)) <<< 0) &&& 255)) % 256 =
          (L.1 pos2 ||| (((2 ^ ones2 - 1) &&& (2 ^ ones2 - 1)) <<< 0)) % 256 := by
        rw [ones_partial_byte ones2 (by omega)]
      rw [hres, if_pos ho2, hy3]
      have hmod2 : (0 + ones2) % 8 = ones2 := by
        rw [Nat.zero_add]
        exact Nat.mod_eq_of_lt ho28
      rw [hmod2]
      refine ⟨?_, ?_, hP1, ?_, ?_⟩
      · rw [if_neg ho2]
        show 8 * (pos2 + 0) + ones2 = 8 * p + b + q
        omega
      · rw [if_neg ho2]
        exact ho28
      · rw [if_neg ho2]
        intro i hi
        have h1 : bitAt (stb L.1 pos2
            ((L.1 pos2 ||| (((2 ^ ones2 - 1) &&& (2 ^ ones2 - 1)) <<< 0)) % 256)) i =
            bitAt L.1 i := by
          apply hP2
          omega
        have h2 : bitAt L.1 i = bitAt buf1 i := by
          apply hL4
          omega
        rw [h1, h2]
        apply hO2
        omega
      · rw [if_neg ho2]
        intro k hk
        set res := stb L.1 pos2
          ((L.1 pos2 ||| (((2 ^ ones2 - 1) &&& (2 ^ ones2 - 1)) <<< 0)) % 256)
          with hresdef
        by_cases hkw1 : k < w1
        · have h1 : bitAt res (8 * p + b + k) = bitAt L.1 (8 * p + b + k) := by
            apply hP2
            omega
          have h2 : bitAt L.1 (8 * p + b + k) = bitAt buf1 (8 * p + b + k) := by
            apply hL4
            omega
          show bitAt res (8 * p + b + k) = true
          rw [h1, h2, hO3 k hkw1, Nat.testBit_two_pow_sub_one]
          simp [hkw1]
        · by_cases hkmid : k - w1 < 8 * (ones1 / 8)
          · have h1 : bitAt res (8 * p + b + k) = bitAt L.1 (8 * p + b + k) := by
              apply hP2
              omega
            have h2 := hL5 (k - w1) hkmid
            rw [show 8 * (p + 1) + (k - w1) = 8 * p + b + k by omega] at h2
            show bitAt res (8 * p + b + k) = true
            rw [h1, h2]
          · have hkk : k - w1 - 8 * (ones1 / 8) < ones2 := by omega
            have h1 := hP3 (k - w1 - 8 * (ones1 / 8)) hkk
            rw [show 8 * pos2 + 0 + (k - w1 - 8 * (ones1 / 8)) = 8 * p + b + k
              by omega] at h1
            show bitAt res (8 * p + b + k) = true
            rw [h1, Nat.testBit_two_pow_sub_one]
            simp [hkk]
  · by_cases hq0 : q = 0
    · subst hq0
      have hres : put_ones output p b 0 = (output, p, b) := by
        unfold put_ones
        rw [if_neg hcase]
        simp
      rw [hres]
      refine ⟨?_, hb, hB, fun i _ => rfl, fun k hk => by omega⟩
      show 8 * p + b = 8 * p + b + 0
      omega
    · have hres : put_ones output p b q =
          (stb output p
            ((output p ||| (((255 >>> (8 - q)) <<< b) &&& 255)) % 256),
           p + (if (b + q) % 8 = 0 then 1 else 0), (b + q) % 8) := by
        unfold put_ones
        rw [if_neg hcase]
        simp only []
        rw [if_pos hq0]
      have hAB : ((255 >>> (8 - q)) <<< b) &&& 255 =
          (((2 : Nat) ^ q - 1) &&& (2 ^ q - 1)) <<< b := by
        rw [mask_low q (by omega), Nat.and_self]
        apply and255_of_lt
        have h1 : (2 : Nat) ^ q - 1 < 2 ^ q := by
          have := Nat.two_pow_pos q
          omega
        calc ((2 : Nat) ^ q - 1) <<< b < 2 ^ q <<< b := by
              rw [Nat.shiftLeft_eq, Nat.shiftLeft_eq]
              exact mul_lt_mul_of_pos_right h1 (Nat.two_pow_pos _)
          _ ≤ 256 := by
              rw [Nat.shiftLeft_eq, ← pow_add]
              calc (2 : Nat) ^ (q + b) ≤ 2 ^ 8 :=
                    Nat.pow_le_pow_right (by norm_num) (by omega)
                _ = 256 := by norm_num
      have hy : (output p ||| (((255 >>> (8 - q)) <<< b) &&& 255)) % 256 =
          (output p ||| (((2 ^ q - 1) &&& (2 ^ q - 1)) <<< b)) % 256 := by
        rw [hAB]
      obtain ⟨hP1, hP2, hP3⟩ :=
        or_write_spec output p b q (2 ^ q - 1) hb (by omega) hB hz
      rw [hres, hy]
      refine ⟨?_, Nat.mod_lt _ (by norm_num), hP1, hP2, ?_⟩
      · by_cases hbq8 : b + q = 8
        · rw [hbq8]
          simp
          omega
        · have h1 : (b + q) % 8 = b + q := Nat.mod_eq_of_lt (by omega)
          have h2 : b + q ≠ 0 := by omega
          rw [h1]
          simp only [if_neg h2]
          omega
      · intro k hk
        rw [hP3 k hk, Nat.testBit_two_pow_sub_one]
        simp [hk]

theorem grabNumLoop_spec (fuel : Nat) :
    ∀ (input : Buf) (pos bits tally r : Nat), bits ≤ fuel → bytesLT input →
    r < 2 ^ tally →
    (grabNumLoop fuel input pos bits tally r).1 =
      r + 2 ^ tally * readVal input (8 * pos) (8 * (bits / 8)) ∧
    (grabNumLoop fuel input pos bits tally r).2.1 = pos + bits / 8 ∧
    (grabNumLoop fuel input pos bits tally r).2.2.1 = bits % 8 ∧
    (grabNumLoop fuel input pos bits tally r).2.2.2 = tally + 8 * (bits / 8) ∧
    (grabNumLoop fuel input pos bits tally r).1 <
      2 ^ (tally + 8 * (bits / 8)) := by
  induction fuel with
  | zero =>
    intro input pos bits tally r hle hB hr
    have h0 : bits = 0 := by omega
    subst h0
    refine ⟨?_, ?_, ?_, ?_, ?_⟩
    · show r = r + 2 ^ tally * readVal input (8 * pos) (8 * (0 / 8))
      rw [show (8 * (0 / 8)) = 0 from rfl, readVal_w_zero]
      omega
    · show pos = pos + 0 / 8
      omega
    · show (0 : Nat) = 0 % 8
      omega
    · show tally = tally + 8 * (0 / 8)
      omega
    · show r < 2 ^ (tally + 8 * (0 / 8))
      rw [show (8 * (0 / 8)) = 0 from rfl]
      simpa using hr
  | succ fuel ih =>
    intro input pos bits tally r hle hB hr
    by_cases h8 : 8 ≤ bits
    · have hstep : grabNumLoop (fuel + 1) input pos bits tally r =
          grabNumLoop fuel input (pos + 1) (bits - 8) (tally + 8)
            (r ||| (input pos <<< tally)) := by
        simp [grabNumLoop, h8]
      have hor : r ||| (input pos <<< tally) = r + 2 ^ tally * input pos :=
        lor_shiftLeft_eq_add _ _ _ hr
      have hr' : r ||| (input pos <<< tally) < 2 ^ (tally + 8) := by
        rw [hor]
        have h1 : input pos < 256 := hB pos
        have h2 : (2 : Nat) ^ (tally + 8) = 2 ^ tally * 256 := by
          rw [pow_add]
          norm_num
        rw [h2]
        calc r + 2 ^ tally * input pos
            < 2 ^ tally + 2 ^ tally * 255 := by
              have h3 : 2 ^ tally * input pos ≤ 2 ^ tally * 255 :=
                Nat.mul_le_mul_left _ (by omega)
              omega
          _ = 2 ^ tally * 256 := by ring
      obtain ⟨ih1, ih2, ih3, ih4, ih5⟩ :=
        ih input (pos + 1) (bits - 8) (tally + 8) (r ||| (input pos <<< tally))
          (by omega) hB hr'
      have hdiv : bits / 8 = (bits - 8) / 8 + 1 := by omega
      have hmod : bits % 8 = (bits - 8) % 8 := by omega
      rw [hstep]
      refine ⟨?_, ?_, ?_, ?_, ?_⟩
      · rw [ih1, hor, hdiv]
        have hrv : readVal input (8 * pos) (8 * ((bits - 8) / 8 + 1)) =
            readVal input (8 * pos) 8 +
              2 ^ 8 * readVal input (8 * pos + 8) (8 * ((bits - 8) / 8)) := by
          rw [show 8 * ((bits - 8) / 8 + 1) = 8 + 8 * ((bits - 8) / 8) by ring,
            readVal_split]
        rw [hrv, readVal_byte _ _ (hB pos),
          show 8 * pos + 8 = 8 * (pos + 1) by ring]
        rw [pow_add]
        ring
      · rw [ih2]
        omega
      · rw [ih3, hmod]
      · rw [ih4]
        omega
      · rw [show tally + 8 * (bits / 8) = tally + 8 + 8 * ((bits - 8) / 8)
          by omega]
        exact ih5
    · have hstep : grabNumLoop (fuel + 1) input pos bits tally r =
          (r, pos, bits, tally) := by
        simp [grabNumLoop, h8]
      rw [hstep]
      have hz : 8 * (bits / 8) = 0 := by omega
      refine ⟨?_, ?_, ?_, ?_, ?_⟩
      · show r = r + 2 ^ tally * readVal input (8 * pos) (8 * (bits / 8))
        rw [hz, readVal_w_zero]
        omega
      · show pos = pos + bits / 8
        omega
      · show bits = bits % 8
        omega
      · show tally = tally + 8 * (bits / 8)
        omega
      · show r < 2 ^ (tally + 8 * (bits / 8))
        rw [hz]
        simpa using hr

theorem grab_number_spec (input : Buf) (p b w : Nat) (hb : b < 8)
    (hB : bytesLT input) :
    (grab_number input p b w).1 = readVal input (8 * p + b) w ∧
    8 * (grab_number input p b w).2.1 + (grab_number input p b w).2.2 =
      (8 * p + b) + w ∧
    (grab_number input p b w).2.2 < 8 := by
  by_cases hcase : 8 - b < w
  · set w1 := 8 - b with hw1def
    have hbw1 : b + w1 = 8 := by omega
    set bits1 := w - w1 with hbits1
    set r0 := input p >>> b with hr0
    have hr0v : r0 = readVal input (8 * p + b) w1 := by
      rw [readVal_within_byte input p b w1 (by omega), hr0,
        Nat.mod_eq_of_lt]
      have h1 : input p < 256 := hB p
      rw [Nat.shiftRight_eq_div_pow]
      apply Nat.div_lt_of_lt_mul
      calc input p < 256 := h1
        _ ≤ 2 ^ b * 2 ^ w1 := by
          rw [← pow_add, show b + w1 = 8 by omega]
          norm_num
    have hr0lt : r0 < 2 ^ w1 := by
      rw [hr0v]
      exact readVal_lt _ _ _
    obtain ⟨hL1, hL2, hL3, hL4, hL5⟩ :=
      grabNumLoop_spec bits1 input (p + 1) bits1 w1 r0 le_rfl hB hr0lt
    set L := grabNumLoop bits1 input (p + 1) bits1 w1 r0 with hL
    set pos2 := p + 1 + bits1 / 8 with hpos2
    set bits2 := bits1 % 8 with hbits2
    set tally2 := w1 + 8 * (bits1 / 8) with htally2
    have hres : grab_number input p b w =
        (if bits2 ≠ 0 then
          (L.1 ||| (((input pos2 >>> 0) &&& (255 >>> (8 - bits2))) <<< tally2),
           pos2 + (if (0 + bits2) % 8 = 0 then 1 else 0), (0 + bits2) % 8)
        else
          (L.1, pos2, 0)) := by
      show grab_number input p b w = _
      unfold grab_number
      rw [if_pos hcase]
      simp only [← hr0, ← hbits1, ← hL]
      rw [hL2, hL3, hL4]
    have hdm : 8 * (bits1 / 8) + bits2 = bits1 := by
      rw [hbits2]
      omega
    have hL1v : L.1 = readVal input (8 * p + b) (w1 + 8 * (bits1 / 8)) := by
      rw [hL1, readVal_split, ← hr0v]
      have heq : 8 * p + b + w1 = 8 * (p + 1) := by omega
      rw [heq]
    by_cases hb2 : bits2 = 0
    · rw [hres, if_neg (by omega)]
      refine ⟨?_, ?_, by norm_num⟩
      · show L.1 = readVal input (8 * p + b) w
        rw [hL1v]
        congr 1
        omega
      · show 8 * pos2 + 0 = 8 * p + b + w
        omega
    · have hb28 : bits2 < 8 := by
        rw [hbits2]
        omega
      rw [hres, if_pos hb2]
      have hmod2 : (0 + bits2) % 8 = bits2 := by
        rw [Nat.zero_add]
        exact Nat.mod_eq_of_lt hb28
      rw [hmod2]
      refine ⟨?_, ?_, ?_⟩
      · show L.1 ||| (((input pos2 >>> 0) &&& (255 >>> (8 - bits2))) <<< tally2) =
          readVal input (8 * p + b) w
        have hpart : (input pos2 >>> 0) &&& (255 >>> (8 - bits2)) =
            readVal input (8 * pos2) bits2 := by
          rw [Nat.shiftRight_zero, mask_low bits2 (by omega),
            Nat.and_pow_two_sub_one_eq_mod]
          rw [show 8 * pos2 = 8 * pos2 + 0 by omega,
            readVal_within_byte input pos2 0 bits2 (by omega),
            Nat.shiftRight_zero]
        have hLlt : L.1 < 2 ^ tally2 := by
          rw [htally2]
          exact hL5
        rw [hpart, lor_shiftLeft_eq_add _ _ _ hLlt]
        have hw : w = tally2 + bits2 := by omega
        rw [hw, readVal_split, hL1v]
        have hpos : 8 * p + b + tally2 = 8 * pos2 := by omega
        rw [hpos]
      · show 8 * (pos2 + if bits2 = 0 then 1 else 0) + bits2 = 8 * p + b + w
        rw [if_neg hb2]
        omega
      · exact hb28
  · have hw8 : w ≤ 8 - b := by omega
    by_cases hw0 : w = 0
    · subst hw0
      have hres : grab_number input p b 0 = (0, p, b) := by
        unfold grab_number
        rw [if_neg hcase]
        simp
      rw [hres]
      refine ⟨?_, ?_, hb⟩
      · show (0 : Nat) = readVal input (8 * p + b) 0
        rw [readVal_w_zero]
      · show 8 * p + b = 8 * p + b + 0
        omega
    · have hres : grab_number input p b w =
          (0 ||| (((input p >>> b) &&& (255 >>> (8 - w))) <<< 0),
           p + (if (b + w) % 8 = 0 then 1 else 0), (b + w) % 8) := by
        unfold grab_number
        rw [if_neg hcase]
        simp only []
        rw [if_pos hw0]
      rw [hres]
      refine ⟨?_, ?_, Nat.mod_lt _ (by norm_num)⟩
      · show 0 ||| (((input p >>> b) &&& (255 >>> (8 - w))) <<< 0) =
          readVal input (8 * p + b) w
        rw [Nat.zero_or, Nat.shiftLeft_zero, mask_low w (by omega),
          Nat.and_pow_two_sub_one_eq_mod,
          readVal_within_byte input p b w (by omega)]
      · by_cases hbw8 : b + w = 8
        · rw [hbw8]
          simp
          omega
        · have h1 : (b + w) % 8 = b + w := Nat.mod_eq_of_lt (by omega)
          have h2 : b + w ≠ 0 := by omega
          rw [h1]
          simp only [if_neg h2]
          omega

theorem grab_unary_spec (input : Buf) (k : Nat) :
    ∀ (q fuel p b diff : Nat), b < 8 → q < fuel →
    (∀ m, m < q → bitAt input (8 * p + b + m) = true) →
    bitAt input (8 * p + b + q) = false →
    ∃ p' b', grab_unary input k fuel p b diff =
        some (diff + q * (1 <<< k), p', b') ∧
      8 * p' + b' = 8 * p + b + q + 1 ∧ b' < 8 := by
  intro q
  induction q with
  | zero =>
    intro fuel p b diff hb hfuel hones hzero
    obtain ⟨f, rfl⟩ : ∃ f, fuel = f + 1 := ⟨fuel - 1, by omega⟩
    obtain ⟨hg1, hg2, hg3⟩ := grab_bit_spec input p b hb
    rw [Nat.add_zero] at hzero
    have hbit0 : (grab_bit input p b).1 = 0 := by
      rw [hg1, hzero]
      rfl
    refine ⟨(grab_bit input p b).2.1, (grab_bit input p b).2.2, ?_, by omega, hg3⟩
    show (if (grab_bit input p b).1 = 1 then _ else
      some (diff, (grab_bit input p b).2.1, (grab_bit input p b).2.2)) = _
    rw [if_neg (by omega)]
    rw [show diff + 0 * (1 <<< k) = diff by omega]
  | succ q ih =>
    intro fuel p b diff hb hfuel hones hzero
    obtain ⟨f, rfl⟩ : ∃ f, fuel = f + 1 := ⟨fuel - 1, by omega⟩
    obtain ⟨hg1, hg2, hg3⟩ := grab_bit_spec input p b hb
    have hbit1 : (grab_bit input p b).1 = 1 := by
      have h0 := hones 0 (by omega)
      rw [Nat.add_zero] at h0
      rw [hg1, h0]
      rfl
    have hstep : grab_unary input k (f + 1) p b diff =
        grab_unary input k f (grab_bit input p b).2.1 (grab_bit input p b).2.2
          (diff + (1 <<< k)) := by
      show (if (grab_bit input p b).1 = 1 then _ else _) = _
      rw [if_pos hbit1]
    obtain ⟨p', b', hrun, hcur, hb'⟩ :=
      ih f (grab_bit input p b).2.1 (grab_bit input p b).2.2 (diff + (1 <<< k))
        hg3 (by omega)
        (fun m hm => by
          have := hones (m + 1) (by omega)
          rw [show 8 * (grab_bit input p b).2.1 + (grab_bit input p b).2.2 + m =
            8 * p + b + (m + 1) by omega]
          exact this)
        (by
          rw [show 8 * (grab_bit input p b).2.1 + (grab_bit input p b).2.2 + q =
            8 * p + b + (q + 1) by omega]
          exact hzero)
    refine ⟨p', b', ?_, by omega, hb'⟩
    rw [hstep, hrun]
    congr 2
    ring

/-! ### Chunk-list composition -/

theorem chunksWidth_append (L1 L2 : List (Nat × Nat)) :
    chunksWidth (L1 ++ L2) = chunksWidth L1 + chunksWidth L2 := by
  induction L1 with
  | nil => simp [chunksWidth]
  | cons c rest ih =>
    show c.1 + chunksWidth (rest ++ L2) = c.1 + chunksWidth rest + chunksWidth L2
    rw [ih]
    omega

theorem matchesChunks_append (buf : Buf) (t : Nat) (L1 L2 : List (Nat × Nat)) :
    matchesChunks buf t (L1 ++ L2) ↔
      matchesChunks buf t L1 ∧ matchesChunks buf (t + chunksWidth L1) L2 := by
  induction L1 generalizing t with
  | nil =>
    show matchesChunks buf t L2 ↔ True ∧ matchesChunks buf (t + chunksWidth []) L2
    simp [chunksWidth]
  | cons c rest ih =>
    show matchesVal buf t c.1 c.2 ∧ matchesChunks buf (t + c.1) (rest ++ L2) ↔
      (matchesVal buf t c.1 c.2 ∧ matchesChunks buf (t + c.1) rest) ∧ _
    rw [ih (t + c.1)]
    constructor
    · rintro ⟨h1, h2, h3⟩
      refine ⟨⟨h1, h2⟩, ?_⟩
      rw [show t + chunksWidth (c :: rest) = t + c.1 + chunksWidth rest by
        show t + (c.1 + chunksWidth rest) = _
        omega]
      exact h3
    · rintro ⟨⟨h1, h2⟩, h3⟩
      refine ⟨h1, h2, ?_⟩
      rw [show t + c.1 + chunksWidth rest = t + chunksWidth (c :: rest) by
        show _ = t + (c.1 + chunksWidth rest)
        omega]
      exact h3

theorem matchesChunks_congr (buf buf' : Buf) (t : Nat) (L : List (Nat × Nat))
    (h : ∀ i, t ≤ i → i < t + chunksWidth L → bitAt buf' i = bitAt buf i)
    (hm : matchesChunks buf t L) : matchesChunks buf' t L := by
  induction L generalizing t with
  | nil => trivial
  | cons c rest ih =>
    obtain ⟨h1, h2⟩ := hm
    have hw : chunksWidth (c :: rest) = c.1 + chunksWidth rest := rfl
    refine ⟨?_, ?_⟩
    · apply matchesVal_congr buf _ _ _ _ _ h1
      intro k hk
      apply h _ (by omega)
      rw [hw]
      omega
    · apply ih (t + c.1) _ h2
      intro i hi1 hi2
      apply h _ (by omega)
      rw [hw]
      omega

/-! ### `WriteOk`: the write primitives as chunk appenders -/

theorem put_number_ok (st : Buf × Nat × Nat) (w n : Nat) (h : Inv st) :
    WriteOk st (put_number st.1 st.2.1 st.2.2 w n) w n := by
  obtain ⟨h8, hB, hz⟩ := h
  obtain ⟨p1, p2, p3, p4, p5⟩ :=
    put_number_spec st.1 st.2.1 st.2.2 w n h8 hB
      (fun k hk => hz _ (by omega))
  refine ⟨p1, p2, p3, ?_, ?_, p5⟩
  · intro j hj
    exact p4 j (Or.inl hj)
  · intro j hj
    rw [p4 j (Or.inr hj)]
    exact hz j (by omega)

theorem put_bit_ok (st : Buf × Nat × Nat) (bit : Nat) (hbit : bit ≤ 1)
    (h : Inv st) : WriteOk st (put_bit st.1 st.2.1 st.2.2 bit) 1 bit := by
  obtain ⟨h8, hB, hz⟩ := h
  obtain ⟨p1, p2, p3, p4, p5⟩ :=
    put_bit_spec st.1 st.2.1 st.2.2 bit h8 hbit hB (hz _ (by omega))
  refine ⟨p1, p2, p3, ?_, ?_, p5⟩
  · intro j hj
    exact p4 j (Or.inl hj)
  · intro j hj
    rw [p4 j (Or.inr hj)]
    exact hz j (by omega)

theorem put_ones_ok (st : Buf × Nat × Nat) (q : Nat) (h : Inv st) :
    WriteOk st (put_ones st.1 st.2.1 st.2.2 q) q (2 ^ q - 1) := by
  obtain ⟨h8, hB, hz⟩ := h
  obtain ⟨p1, p2, p3, p4, p5⟩ :=
    put_ones_spec st.1 st.2.1 st.2.2 q h8 hB (fun k hk => hz _ (by omega))
  refine ⟨p1, p2, p3, ?_, ?_, ?_⟩
  · intro j hj
    exact p4 j (Or.inl hj)
  · intro j hj
    rw [p4 j (Or.inr hj)]
    exact hz j (by omega)
  · intro k hk
    rw [p5 k hk, Nat.testBit_two_pow_sub_one]
    simp [hk]

theorem WriteOk.inv_out {st st' : Buf × Nat × Nat} {w v : Nat}
    (hw : WriteOk st st' w v) : Inv st' := by
  obtain ⟨p1, p2, p3, _, p5, _⟩ := hw
  exact ⟨p2, p3, by rw [p1]; exact p5⟩

theorem WriteOk.writesChunks {st st' : Buf × Nat × Nat} {w v : Nat}
    (hw : WriteOk st st' w v) : WritesChunks st st' [(w, v)] := by
  obtain ⟨p1, p2, p3, p4, p5, p6⟩ := hw
  have hwid : chunksWidth [(w, v)] = w := by
    show w + 0 = w
    omega
  refine ⟨by rw [hwid]; exact p1, p2, p3, p4, by rw [hwid]; exact p5, p6, trivial⟩

theorem WritesChunks.refl (st : Buf × Nat × Nat) (h : Inv st) :
    WritesChunks st st [] := by
  obtain ⟨h8, hB, hz⟩ := h
  exact ⟨by show _ = _ + 0; omega, h8, hB, fun j _ => rfl,
    by show zeroFrom _ (_ + 0); simpa using hz, trivial⟩

theorem WritesChunks.inv_end {st st' : Buf × Nat × Nat} {L : List (Nat × Nat)}
    (hw : WritesChunks st st' L) : Inv st' := by
  obtain ⟨p1, p2, p3, _, p5, _⟩ := hw
  exact ⟨p2, p3, by rw [p1]; exact p5⟩

theorem WritesChunks.comp {st st1 st2 : Buf × Nat × Nat}
    {L1 L2 : List (Nat × Nat)} (h1 : WritesChunks st st1 L1)
    (h2 : WritesChunks st1 st2 L2) : WritesChunks st st2 (L1 ++ L2) := by
  obtain ⟨a1, a2, a3, a4, a5, a6⟩ := h1
  obtain ⟨b1, b2, b3, b4, b5, b6⟩ := h2
  refine ⟨?_, b2, b3, ?_, ?_, ?_⟩
  · rw [chunksWidth_append]
    omega
  · intro j hj
    rw [b4 j (by omega), a4 j hj]
  · rw [chunksWidth_append]
    intro j hj
    apply b5
    omega
  · rw [matchesChunks_append]
    refine ⟨?_, ?_⟩
    · apply matchesChunks_congr st1.1 st2.1 _ _ _ a6
      intro i hi1 hi2
      apply b4
      omega
    · rw [show 8 * st.2.1 + st.2.2 + chunksWidth L1 = 8 * st1.2.1 + st1.2.2
        by omega]
      exact b6

/-! ### The encoder writes exactly the chunk stream -/

theorem encSamples_spec (samples : Nat → Int) (ch i chan k : Nat) :
    ∀ (fuel l : Nat) (prev : Int) (st : Buf × Nat × Nat), Inv st →
    WritesChunks st (encSamples samples ch i chan k fuel l prev st)
      (chanSampleChunks samples ch i chan k fuel l prev) := by
  intro fuel
  induction fuel with
  | zero =>
    intro l prev st hInv
    exact WritesChunks.refl st hInv
  | succ fuel ih =>
    intro l prev st hInv
    have hw1 := put_bit_ok st
      (if samples ((i + l) * ch + chan) - prev < 0 then 1 else 0)
      (by split <;> omega) hInv
    set st1 := put_bit st.1 st.2.1 st.2.2
      (if samples ((i + l) * ch + chan) - prev < 0 then 1 else 0) with hst1
    have hw2 := put_ones_ok st1
      ((BTW_abs (samples ((i + l) * ch + chan) - prev)).toNat >>> k) hw1.inv_out
    set st2 := put_ones st1.1 st1.2.1 st1.2.2
      ((BTW_abs (samples ((i + l) * ch + chan) - prev)).toNat >>> k) with hst2
    have hw3 := put_bit_ok st2 0 (by omega) hw2.inv_out
    set st3 := put_bit st2.1 st2.2.1 st2.2.2 0 with hst3
    have hw4 := put_number_ok st3 k
      ((BTW_abs (samples ((i + l) * ch + chan) - prev)).toNat) hw3.inv_out
    set st4 := put_number st3.1 st3.2.1 st3.2.2 k
      ((BTW_abs (samples ((i + l) * ch + chan) - prev)).toNat) with hst4
    have hrec := ih (l + 1) (samples ((i + l) * ch + chan)) st4 hw4.inv_out
    have hstep : encSamples samples ch i chan k (fuel + 1) l prev st =
        encSamples samples ch i chan k fuel (l + 1)
          (samples ((i + l) * ch + chan)) st4 := rfl
    have hchunks : chanSampleChunks samples ch i chan k (fuel + 1) l prev =
        sampleChunks k prev (samples ((i + l) * ch + chan)) ++
          chanSampleChunks samples ch i chan k fuel (l + 1)
            (samples ((i + l) * ch + chan)) := rfl
    rw [hstep, hchunks]
    have hsample : WritesChunks st st4
        (sampleChunks k prev (samples ((i + l) * ch + chan))) := by
      have hc := ((hw1.writesChunks.comp hw2.writesChunks).comp
        hw3.writesChunks).comp hw4.writesChunks
      exact hc
    exact hsample.comp hrec

theorem encChannel_spec (samples : Nat → Int) (ch i cap bprl chan : Nat)
    (st : Buf × Nat × Nat) (hInv : Inv st) :
    WritesChunks st (encChannel samples ch i cap bprl chan st)
      (chanChunks samples ch i cap bprl chan) := by
  have hw1 := put_number_ok st bprl (riceLenOf samples ch i cap chan) hInv
  set st1 := put_number st.1 st.2.1 st.2.2 bprl
    (riceLenOf samples ch i cap chan) with hst1
  have hrec := encSamples_spec samples ch i chan
    (riceLenOf samples ch i cap chan) cap 0 0 st1 hw1.inv_out
  exact hw1.writesChunks.comp hrec

theorem encChannels_spec (samples : Nat → Int) (ch i cap bprl : Nat) :
    ∀ (fuel chan : Nat) (st : Buf × Nat × Nat), Inv st →
    WritesChunks st (encChannels samples ch i cap bprl fuel chan st)
      (channelsChunks samples ch i cap bprl fuel chan) := by
  intro fuel
  induction fuel with
  | zero =>
    intro chan st hInv
    exact WritesChunks.refl st hInv
  | succ fuel ih =>
    intro chan st hInv
    have h1 := encChannel_spec samples ch i cap bprl chan st hInv
    have h2 := ih (chan + 1) _ h1.inv_end
    exact h1.comp h2

theorem encBlocks_spec (samples : Nat → Int) (d : btw_def) (bprl : Nat) :
    ∀ (fuel i : Nat) (st : Buf × Nat × Nat), Inv st →
    WritesChunks st (encBlocks samples d bprl fuel i st)
      (blocksChunks samples d bprl fuel i) := by
  intro fuel
  induction fuel with
  | zero =>
    intro i st hInv
    exact WritesChunks.refl st hInv
  | succ fuel ih =>
    intro i st hInv
    have h1 := encChannels_spec samples d.channels i
      (if d.sample_count - i < BTW_BLOCK_SIZE then d.sample_count - i
        else BTW_BLOCK_SIZE) bprl d.channels 0 st hInv
    have h2 := ih (i + (if d.sample_count - i < BTW_BLOCK_SIZE
      then d.sample_count - i else BTW_BLOCK_SIZE)) _ h1.inv_end
    exact h1.comp h2

theorem encHeader_spec (d : btw_def) :
    WritesChunks ((fun _ => 0 : Buf), 0, 0) (encHeader d) (headerChunks d) := by
  have hInv0 : Inv ((fun _ => 0 : Buf), 0, 0) := by
    refine ⟨?_, ?_, ?_⟩
    · show (0 : Nat) < 8
      norm_num
    · intro i
      show (0 : Nat) < 256
      norm_num
    · intro j _
      show (0 : Nat).testBit _ = false
      exact Nat.zero_testBit _
  have hw1 : WriteOk ((fun _ => 0 : Buf), 0, 0) encHdr1 32 BTW_MAGIC :=
    put_number_ok _ 32 BTW_MAGIC hInv0
  have hw2 : WriteOk encHdr1 (encHdr2 d) 64 d.sample_count :=
    put_number_ok _ 64 d.sample_count hw1.inv_out
  have hw3 : WriteOk (encHdr2 d) (encHdr3 d) 16 d.channels :=
    put_number_ok _ 16 d.channels hw2.inv_out
  have hw4 : WriteOk (encHdr3 d) (encHdr4 d) 16 d.bits_per_sample :=
    put_number_ok _ 16 d.bits_per_sample hw3.inv_out
  have hw5 : WriteOk (encHdr4 d) (encHeader d) 32 d.sample_rate :=
    put_number_ok _ 32 d.sample_rate hw4.inv_out
  exact (((hw1.writesChunks.comp hw2.writesChunks).comp
    hw3.writesChunks).comp hw4.writesChunks).comp hw5.writesChunks

theorem chunksWidth_headerChunks (d : btw_def) :
    chunksWidth (headerChunks d) = 160 := by
  show 32 + (64 + (16 + (16 + (32 + 0)))) = 160
  norm_num

theorem encHeader_cursor (d : btw_def) :
    (encHeader d).2.1 = 20 ∧ (encHeader d).2.2 = 0 := by
  obtain ⟨c1, c2, _, _, _, _⟩ := encHeader_spec d
  rw [chunksWidth_headerChunks] at c1
  have h0 : 8 * ((fun _ => 0 : Buf), 0, 0).2.1 + ((fun _ => 0 : Buf), 0, 0).2.2
      = 0 := rfl
  rw [h0] at c1
  omega

theorem btw_encode_spec (samples : Nat → Int) (d : btw_def)
    (hch : d.channels ≠ 0) (hrate : d.sample_rate ≠ 0)
    (hcount : d.sample_count ≠ 0) (hbits : d.bits_per_sample ≠ 0) :
    ∃ st : Buf × Nat × Nat,
      btw_encode (some samples) (some d) =
        some (st.1, st.2.1 + (if st.2.2 ≠ 0 then 1 else 0)) ∧
      8 * st.2.1 + st.2.2 = 160 +
        chunksWidth (blocksChunks samples d (bits_required d.bits_per_sample)
          ((d.sample_count + 511) / 512) 0) ∧
      st.2.2 < 8 ∧ bytesLT st.1 ∧
      zeroFrom st.1 (8 * st.2.1 + st.2.2) ∧
      matchesChunks st.1 0 (headerChunks d) ∧
      matchesChunks st.1 160
        (blocksChunks samples d (bits_required d.bits_per_sample)
          ((d.sample_count + 511) / 512) 0) := by
  have henc : btw_encode (some samples) (some d) =
      some ((encBlocks samples d (bits_required d.bits_per_sample)
          ((d.sample_count + 511) / 512) 0
          ((encHeader d).1, (encHeader d).2.1, 0)).1,
        (encBlocks samples d (bits_required d.bits_per_sample)
          ((d.sample_count + 511) / 512) 0
          ((encHeader d).1, (encHeader d).2.1, 0)).2.1 +
        (if (encBlocks samples d (bits_required d.bits_per_sample)
          ((d.sample_count + 511) / 512) 0
          ((encHeader d).1, (encHeader d).2.1, 0)).2.2 ≠ 0 then 1 else 0)) := by
    have hval : ¬(d.channels = 0 ∨ d.sample_rate = 0 ∨ d.sample_count = 0 ∨
        d.bits_per_sample = 0) := by tauto
    show (if d.channels = 0 ∨ d.sample_rate = 0 ∨ d.sample_count = 0 ∨
        d.bits_per_sample = 0 then none
      else
        let bits_per_rice_len := bits_required d.bits_per_sample
        let st := encHeader d
        let numBlocks := (d.sample_count + 511) / 512
        let st := encBlocks samples d bits_per_rice_len numBlocks 0
          (st.1, st.2.1, 0)
        some (st.1, st.2.1 + if st.2.2 ≠ 0 then 1 else 0)) = _
    rw [if_neg hval]
  obtain ⟨c1, c2, c3, c4, c5, c6⟩ := encHeader_spec d
  obtain ⟨hp20, hb0⟩ := encHeader_cursor d
  rw [chunksWidth_headerChunks] at c1 c5
  have h0 : 8 * ((fun _ => 0 : Buf), 0, 0).2.1 + ((fun _ => 0 : Buf), 0, 0).2.2
      = 0 := rfl
  rw [h0] at c1 c5 c6
  obtain ⟨stH, hstH⟩ : ∃ x, encHeader d = x := ⟨_, rfl⟩
  rw [hstH] at henc c1 c2 c3 c4 c5 c6 hp20 hb0
  have hInvB : Inv (stH.1, stH.2.1, 0) := by
    refine ⟨?_, c3, ?_⟩
    · show (0 : Nat) < 8
      norm_num
    · show zeroFrom stH.1 (8 * stH.2.1 + 0)
      rw [hp20]
      rw [show 8 * 20 + 0 = 0 + 160 by norm_num]
      exact c5
  obtain ⟨e1, e2, e3, e4, e5, e6⟩ :=
    encBlocks_spec samples d (bits_required d.bits_per_sample)
      ((d.sample_count + 511) / 512) 0 (stH.1, stH.2.1, 0) hInvB
  obtain ⟨stF, hstF⟩ : ∃ x, encBlocks samples d (bits_required d.bits_per_sample)
      ((d.sample_count + 511) / 512) 0 (stH.1, stH.2.1, 0) = x := ⟨_, rfl⟩
  rw [hstF] at henc e1 e2 e3 e4 e5 e6
  have hcurB : 8 * (stH.1, stH.2.1, 0).2.1 + (stH.1, stH.2.1, 0).2.2 = 160 := by
    show 8 * stH.2.1 + 0 = 160
    omega
  rw [hcurB] at e1 e4 e5 e6
  refine ⟨stF, henc, e1, e2, e3, ?_, ?_, e6⟩
  · rw [e1]
    exact e5
  · apply matchesChunks_congr stH.1 _ _ _ _ c6
    intro i hi1 hi2
    apply e4
    rw [chunksWidth_headerChunks] at hi2
    omega

/-! ### Reading back the header -/

theorem header_bytes (buf : Buf) (hB : bytesLT buf)
    (hm : matchesVal buf 0 32 BTW_MAGIC) :
    buf 0 = 98 ∧ buf 1 = 116 ∧ buf 2 = 119 ∧ buf 3 = 102 := by
  have hbyte : ∀ j, j < 4 → buf j = (BTW_MAGIC >>> (8 * j)) % 2 ^ 8 := by
    intro j hj
    have h1 : readVal buf (8 * j) 8 = buf j := readVal_byte buf j (hB j)
    have h2 : matchesVal buf (0 + 8 * j) (32 - 8 * j) (BTW_MAGIC >>> (8 * j)) :=
      matchesVal_drop buf 0 32 (8 * j) BTW_MAGIC (by omega) hm
    have h3 : matchesVal buf (8 * j) 8 (BTW_MAGIC >>> (8 * j)) := by
      rw [Nat.zero_add] at h2
      exact matchesVal_take buf (8 * j) (32 - 8 * j) 8 _ (by omega) h2
    rw [← h1, readVal_of_matches _ _ _ _ h3]
  refine ⟨?_, ?_, ?_, ?_⟩
  · rw [hbyte 0 (by norm_num)]
    decide
  · rw [hbyte 1 (by norm_num)]
    decide
  · rw [hbyte 2 (by norm_num)]
    decide
  · rw [hbyte 3 (by norm_num)]
    decide

theorem btw_read_metadata_spec (data : Buf) (d d0 : btw_def)
    (hB : bytesLT data) (hm : matchesChunks data 0 (headerChunks d))
    (hsc : d.sample_count < 2 ^ 64) (hch : d.channels < 2 ^ 16)
    (hbps : d.bits_per_sample < 2 ^ 16) (hrate : d.sample_rate < 2 ^ 32) :
    btw_read_metadata data d0 = d := by
  obtain ⟨m1, m2, m3, m4, m5, -⟩ := hm
  rw [Nat.zero_add] at m2
  rw [show (0 : Nat) + 32 + 64 = 96 by norm_num] at m3
  rw [show (0 : Nat) + 32 + 64 + 16 = 112 by norm_num] at m4
  rw [show (0 : Nat) + 32 + 64 + 16 + 16 = 128 by norm_num] at m5
  obtain ⟨hb0, hb1, hb2, hb3⟩ := header_bytes data hB m1
  obtain ⟨G1, hG1⟩ : ∃ x, readHdr1 data = x := ⟨_, rfl⟩
  have hg1 : G1.1 = readVal data (8 * 4 + 0) 64 ∧
      8 * G1.2.1 + G1.2.2 = (8 * 4 + 0) + 64 ∧ G1.2.2 < 8 := by
    rw [← hG1]
    exact grab_number_spec data 4 0 64 (by norm_num) hB
  have hp1 : G1.2.1 = 12 ∧ G1.2.2 = 0 := by omega
  have e2 : readHdr2 data = grab_number data G1.2.1 G1.2.2 16 := by
    unfold readHdr2
    rw [hG1]
  obtain ⟨G2, hG2⟩ : ∃ x, readHdr2 data = x := ⟨_, rfl⟩
  have hg2 : G2.1 = readVal data (8 * G1.2.1 + G1.2.2) 16 ∧
      8 * G2.2.1 + G2.2.2 = (8 * G1.2.1 + G1.2.2) + 16 ∧ G2.2.2 < 8 := by
    rw [← hG2, e2]
    exact grab_number_spec data G1.2.1 G1.2.2 16 (by omega) hB
  have hp2 : G2.2.1 = 14 ∧ G2.2.2 = 0 := by omega
  have e3 : readHdr3 data = grab_number data G2.2.1 G2.2.2 16 := by
    unfold readHdr3
    rw [hG2]
  obtain ⟨G3, hG3⟩ : ∃ x, readHdr3 data = x := ⟨_, rfl⟩
  have hg3 : G3.1 = readVal data (8 * G2.2.1 + G2.2.2) 16 ∧
      8 * G3.2.1 + G3.2.2 = (8 * G2.2.1 + G2.2.2) + 16 ∧ G3.2.2 < 8 := by
    rw [← hG3, e3]
    exact grab_number_spec data G2.2.1 G2.2.2 16 (by omega) hB
  have hp3 : G3.2.1 = 16 ∧ G3.2.2 = 0 := by omega
  have e4 : readHdr4 data = grab_number data G3.2.1 G3.2.2 32 := by
    unfold readHdr4
    rw [hG3]
  obtain ⟨G4, hG4⟩ : ∃ x, readHdr4 data = x := ⟨_, rfl⟩
  have hg4 : G4.1 = readVal data (8 * G3.2.1 + G3.2.2) 32 ∧
      8 * G4.2.1 + G4.2.2 = (8 * G3.2.1 + G3.2.2) + 32 ∧ G4.2.2 < 8 := by
    rw [← hG4, e4]
    exact grab_number_spec data G3.2.1 G3.2.2 32 (by omega) hB
  have hv1 : G1.1 = d.sample_count := by
    rw [hg1.1, show 8 * 4 + 0 = 32 by norm_num, readVal_of_matches _ _ _ _ m2,
      Nat.mod_eq_of_lt hsc]
  have hv2 : G2.1 = d.channels := by
    rw [hg2.1, hp1.1, hp1.2, show 8 * 12 + 0 = 96 by norm_num,
      readVal_of_matches _ _ _ _ m3, Nat.mod_eq_of_lt hch]
  have hv3 : G3.1 = d.bits_per_sample := by
    rw [hg3.1, hp2.1, hp2.2, show 8 * 14 + 0 = 112 by norm_num,
      readVal_of_matches _ _ _ _ m4, Nat.mod_eq_of_lt hbps]
  have hv4 : G4.1 = d.sample_rate := by
    rw [hg4.1, hp3.1, hp3.2, show 8 * 16 + 0 = 128 by norm_num,
      readVal_of_matches _ _ _ _ m5, Nat.mod_eq_of_lt hrate]
  unfold btw_read_metadata
  rw [if_pos ⟨hb0, hb1, hb2, hb3⟩, hG1, hG2, hG3, hG4, hv1, hv2, hv3, hv4]

theorem btw_read_metadata_bad_magic (data : Buf) (d0 : btw_def)
    (h : ¬(data 0 = 98 ∧ data 1 = 116 ∧ data 2 = 119 ∧ data 3 = 102)) :
    btw_read_metadata data d0 = d0 := by
  unfold btw_read_metadata
  rw [if_neg h]

/-! ### The decoder reads the chunk stream back -/

theorem unary_rem_value (q k rem : Nat) (hrem : rem < 2 ^ k) :
    (q * (1 <<< k)) ||| rem = 2 ^ k * q + rem := by
  rw [Nat.one_shiftLeft, Nat.lor_comm, ← Nat.shiftLeft_eq,
    lor_shiftLeft_eq_add _ _ _ hrem]
  ring

theorem signed_diff (d : Int) :
    (if (if d < 0 then 1 else 0) = 1 then (((BTW_abs d).toNat : Int)) * -1
      else ((BTW_abs d).toNat : Int)) = d := by
  by_cases hd : d < 0
  · rw [if_pos hd, if_pos rfl]
    have habs : BTW_abs d = d * -1 := by
      unfold BTW_abs
      rw [if_neg (by omega)]
    rw [habs, Int.toNat_of_nonneg (by omega)]
    ring
  · rw [if_neg hd, if_neg (by norm_num)]
    have habs : BTW_abs d = d := by
      unfold BTW_abs
      rw [if_pos (by omega)]
    rw [habs, Int.toNat_of_nonneg (by omega)]

theorem magnitude_split (a k : Nat) :
    2 ^ k * (a >>> k) + a % 2 ^ k = a := by
  rw [Nat.shiftRight_eq_div_pow]
  exact Nat.div_add_mod a (2 ^ k)

theorem decSamples_spec (data : Buf) (samples : Nat → Int)
    (F ch i chan k : Nat) (hB : bytesLT data) (hch : ch ≠ 0) :
    ∀ (fuel l : Nat) (prev : Int) (p b : Nat) (out : Nat → Int) (ol : Nat),
    b < 8 →
    matchesChunks data (8 * p + b)
      (chanSampleChunks samples ch i chan k fuel l prev) →
    (∀ m, m < fuel →
      (BTW_abs (samples ((i + (l + m)) * ch + chan) -
        (if m = 0 then prev
         else samples ((i + (l + m) - 1) * ch + chan)))).toNat >>> k < F) →
    ∃ p' b' out',
      decSamples data F ch i chan k fuel l prev p b out ol =
        some (p', b', out', ol + fuel) ∧
      8 * p' + b' = (8 * p + b) +
        chunksWidth (chanSampleChunks samples ch i chan k fuel l prev) ∧
      b' < 8 ∧
      (∀ m, m < fuel → out' ((i + (l + m)) * ch + chan) =
        samples ((i + (l + m)) * ch + chan)) ∧
      (∀ idx, (∀ m, m < fuel → idx ≠ (i + (l + m)) * ch + chan) →
        out' idx = out idx) := by
  intro fuel
  induction fuel with
  | zero =>
    intro l prev p b out ol hb hm hF
    refine ⟨p, b, out, rfl, ?_, hb, fun m hm' => absurd hm' (by omega),
      fun idx _ => rfl⟩
    show 8 * p + b = 8 * p + b + (0 : Nat)
    omega
  | succ fuel ih =>
    intro l prev p b out ol hb hm hF
    obtain ⟨mc1, mc2, mc3, mc4, mrest⟩ := hm
    set t := 8 * p + b with ht
    set cur := samples ((i + l) * ch + chan) with hcur
    set d := cur - prev with hd
    set sgn : Nat := if d < 0 then 1 else 0 with hsgn
    set a := (BTW_abs d).toNat with ha
    set q := a >>> k with hq
    -- the sign bit
    obtain ⟨Gb, hGb⟩ : ∃ x, grab_bit data p b = x := ⟨_, rfl⟩
    have hgb : Gb.1 = (bitAt data t).toNat ∧ 8 * Gb.2.1 + Gb.2.2 = t + 1 ∧
        Gb.2.2 < 8 := by
      rw [← hGb]
      exact grab_bit_spec data p b hb
    have hsignbit : Gb.1 = sgn := by
      rw [hgb.1]
      have := mc1 0 (by norm_num)
      rw [Nat.add_zero] at this
      rw [this]
      rw [hsgn]
      by_cases hneg : d < 0
      · rw [if_pos hneg]
        rfl
      · rw [if_neg hneg]
        rfl
    -- the unary quotient
    have hones : ∀ m, m < q → bitAt data (8 * Gb.2.1 + Gb.2.2 + m) = true := by
      intro m hm'
      have := mc2 m hm'
      rw [Nat.testBit_two_pow_sub_one] at this
      rw [show 8 * Gb.2.1 + Gb.2.2 + m = t + 1 + m by omega]
      rw [this]
      simp [hm']
    have hterm : bitAt data (8 * Gb.2.1 + Gb.2.2 + q) = false := by
      have := mc3 0 (by norm_num)
      rw [Nat.add_zero] at this
      rw [show 8 * Gb.2.1 + Gb.2.2 + q = t + 1 + q by omega, this]
      rfl
    obtain ⟨p2, b2, hrun, hcur2, hb2⟩ :=
      grab_unary_spec data k q F Gb.2.1 Gb.2.2 0 hgb.2.2 (hF 0 (by omega))
        hones hterm
    -- the remainder
    obtain ⟨Gr, hGr⟩ : ∃ x, grab_number data p2 b2 k = x := ⟨_, rfl⟩
    have hgr : Gr.1 = readVal data (8 * p2 + b2) k ∧
        8 * Gr.2.1 + Gr.2.2 = (8 * p2 + b2) + k ∧ Gr.2.2 < 8 := by
      rw [← hGr]
      exact grab_number_spec data p2 b2 k hb2 hB
    have hremv : Gr.1 = a % 2 ^ k := by
      rw [hgr.1, show 8 * p2 + b2 = t + (1 + (q + 1)) by omega]
      rw [show t + (1 + (q + 1)) = t + 1 + q + 1 by omega]
      have hm4 : matchesVal data (t + 1 + q + 1) k a := by
        rw [show t + 1 + q + 1 = t + 1 + (q + 1) by omega]
        exact mc4
      rw [readVal_of_matches _ _ _ _ hm4]
    -- the reconstructed difference
    have hdiffU : (0 + q * (1 <<< k)) ||| Gr.1 = a := by
      rw [Nat.zero_add, hremv, unary_rem_value q k (a % 2 ^ k)
        (Nat.mod_lt _ (Nat.two_pow_pos _)), hq, magnitude_split]
    have hval : prev + (if Gb.1 = 1 then ((((0 + q * (1 <<< k)) ||| Gr.1) : Nat) : Int) * -1
        else ((((0 + q * (1 <<< k)) ||| Gr.1) : Nat) : Int)) = cur := by
      rw [hdiffU, hsignbit, hsgn, ha, signed_diff d, hd]
      ring
    -- one unfolding of the loop
    have hstep : decSamples data F ch i chan k (fuel + 1) l prev p b out ol =
        decSamples data F ch i chan k fuel (l + 1)
          (prev + (if Gb.1 = 1 then ((((0 + q * (1 <<< k)) ||| Gr.1) : Nat) : Int) * -1
            else ((((0 + q * (1 <<< k)) ||| Gr.1) : Nat) : Int)))
          Gr.2.1 Gr.2.2
          (fun idx => if idx = (i + l) * ch + chan then
            prev + (if Gb.1 = 1 then ((((0 + q * (1 <<< k)) ||| Gr.1) : Nat) : Int) * -1
              else ((((0 + q * (1 <<< k)) ||| Gr.1) : Nat) : Int))
            else out idx)
          (ol + 1) := by
      show (match grab_unary data k F (grab_bit data p b).2.1
          (grab_bit data p b).2.2 0 with
        | none => none
        | some (diffU, p', b') =>
          decSamples data F ch i chan k fuel (l + 1)
            (prev + (if (grab_bit data p b).1 = 1 then
                (((diffU ||| (grab_number data p' b' k).1 : Nat)) : Int) * -1
              else (((diffU ||| (grab_number data p' b' k).1 : Nat)) : Int)))
            (grab_number data p' b' k).2.1 (grab_number data p' b' k).2.2
            (fun idx => if idx = (i + l) * ch + chan then
              prev + (if (grab_bit data p b).1 = 1 then
                  (((diffU ||| (grab_number data p' b' k).1 : Nat)) : Int) * -1
                else (((diffU ||| (grab_number data p' b' k).1 : Nat)) : Int))
              else out idx)
            (ol + 1)) = _
      rw [hGb, hrun]
      show decSamples data F ch i chan k fuel (l + 1)
          (prev + (if Gb.1 = 1 then
              ((((0 + q * (1 <<< k)) ||| (grab_number data p2 b2 k).1 : Nat)) : Int) * -1
            else ((((0 + q * (1 <<< k)) ||| (grab_number data p2 b2 k).1 : Nat)) : Int)))
          (grab_number data p2 b2 k).2.1 (grab_number data p2 b2 k).2.2
          (fun idx => if idx = (i + l) * ch + chan then
            prev + (if Gb.1 = 1 then
                ((((0 + q * (1 <<< k)) ||| (grab_number data p2 b2 k).1 : Nat)) : Int) * -1
              else ((((0 + q * (1 <<< k)) ||| (grab_number data p2 b2 k).1 : Nat)) : Int))
            else out idx)
          (ol + 1) = _
      rw [hGr]
    rw [hstep, hval]
    have hrec := ih (l + 1) cur Gr.2.1 Gr.2.2
      (fun idx => if idx = (i + l) * ch + chan then cur else out idx)
      (ol + 1) hgr.2.2
      (by
        rw [show 8 * Gr.2.1 + Gr.2.2 = t + (1 + (q + (1 + k))) by omega]
        rw [show t + (1 + (q + (1 + k))) = t + 1 + (q + 1) + k by omega]
        exact mrest)
      (by
        intro m hm'
        have := hF (m + 1) (by omega)
        rw [show i + (l + (m + 1)) = i + (l + 1 + m) by omega] at this
        by_cases hm0 : m = 0
        · subst hm0
          rw [if_pos rfl]
          rw [if_neg (by omega)] at this
          rw [show i + (l + 1 + 0) - 1 = i + l by omega] at this
          exact this
        · rw [if_neg hm0]
          rw [if_neg (by omega)] at this
          exact this)
    obtain ⟨p', b', out', hrun', hcur', hb', hwr', hun'⟩ := hrec
    refine ⟨p', b', out', ?_, ?_, hb', ?_, ?_⟩
    · rw [show ol + (fuel + 1) = ol + 1 + fuel by omega]
      exact hrun'
    · rw [hcur']
      show _ = t + chunksWidth
        ((1, sgn) :: (q, 2 ^ q - 1) :: (1, 0) :: (k, a) ::
          chanSampleChunks samples ch i chan k fuel (l + 1) cur)
      show _ = t + (1 + (q + (1 + (k + chunksWidth
        (chanSampleChunks samples ch i chan k fuel (l + 1) cur)))))
      omega
    · intro m hm'
      by_cases hm0 : m = 0
      · subst hm0
        rw [show i + (l + 0) = i + l by omega]
        have huntouched : out' ((i + l) * ch + chan) =
            (if (i + l) * ch + chan = (i + l) * ch + chan then cur
              else out ((i + l) * ch + chan)) := by
          apply hun'
          intro m' hm'' heq
          have heq2 : (i + l) * ch = (i + (l + 1 + m')) * ch := by omega
          have := Nat.eq_of_mul_eq_mul_right (show 0 < ch by omega) heq2
          omega
        rw [if_pos rfl] at huntouched
        rw [huntouched, hcur]
      · have := hwr' (m - 1) (by omega)
        rw [show i + (l + 1 + (m - 1)) = i + (l + m) by omega] at this
        exact this
    · intro idx hidx
      have h2 : idx ≠ (i + l) * ch + chan := by
        have := hidx 0 (by omega)
        rw [show i + (l + 0) = i + l by omega] at this
        exact this
      have h1 : out' idx =
          (if idx = (i + l) * ch + chan then cur else out idx) := by
        apply hun'
        intro m' hm''
        have := hidx (m' + 1) (by omega)
        rw [show i + (l + (m' + 1)) = i + (l + 1 + m') by omega] at this
        exact this
      rw [h1, if_neg h2]

/-! ### The channel loop of the decoder -/

theorem idx_lt_of_row_lt (r r' c c' ch : Nat) (hlt : r < r') (hc : c < ch) :
    r * ch + c < r' * ch + c' := by
  have h1 : (r + 1) * ch ≤ r' * ch := Nat.mul_le_mul_right ch hlt
  rw [Nat.succ_mul] at h1
  omega

theorem idx_inj (r r' c c' ch : Nat) (hc : c < ch) (hc' : c' < ch)
    (h : r * ch + c = r' * ch + c') : r = r' ∧ c = c' := by
  rcases Nat.lt_trichotomy r r' with hlt | heq | hgt
  · exact absurd h (Nat.ne_of_lt (idx_lt_of_row_lt r r' c c' ch hlt hc))
  · subst heq
    exact ⟨rfl, by omega⟩
  · exact absurd h.symm (Nat.ne_of_lt (idx_lt_of_row_lt r' r c' c ch hgt hc'))

theorem decChannels_spec (data : Buf) (samples : Nat → Int)
    (F ch i cap bprl : Nat) (hB : bytesLT data) (hch : ch ≠ 0) :
    ∀ (fuel chan p b : Nat) (out : Nat → Int) (ol : Nat),
    b < 8 → chan + fuel ≤ ch →
    matchesChunks data (8 * p + b)
      (channelsChunks samples ch i cap bprl fuel chan) →
    (∀ c, chan ≤ c → c < chan + fuel →
      riceLenOf samples ch i cap c < 2 ^ bprl) →
    (∀ c m, chan ≤ c → c < chan + fuel → m < cap →
      (BTW_abs (samples ((i + m) * ch + c) -
        (if m = 0 then 0 else samples ((i + m - 1) * ch + c)))).toNat >>>
        (riceLenOf samples ch i cap c) < F) →
    ∃ p' b' out',
      decChannels data F ch i cap bprl fuel chan p b out ol =
        some (p', b', out', ol + fuel * cap) ∧
      8 * p' + b' = (8 * p + b) +
        chunksWidth (channelsChunks samples ch i cap bprl fuel chan) ∧
      b' < 8 ∧
      (∀ c m, chan ≤ c → c < chan + fuel → m < cap →
        out' ((i + m) * ch + c) = samples ((i + m) * ch + c)) ∧
      (∀ idx, (∀ c m, chan ≤ c → c < chan + fuel → m < cap →
        idx ≠ (i + m) * ch + c) → out' idx = out idx) := by
  intro fuel
  induction fuel with
  | zero =>
    intro chan p b out ol hb hle hm hfit hF
    refine ⟨p, b, out, ?_, ?_, hb,
      fun c m hc1 hc2 _ => absurd hc2 (by omega), fun idx _ => rfl⟩
    · rw [show ol + 0 * cap = ol by omega]
      rfl
    · show 8 * p + b = 8 * p + b + (0 : Nat)
      omega
  | succ fuel ih =>
    intro chan p b out ol hb hle hm hfit hF
    set t := 8 * p + b with ht
    set k := riceLenOf samples ch i cap chan with hk
    obtain ⟨mcR, mrest⟩ := hm
    obtain ⟨mSamp, mTail⟩ := (matchesChunks_append data (t + bprl)
      (chanSampleChunks samples ch i chan k cap 0 0)
      (channelsChunks samples ch i cap bprl fuel (chan + 1))).mp mrest
    -- the rice-parameter field
    obtain ⟨G, hG⟩ : ∃ x, grab_number data p b bprl = x := ⟨_, rfl⟩
    have hg : G.1 = readVal data (8 * p + b) bprl ∧
        8 * G.2.1 + G.2.2 = (8 * p + b) + bprl ∧ G.2.2 < 8 := by
      rw [← hG]
      exact grab_number_spec data p b bprl hb hB
    have hrice : G.1 = k := by
      rw [hg.1, readVal_of_matches _ _ _ _ mcR,
        Nat.mod_eq_of_lt (hfit chan (le_refl _) (by omega))]
    -- the codewords of this channel
    have hrec := decSamples_spec data samples F ch i chan k hB hch cap 0 0
      G.2.1 G.2.2 out ol hg.2.2
      (by rw [show 8 * G.2.1 + G.2.2 = t + bprl by omega]; exact mSamp)
      (by
        intro m hm'
        have := hF chan m (le_refl _) (by omega) hm'
        rw [show i + m = i + (0 + m) by omega] at this
        exact this)
    obtain ⟨p2, b2, out2, hrun2, hcur2, hb2, hwr2, hun2⟩ := hrec
    have hstep : decChannels data F ch i cap bprl (fuel + 1) chan p b out ol =
        decChannels data F ch i cap bprl fuel (chan + 1) p2 b2 out2
          (ol + cap) := by
      show (match decSamples data F ch i chan (grab_number data p b bprl).1
          cap 0 0 (grab_number data p b bprl).2.1
          (grab_number data p b bprl).2.2 out ol with
        | none => none
        | some (p', b', out', ol') =>
          decChannels data F ch i cap bprl fuel (chan + 1) p' b' out' ol') = _
      rw [hG, hrice, hrun2]
    rw [hstep]
    have hrecC := ih (chan + 1) p2 b2 out2 (ol + cap) hb2 (by omega)
      (by
        rw [show 8 * p2 + b2 = t + bprl +
          chunksWidth (chanSampleChunks samples ch i chan k cap 0 0) by omega]
        exact mTail)
      (fun c hc1 hc2 => hfit c (by omega) (by omega))
      (fun c m hc1 hc2 hm' => hF c m (by omega) (by omega) hm')
    obtain ⟨p', b', out', hrun', hcur', hb', hwr', hun'⟩ := hrecC
    refine ⟨p', b', out', ?_, ?_, hb', ?_, ?_⟩
    · rw [hrun']
      rw [show ol + cap + fuel * cap = ol + (fuel + 1) * cap by ring]
    · have hwidth : chunksWidth
          (channelsChunks samples ch i cap bprl (fuel + 1) chan) =
          bprl + (chunksWidth (chanSampleChunks samples ch i chan k cap 0 0) +
            chunksWidth (channelsChunks samples ch i cap bprl fuel
              (chan + 1))) := by
        show chunksWidth ((bprl, k) ::
          (chanSampleChunks samples ch i chan k cap 0 0 ++
            channelsChunks samples ch i cap bprl fuel (chan + 1))) = _
        show bprl + chunksWidth
          (chanSampleChunks samples ch i chan k cap 0 0 ++
            channelsChunks samples ch i cap bprl fuel (chan + 1)) = _
        rw [chunksWidth_append]
      rw [hwidth]
      omega
    · intro c m hc1 hc2 hm'
      by_cases hcc : c = chan
      · subst hcc
        have huntouched : out' ((i + m) * ch + c) = out2 ((i + m) * ch + c) := by
          apply hun'
          intro c' m' hc1' hc2' hm'' heq
          obtain ⟨_, hceq⟩ := idx_inj (i + m) (i + m') c c' ch
            (by omega) (by omega) heq
          omega
        rw [huntouched]
        have := hwr2 m hm'
        rw [show i + (0 + m) = i + m by omega] at this
        exact this
      · exact hwr' c m (by omega) (by omega) hm'
    · intro idx hidx
      have h1 : out' idx = out2 idx := by
        apply hun'
        intro c' m' hc1' hc2' hm''
        exact hidx c' m' (by omega) (by omega) hm''
      rw [h1]
      apply hun2
      intro m' hm''
      have := hidx chan m' (le_refl _) (by omega) hm''
      rw [show i + (0 + m') = i + m' by omega]
      exact this

/-! ### Single-block round trip -/

theorem btw_roundtrip_single (samples : Nat → Int) (d d0 : btw_def)
    (F : Nat) (init : Nat → Int)
    (hch0 : d.channels ≠ 0) (hrate0 : d.sample_rate ≠ 0)
    (hcount0 : d.sample_count ≠ 0) (hbits0 : d.bits_per_sample ≠ 0)
    (hsc : d.sample_count ≤ 512)
    (hscR : d.sample_count < 2 ^ 64) (hchR : d.channels < 2 ^ 16)
    (hbpsR : d.bits_per_sample < 2 ^ 16) (hrateR : d.sample_rate < 2 ^ 32)
    (hfit : ∀ c, c < d.channels →
      riceLenOf samples d.channels 0 d.sample_count c <
        2 ^ bits_required d.bits_per_sample)
    (hF : ∀ c m, c < d.channels → m < d.sample_count →
      (BTW_abs (samples (m * d.channels + c) -
        (if m = 0 then 0 else samples ((m - 1) * d.channels + c)))).toNat >>>
        (riceLenOf samples d.channels 0 d.sample_count c) < F) :
    ∃ buf len out,
      btw_encode (some samples) (some d) = some (buf, len) ∧
      btw_decode F (some buf) d0 init =
        some (out, d.sample_count * d.channels, d) ∧
      ∀ idx, idx < d.sample_count * d.channels → out idx = samples idx := by
  obtain ⟨stF, henc, hcur, hb8, hB, hzero, hmHdr, hmBlocks⟩ :=
    btw_encode_spec samples d hch0 hrate0 hcount0 hbits0
  have hnb : (d.sample_count + 511) / 512 = 1 := by omega
  rw [hnb] at hmBlocks
  set bprl := bits_required d.bits_per_sample with hbprl
  have hcap : (if d.sample_count - 0 < BTW_BLOCK_SIZE then d.sample_count - 0
      else BTW_BLOCK_SIZE) = d.sample_count := by
    show (if d.sample_count - 0 < 512 then d.sample_count - 0 else 512) = _
    by_cases h : d.sample_count - 0 < 512
    · rw [if_pos h]
      omega
    · rw [if_neg h]
      omega
  have hblocksChunks : blocksChunks samples d bprl 1 0 =
      channelsChunks samples d.channels 0 d.sample_count bprl d.channels 0 ++
        ([] : List (Nat × Nat)) := by
    show channelsChunks samples d.channels 0
        (if d.sample_count - 0 < BTW_BLOCK_SIZE then d.sample_count - 0
          else BTW_BLOCK_SIZE) bprl d.channels 0 ++
      blocksChunks samples d bprl 0
        (0 + (if d.sample_count - 0 < BTW_BLOCK_SIZE then d.sample_count - 0
          else BTW_BLOCK_SIZE)) = _
    rw [hcap]
    rfl
  rw [hblocksChunks] at hmBlocks
  obtain ⟨hmCh, -⟩ := (matchesChunks_append stF.1 160
    (channelsChunks samples d.channels 0 d.sample_count bprl d.channels 0)
    []).mp hmBlocks
  -- run the channel loop of the decoder over the encoder's output
  obtain ⟨p', b', out', hrunC, hcurC, hbC, hwrC, -⟩ :=
    decChannels_spec stF.1 samples F d.channels 0 d.sample_count bprl hB hch0
      d.channels 0 20 0 init 0 (by norm_num) (by omega)
      (by rw [show 8 * 20 + 0 = 160 by norm_num]; exact hmCh)
      (fun c _ hc2 => hfit c (by omega))
      (by
        intro c m _ hc2 hm'
        rw [show (0 : Nat) + m = m by omega]
        exact hF c m (by omega) hm')
  -- metadata readback
  have hmeta : btw_read_metadata stF.1 d0 = d :=
    btw_read_metadata_spec stF.1 d d0 hB hmHdr hscR hchR hbpsR hrateR
  have hval : ¬(d.channels = 0 ∨ d.sample_rate = 0 ∨ d.sample_count = 0 ∨
      d.bits_per_sample = 0) := by tauto
  have hdec1 : btw_decode F (some stF.1) d0 init =
      match decBlocks stF.1 F d bprl 1 0 20 0 init 0 with
      | none => none
      | some (_, _, out, out_len) => some (out, out_len, d) := by
    show (if (btw_read_metadata stF.1 d0).channels = 0 ∨
          (btw_read_metadata stF.1 d0).sample_rate = 0 ∨
          (btw_read_metadata stF.1 d0).sample_count = 0 ∨
          (btw_read_metadata stF.1 d0).bits_per_sample = 0 then none
      else
        match decBlocks stF.1 F (btw_read_metadata stF.1 d0)
            (bits_required (btw_read_metadata stF.1 d0).bits_per_sample)
            (((btw_read_metadata stF.1 d0).sample_count + 511) / 512) 0
            BTW_HEADER_SIZE 0 init 0 with
        | none => none
        | some (_, _, out, out_len) =>
          some (out, out_len, btw_read_metadata stF.1 d0)) = _
    rw [hmeta, hnb, if_neg hval]
    rfl
  have hblk : decBlocks stF.1 F d bprl 1 0 20 0 init 0 =
      some (p' + (if b' ≠ 0 then 1 else 0), 0, out',
        0 + d.channels * d.sample_count) := by
    show (match decChannels stF.1 F d.channels 0
        (if d.sample_count - 0 < BTW_BLOCK_SIZE then d.sample_count - 0
          else BTW_BLOCK_SIZE) bprl d.channels 0 20 0 init 0 with
      | none => none
      | some (p, b, out, ol) =>
        decBlocks stF.1 F d bprl 0
          (0 + (if d.sample_count - 0 < BTW_BLOCK_SIZE then d.sample_count - 0
            else BTW_BLOCK_SIZE))
          (p + (if b ≠ 0 then 1 else 0)) 0 out ol) = _
    rw [hcap, hrunC]
    rfl
  refine ⟨stF.1, stF.2.1 + (if stF.2.2 ≠ 0 then 1 else 0), out', henc, ?_, ?_⟩
  · rw [hdec1, hblk]
    rw [show 0 + d.channels * d.sample_count =
      d.sample_count * d.channels by ring]
  · intro idx hidx
    have hchpos : 0 < d.channels := by omega
    have hc : idx % d.channels < d.channels := Nat.mod_lt idx hchpos
    have hm : idx / d.channels < d.sample_count := by
      rw [Nat.div_lt_iff_lt_mul hchpos]
      exact hidx
    have := hwrC (idx % d.channels) (idx / d.channels) (Nat.zero_le _)
      (by omega) hm
    rw [show (0 : Nat) + idx / d.channels = idx / d.channels by omega,
      Nat.div_add_mod'] at this
    exact this

/-! ### Decoder accounting: the cursor, count and written region of a
decode run do not depend on the initial contents of the output buffer -/

theorem decSamples_none (data : Buf) (F ch i chan k fuel l : Nat) (prev : Int)
    (p b : Nat) (out : Nat → Int) (ol : Nat)
    (hG : grab_unary data k F (grab_bit data p b).2.1
      (grab_bit data p b).2.2 0 = none) :
    decSamples data F ch i chan k (fuel + 1) l prev p b out ol = none := by
  show (match grab_unary data k F (grab_bit data p b).2.1
      (grab_bit data p b).2.2 0 with
    | none => none
    | some (diffU, p', b') =>
      decSamples data F ch i chan k fuel (l + 1)
        (prev + (if (grab_bit data p b).1 = 1
          then (((diffU ||| (grab_number data p' b' k).1 : Nat)) : Int) * -1
          else (((diffU ||| (grab_number data p' b' k).1 : Nat)) : Int)))
        (grab_number data p' b' k).2.1 (grab_number data p' b' k).2.2
        (fun idx => if idx = (i + l) * ch + chan then
          prev + (if (grab_bit data p b).1 = 1
            then (((diffU ||| (grab_number data p' b' k).1 : Nat)) : Int) * -1
            else (((diffU ||| (grab_number data p' b' k).1 : Nat)) : Int))
          else out idx)
        (ol + 1)) = none
  rw [hG]

theorem decSamples_step (data : Buf) (F ch i chan k fuel l : Nat) (prev : Int)
    (p b : Nat) (out : Nat → Int) (ol du p2 b2 : Nat)
    (hG : grab_unary data k F (grab_bit data p b).2.1
      (grab_bit data p b).2.2 0 = some (du, p2, b2)) :
    decSamples data F ch i chan k (fuel + 1) l prev p b out ol =
      decSamples data F ch i chan k fuel (l + 1)
        (prev + (if (grab_bit data p b).1 = 1
          then (((du ||| (grab_number data p2 b2 k).1 : Nat)) : Int) * -1
          else (((du ||| (grab_number data p2 b2 k).1 : Nat)) : Int)))
        (grab_number data p2 b2 k).2.1 (grab_number data p2 b2 k).2.2
        (fun idx => if idx = (i + l) * ch + chan then
          prev + (if (grab_bit data p b).1 = 1
            then (((du ||| (grab_number data p2 b2 k).1 : Nat)) : Int) * -1
            else (((du ||| (grab_number data p2 b2 k).1 : Nat)) : Int))
          else out idx)
        (ol + 1) := by
  show (match grab_unary data k F (grab_bit data p b).2.1
      (grab_bit data p b).2.2 0 with
    | none => none
    | some (diffU, p', b') =>
      decSamples data F ch i chan k fuel (l + 1)
        (prev + (if (grab_bit data p b).1 = 1
          then (((diffU ||| (grab_number data p' b' k).1 : Nat)) : Int) * -1
          else (((diffU ||| (grab_number data p' b' k).1 : Nat)) : Int)))
        (grab_number data p' b' k).2.1 (grab_number data p' b' k).2.2
        (fun idx => if idx = (i + l) * ch + chan then
          prev + (if (grab_bit data p b).1 = 1
            then (((diffU ||| (grab_number data p' b' k).1 : Nat)) : Int) * -1
            else (((diffU ||| (grab_number data p' b' k).1 : Nat)) : Int))
          else out idx)
        (ol + 1)) = _
  rw [hG]

theorem decSamples_count (data : Buf) (F ch i chan k : Nat) (hch : ch ≠ 0) :
    ∀ (fuel l : Nat) (prev : Int) (p b : Nat) (out1 out2 : Nat → Int)
      (ol : Nat),
    (decSamples data F ch i chan k fuel l prev p b out1 ol = none ∧
      decSamples data F ch i chan k fuel l prev p b out2 ol = none) ∨
    ∃ p' b' out1' out2',
      decSamples data F ch i chan k fuel l prev p b out1 ol =
        some (p', b', out1', ol + fuel) ∧
      decSamples data F ch i chan k fuel l prev p b out2 ol =
        some (p', b', out2', ol + fuel) ∧
      (∀ m, m < fuel → out1' ((i + (l + m)) * ch + chan) =
        out2' ((i + (l + m)) * ch + chan)) ∧
      (∀ idx, (∀ m, m < fuel → idx ≠ (i + (l + m)) * ch + chan) →
        out1' idx = out1 idx ∧ out2' idx = out2 idx) := by
  intro fuel
  induction fuel with
  | zero =>
    intro l prev p b out1 out2 ol
    right
    exact ⟨p, b, out1, out2, rfl, rfl,
      fun m hm => absurd hm (by omega), fun idx _ => ⟨rfl, rfl⟩⟩
  | succ fuel ih =>
    intro l prev p b out1 out2 ol
    obtain ⟨G, hG⟩ : ∃ x, grab_unary data k F (grab_bit data p b).2.1
      (grab_bit data p b).2.2 0 = x := ⟨_, rfl⟩
    cases G with
    | none =>
      left
      exact ⟨decSamples_none data F ch i chan k fuel l prev p b out1 ol hG,
        decSamples_none data F ch i chan k fuel l prev p b out2 ol hG⟩
    | some r =>
      obtain ⟨du, p2, b2⟩ := r
      have h1 := decSamples_step data F ch i chan k fuel l prev p b out1 ol
        du p2 b2 hG
      have h2 := decSamples_step data F ch i chan k fuel l prev p b out2 ol
        du p2 b2 hG
      obtain ⟨G2, hG2⟩ : ∃ x, grab_number data p2 b2 k = x := ⟨_, rfl⟩
      rw [hG2] at h1 h2
      obtain ⟨V, hV⟩ : ∃ x : Int, prev + (if (grab_bit data p b).1 = 1
          then ((du ||| G2.1 : Nat) : Int) * -1
          else ((du ||| G2.1 : Nat) : Int)) = x := ⟨_, rfl⟩
      rw [hV] at h1 h2
      rcases ih (l + 1) V G2.2.1 G2.2.2
        (fun idx => if idx = (i + l) * ch + chan then V else out1 idx)
        (fun idx => if idx = (i + l) * ch + chan then V else out2 idx)
        (ol + 1) with hnone | hsome
      · left
        exact ⟨h1.trans hnone.1, h2.trans hnone.2⟩
      · obtain ⟨p', b', o1, o2, r1, r2, hag, hun⟩ := hsome
        right
        refine ⟨p', b', o1, o2, ?_, ?_, ?_, ?_⟩
        · rw [show ol + (fuel + 1) = ol + 1 + fuel by omega]
          exact h1.trans r1
        · rw [show ol + (fuel + 1) = ol + 1 + fuel by omega]
          exact h2.trans r2
        · intro m hm
          by_cases hm0 : m = 0
          · subst hm0
            rw [show i + (l + 0) = i + l by omega]
            have hnc : ∀ m', m' < fuel →
                (i + l) * ch + chan ≠ (i + (l + 1 + m')) * ch + chan := by
              intro m' hm' heq
              have heq2 : (i + l) * ch = (i + (l + 1 + m')) * ch := by omega
              have := Nat.eq_of_mul_eq_mul_right (show 0 < ch by omega) heq2
              omega
            obtain ⟨e1, e2⟩ := hun ((i + l) * ch + chan) hnc
            rw [e1, e2, if_pos rfl, if_pos rfl]
          · have := hag (m - 1) (by omega)
            rw [show i + (l + 1 + (m - 1)) = i + (l + m) by omega] at this
            exact this
        · intro idx hidx
          have hnc : ∀ m', m' < fuel →
              idx ≠ (i + (l + 1 + m')) * ch + chan := by
            intro m' hm'
            have := hidx (m' + 1) (by omega)
            rw [show i + (l + (m' + 1)) = i + (l + 1 + m') by omega] at this
            exact this
          have h0 : idx ≠ (i + l) * ch + chan := by
            have := hidx 0 (by omega)
            rw [show i + (l + 0) = i + l by omega] at this
            exact this
          obtain ⟨e1, e2⟩ := hun idx hnc
          rw [e1, e2, if_neg h0, if_neg h0]
          exact ⟨rfl, rfl⟩

theorem decChannels_none (data : Buf) (F ch i cap bprl fuel chan p b : Nat)
    (out : Nat → Int) (ol : Nat)
    (h : decSamples data F ch i chan (grab_number data p b bprl).1 cap 0 0
      (grab_number data p b bprl).2.1 (grab_number data p b bprl).2.2
      out ol = none) :
    decChannels data F ch i cap bprl (fuel + 1) chan p b out ol = none := by
  show (match decSamples data F ch i chan (grab_number data p b bprl).1 cap
      0 0 (grab_number data p b bprl).2.1 (grab_number data p b bprl).2.2
      out ol with
    | none => none
    | some (p', b', out', ol') =>
      decChannels data F ch i cap bprl fuel (chan + 1) p' b' out' ol') = none
  rw [h]

theorem decChannels_step (data : Buf) (F ch i cap bprl fuel chan p b : Nat)
    (out : Nat → Int) (ol p2 b2 : Nat) (out2 : Nat → Int) (ol2 : Nat)
    (h : decSamples data F ch i chan (grab_number data p b bprl).1 cap 0 0
      (grab_number data p b bprl).2.1 (grab_number data p b bprl).2.2
      out ol = some (p2, b2, out2, ol2)) :
    decChannels data F ch i cap bprl (fuel + 1) chan p b out ol =
      decChannels data F ch i cap bprl fuel (chan + 1) p2 b2 out2 ol2 := by
  show (match decSamples data F ch i chan (grab_number data p b bprl).1 cap
      0 0 (grab_number data p b bprl).2.1 (grab_number data p b bprl).2.2
      out ol with
    | none => none
    | some (p', b', out', ol') =>
      decChannels data F ch i cap bprl fuel (chan + 1) p' b' out' ol') = _
  rw [h]

theorem decChannels_count (data : Buf) (F ch i cap bprl : Nat)
    (hch : ch ≠ 0) :
    ∀ (fuel chan p b : Nat) (out1 out2 : Nat → Int) (ol : Nat),
    chan + fuel ≤ ch →
    (decChannels data F ch i cap bprl fuel chan p b out1 ol = none ∧
      decChannels data F ch i cap bprl fuel chan p b out2 ol = none) ∨
    ∃ p' b' out1' out2',
      decChannels data F ch i cap bprl fuel chan p b out1 ol =
        some (p', b', out1', ol + fuel * cap) ∧
      decChannels data F ch i cap bprl fuel chan p b out2 ol =
        some (p', b', out2', ol + fuel * cap) ∧
      (∀ c m, chan ≤ c → c < chan + fuel → m < cap →
        out1' ((i + m) * ch + c) = out2' ((i + m) * ch + c)) ∧
      (∀ idx, (∀ c m, chan ≤ c → c < chan + fuel → m < cap →
        idx ≠ (i + m) * ch + c) → out1' idx = out1 idx ∧ out2' idx = out2 idx)
    := by
  intro fuel
  induction fuel with
  | zero =>
    intro chan p b out1 out2 ol hle
    right
    refine ⟨p, b, out1, out2, ?_, ?_,
      fun c m hc1 hc2 _ => absurd hc2 (by omega), fun idx _ => ⟨rfl, rfl⟩⟩
    · rw [show ol + 0 * cap = ol by omega]
      rfl
    · rw [show ol + 0 * cap = ol by omega]
      rfl
  | succ fuel ih =>
    intro chan p b out1 out2 ol hle
    rcases decSamples_count data F ch i chan (grab_number data p b bprl).1
      hch cap 0 0 (grab_number data p b bprl).2.1
      (grab_number data p b bprl).2.2 out1 out2 ol with hnone | hsome
    · left
      exact ⟨decChannels_none data F ch i cap bprl fuel chan p b out1 ol
          hnone.1,
        decChannels_none data F ch i cap bprl fuel chan p b out2 ol hnone.2⟩
    · obtain ⟨p2, b2, o1, o2, r1, r2, hagS, hunS⟩ := hsome
      have h1 := decChannels_step data F ch i cap bprl fuel chan p b out1 ol
        p2 b2 o1 (ol + cap) r1
      have h2 := decChannels_step data F ch i cap bprl fuel chan p b out2 ol
        p2 b2 o2 (ol + cap) r2
      rcases ih (chan + 1) p2 b2 o1 o2 (ol + cap) (by omega) with
        hnone' | hsome'
      · left
        exact ⟨h1.trans hnone'.1, h2.trans hnone'.2⟩
      · obtain ⟨p', b', o1', o2', r1', r2', hag, hun⟩ := hsome'
        right
        refine ⟨p', b', o1', o2', ?_, ?_, ?_, ?_⟩
        · rw [show ol + (fuel + 1) * cap = ol + cap + fuel * cap by ring]
          exact h1.trans r1'
        · rw [show ol + (fuel + 1) * cap = ol + cap + fuel * cap by ring]
          exact h2.trans r2'
        · intro c m hc1 hc2 hm
          by_cases hcc : c = chan
          · subst hcc
            have hnc : ∀ c' m', c + 1 ≤ c' → c' < c + 1 + fuel →
                m' < cap → (i + m) * ch + c ≠ (i + m') * ch + c' := by
              intro c' m' hc1' hc2' hm' heq
              obtain ⟨-, hceq⟩ := idx_inj (i + m) (i + m') c c' ch
                (by omega) (by omega) heq
              omega
            obtain ⟨e1, e2⟩ := hun ((i + m) * ch + c) hnc
            rw [e1, e2]
            have := hagS m hm
            rw [show i + (0 + m) = i + m by omega] at this
            exact this
          · exact hag c m (by omega) (by omega) hm
        · intro idx hidx
          have hnc : ∀ c' m', chan + 1 ≤ c' → c' < chan + 1 + fuel →
              m' < cap → idx ≠ (i + m') * ch + c' := by
            intro c' m' hc1' hc2' hm'
            exact hidx c' m' (by omega) (by omega) hm'
          obtain ⟨e1, e2⟩ := hun idx hnc
          have hncS : ∀ m', m' < cap → idx ≠ (i + (0 + m')) * ch + chan := by
            intro m' hm'
            have := hidx chan m' (le_refl _) (by omega) hm'
            rw [show i + (0 + m') = i + m' by omega]
            exact this
          obtain ⟨f1, f2⟩ := hunS idx hncS
          exact ⟨e1.trans f1, e2.trans f2⟩

theorem decBlocks_none (data : Buf) (F : Nat) (d : btw_def)
    (bprl fuel i p b : Nat) (out : Nat → Int) (ol : Nat)
    (h : decChannels data F d.channels i
      (if d.sample_count - i < BTW_BLOCK_SIZE then d.sample_count - i
        else BTW_BLOCK_SIZE) bprl d.channels 0 p b out ol = none) :
    decBlocks data F d bprl (fuel + 1) i p b out ol = none := by
  show (match decChannels data F d.channels i
      (if d.sample_count - i < BTW_BLOCK_SIZE then d.sample_count - i
        else BTW_BLOCK_SIZE) bprl d.channels 0 p b out ol with
    | none => none
    | some (p', b', out', ol') =>
      decBlocks data F d bprl fuel
        (i + (if d.sample_count - i < BTW_BLOCK_SIZE then d.sample_count - i
          else BTW_BLOCK_SIZE))
        (p' + (if b' ≠ 0 then 1 else 0)) 0 out' ol') = none
  rw [h]

theorem decBlocks_step (data : Buf) (F : Nat) (d : btw_def)
    (bprl fuel i p b : Nat) (out : Nat → Int) (ol p2 b2 : Nat)
    (out2 : Nat → Int) (ol2 : Nat)
    (h : decChannels data F d.channels i
      (if d.sample_count - i < BTW_BLOCK_SIZE then d.sample_count - i
        else BTW_BLOCK_SIZE) bprl d.channels 0 p b out ol =
      some (p2, b2, out2, ol2)) :
    decBlocks data F d bprl (fuel + 1) i p b out ol =
      decBlocks data F d bprl fuel
        (i + (if d.sample_count - i < BTW_BLOCK_SIZE then d.sample_count - i
          else BTW_BLOCK_SIZE))
        (p2 + (if b2 ≠ 0 then 1 else 0)) 0 out2 ol2 := by
  show (match decChannels data F d.channels i
      (if d.sample_count - i < BTW_BLOCK_SIZE then d.sample_count - i
        else BTW_BLOCK_SIZE) bprl d.channels 0 p b out ol with
    | none => none
    | some (p', b', out', ol') =>
      decBlocks data F d bprl fuel
        (i + (if d.sample_count - i < BTW_BLOCK_SIZE then d.sample_count - i
          else BTW_BLOCK_SIZE))
        (p' + (if b' ≠ 0 then 1 else 0)) 0 out' ol') = _
  rw [h]

theorem decBlocks_count (data : Buf) (F : Nat) (d : btw_def) (bprl : Nat)
    (hch : d.channels ≠ 0) :
    ∀ (fuel i p b : Nat) (out1 out2 : Nat → Int) (ol : Nat),
    i < d.sample_count → fuel = (d.sample_count - i + 511) / 512 →
    (decBlocks data F d bprl fuel i p b out1 ol = none ∧
      decBlocks data F d bprl fuel i p b out2 ol = none) ∨
    ∃ p' b' out1' out2',
      decBlocks data F d bprl fuel i p b out1 ol =
        some (p', b', out1', ol + (d.sample_count - i) * d.channels) ∧
      decBlocks data F d bprl fuel i p b out2 ol =
        some (p', b', out2', ol + (d.sample_count - i) * d.channels) ∧
      (∀ f c, i ≤ f → f < d.sample_count → c < d.channels →
        out1' (f * d.channels + c) = out2' (f * d.channels + c)) ∧
      (∀ idx, (∀ f c, i ≤ f → f < d.sample_count → c < d.channels →
          idx ≠ f * d.channels + c) →
        out1' idx = out1 idx ∧ out2' idx = out2 idx) := by
  intro fuel
  induction fuel with
  | zero =>
    intro i p b out1 out2 ol hi hf
    exact absurd hf (by omega)
  | succ fuel ih =>
    intro i p b out1 out2 ol hi hf
    set cap := (if d.sample_count - i < BTW_BLOCK_SIZE then d.sample_count - i
      else BTW_BLOCK_SIZE) with hcapd
    have hcap512 : cap = (if d.sample_count - i < 512 then d.sample_count - i
        else 512) := rfl
    have hcapval : (d.sample_count - i ≤ 512 → cap = d.sample_count - i) ∧
        (512 < d.sample_count - i → cap = 512) := by
      rw [hcap512]
      constructor
      · intro h
        by_cases h' : d.sample_count - i < 512
        · rw [if_pos h']
        · rw [if_neg h']
          omega
      · intro h
        rw [if_neg (by omega)]
    rcases decChannels_count data F d.channels i cap bprl hch d.channels 0
      p b out1 out2 ol (by omega) with hnone | hsome
    · left
      exact ⟨decBlocks_none data F d bprl fuel i p b out1 ol hnone.1,
        decBlocks_none data F d bprl fuel i p b out2 ol hnone.2⟩
    · obtain ⟨p2, b2, o1, o2, r1, r2, hagC, hunC⟩ := hsome
      have h1 := decBlocks_step data F d bprl fuel i p b out1 ol p2 b2 o1
        (ol + d.channels * cap) r1
      have h2 := decBlocks_step data F d bprl fuel i p b out2 ol p2 b2 o2
        (ol + d.channels * cap) r2
      by_cases hlast : d.sample_count - i ≤ 512
      · -- final block: cap = remaining samples, fuel = 0 afterwards
        have hcapv : cap = d.sample_count - i := hcapval.1 hlast
        have hfuel0 : fuel = 0 := by omega
        subst hfuel0
        right
        refine ⟨p2 + (if b2 ≠ 0 then 1 else 0), 0, o1, o2, ?_, ?_, ?_, ?_⟩
        · rw [h1]
          rw [show ol + (d.sample_count - i) * d.channels =
            ol + d.channels * cap by rw [hcapv]; ring]
          rfl
        · rw [h2]
          rw [show ol + (d.sample_count - i) * d.channels =
            ol + d.channels * cap by rw [hcapv]; ring]
          rfl
        · intro f c hf1 hf2 hc
          have := hagC c (f - i) (Nat.zero_le _) (by omega) (by omega)
          rw [show i + (f - i) = f by omega] at this
          exact this
        · intro idx hidx
          apply hunC
          intro c m _ hc2 hm
          exact hidx (i + m) c (by omega) (by omega) (by omega)
      · -- interior block: cap = 512, recurse on the rest
        have hcapv : cap = 512 := hcapval.2 (by omega)
        rcases ih (i + cap) (p2 + (if b2 ≠ 0 then 1 else 0)) 0 o1 o2
          (ol + d.channels * cap) (by omega) (by omega) with hnone' | hsome'
        · left
          exact ⟨h1.trans hnone'.1, h2.trans hnone'.2⟩
        · obtain ⟨p', b', o1', o2', r1', r2', hag, hun⟩ := hsome'
          right
          refine ⟨p', b', o1', o2', ?_, ?_, ?_, ?_⟩
          · rw [show ol + (d.sample_count - i) * d.channels =
              ol + d.channels * cap +
                (d.sample_count - (i + cap)) * d.channels by
              rw [hcapv]
              have h5 : d.sample_count - i =
                  512 + (d.sample_count - (i + 512)) := by omega
              rw [h5]
              ring]
            exact h1.trans r1'
          · rw [show ol + (d.sample_count - i) * d.channels =
              ol + d.channels * cap +
                (d.sample_count - (i + cap)) * d.channels by
              rw [hcapv]
              have h5 : d.sample_count - i =
                  512 + (d.sample_count - (i + 512)) := by omega
              rw [h5]
              ring]
            exact h2.trans r2'
          · intro f c hf1 hf2 hc
            by_cases hfirst : f < i + cap
            · have hnc : ∀ f' c', i + cap ≤ f' → f' < d.sample_count →
                  c' < d.channels → f * d.channels + c ≠
                    f' * d.channels + c' := by
                intro f' c' hf1' hf2' hc' heq
                obtain ⟨hrow, -⟩ := idx_inj f f' c c' d.channels hc hc' heq
                omega
              obtain ⟨e1, e2⟩ := hun (f * d.channels + c) hnc
              rw [e1, e2]
              have := hagC c (f - i) (Nat.zero_le _) (by omega) (by omega)
              rw [show i + (f - i) = f by omega] at this
              exact this
            · exact hag f c (by omega) (by omega) hc
          · intro idx hidx
            have hnc : ∀ f' c', i + cap ≤ f' → f' < d.sample_count →
                c' < d.channels → idx ≠ f' * d.channels + c' := by
              intro f' c' hf1' hf2' hc'
              exact hidx f' c' (by omega) (by omega) hc'
            obtain ⟨e1, e2⟩ := hun idx hnc
            have hncC : ∀ c m, 0 ≤ c → c < 0 + d.channels → m < cap →
                idx ≠ (i + m) * d.channels + c := by
              intro c m _ hc2 hm
              exact hidx (i + m) c (by omega) (by omega) (by omega)
            obtain ⟨f1, f2⟩ := hunC idx hncC
            exact ⟨e1.trans f1, e2.trans f2⟩

theorem btw_decode_count (F : Nat) (data : Buf) (d0 : btw_def)
    (init1 init2 : Nat → Int) (out : Nat → Int) (ol : Nat) (d : btw_def)
    (h : btw_decode F (some data) d0 init1 = some (out, ol, d)) :
    ol = d.sample_count * d.channels ∧
    ∃ out', btw_decode F (some data) d0 init2 = some (out', ol, d) ∧
      ∀ idx, idx < ol → out' idx = out idx := by
  obtain ⟨D, hD⟩ : ∃ x, btw_read_metadata data d0 = x := ⟨_, rfl⟩
  have hdec : ∀ init : Nat → Int, btw_decode F (some data) d0 init =
      (if D.channels = 0 ∨ D.sample_rate = 0 ∨ D.sample_count = 0 ∨
          D.bits_per_sample = 0 then none
       else
         match decBlocks data F D (bits_required D.bits_per_sample)
             ((D.sample_count + 511) / 512) 0 BTW_HEADER_SIZE 0 init 0 with
         | none => none
         | some (_, _, o, o_len) => some (o, o_len, D)) := by
    intro init
    show (if (btw_read_metadata data d0).channels = 0 ∨
          (btw_read_metadata data d0).sample_rate = 0 ∨
          (btw_read_metadata data d0).sample_count = 0 ∨
          (btw_read_metadata data d0).bits_per_sample = 0 then none
      else
        match decBlocks data F (btw_read_metadata data d0)
            (bits_required (btw_read_metadata data d0).bits_per_sample)
            (((btw_read_metadata data d0).sample_count + 511) / 512) 0
            BTW_HEADER_SIZE 0 init 0 with
        | none => none
        | some (_, _, o, o_len) =>
          some (o, o_len, btw_read_metadata data d0)) = _
    rw [hD]
  by_cases hval : D.channels = 0 ∨ D.sample_rate = 0 ∨ D.sample_count = 0 ∨
      D.bits_per_sample = 0
  · rw [hdec init1, if_pos hval] at h
    exact absurd h (by simp)
  · rw [hdec init1, if_neg hval] at h
    have hch : D.channels ≠ 0 := by tauto
    have hsc : D.sample_count ≠ 0 := by tauto
    rcases decBlocks_count data F D (bits_required D.bits_per_sample) hch
      ((D.sample_count + 511) / 512) 0 BTW_HEADER_SIZE 0 init1 init2 0
      (by omega) (by omega) with hnone | hsome
    · rw [hnone.1] at h
      exact absurd h (by simp)
    · obtain ⟨p', b', o1, o2, r1, r2, hag, -⟩ := hsome
      rw [show 0 + (D.sample_count - 0) * D.channels =
        D.sample_count * D.channels by
          rw [show D.sample_count - 0 = D.sample_count by omega]
          omega] at r1 r2
      rw [r1] at h
      have h' : some (o1, D.sample_count * D.channels, D) =
          some (out, ol, d) := h
      simp only [Option.some.injEq, Prod.mk.injEq] at h'
      obtain ⟨ho1, hol, hDd⟩ := h'
      subst hDd
      constructor
      · omega
      · refine ⟨o2, ?_, ?_⟩
        · rw [hdec init2, if_neg hval, r2, hol]
        · intro idx hidx
          have hchpos : 0 < D.channels := by omega
          have hc : idx % D.channels < D.channels := Nat.mod_lt idx hchpos
          have hm : idx / D.channels < D.sample_count := by
            rw [Nat.div_lt_iff_lt_mul hchpos]
            omega
          have := hag (idx / D.channels) (idx % D.channels) (Nat.zero_le _)
            hm hc
          rw [Nat.div_add_mod'] at this
          rw [ho1] at this
          exact this.symm

/-! ### Blocks of silence -/

theorem encAv_zero (samples : Nat → Int) (ch i chan : Nat) :
    ∀ (fuel l : Nat) (acc : Int),
    (∀ m, m < fuel → samples ((i + (l + m)) * ch + chan) = 0) →
    encAv samples ch i chan fuel l 0 acc = acc := by
  intro fuel
  induction fuel with
  | zero =>
    intro l acc h
    rfl
  | succ fuel ih =>
    intro l acc h
    have hcur : samples ((i + l) * ch + chan) = 0 := by
      have := h 0 (by omega)
      rw [show i + (l + 0) = i + l by omega] at this
      exact this
    show encAv samples ch i chan fuel (l + 1) (samples ((i + l) * ch + chan))
      (acc + BTW_abs (samples ((i + l) * ch + chan) - 0)) = acc
    rw [hcur]
    have habs : BTW_abs ((0 : Int) - 0) = 0 := by decide
    rw [habs, add_zero]
    apply ih
    intro m hm
    have := h (m + 1) (by omega)
    rw [show i + (l + (m + 1)) = i + (l + 1 + m) by omega] at this
    exact this

theorem riceLenOf_zero (samples : Nat → Int) (ch i cap chan : Nat)
    (hz : ∀ m, m < cap → samples ((i + m) * ch + chan) = 0) :
    riceLenOf samples ch i cap chan = 0 := by
  unfold riceLenOf
  rw [encAv_zero samples ch i chan cap 0 0 (by
    intro m hm
    rw [show i + (0 + m) = i + m by omega]
    exact hz m hm)]
  decide

theorem chanSampleChunks_width_zero (samples : Nat → Int) (ch i chan k : Nat) :
    ∀ (fuel l : Nat),
    (∀ m, m < fuel → samples ((i + (l + m)) * ch + chan) = 0) →
    chunksWidth (chanSampleChunks samples ch i chan k fuel l 0) =
      (2 + k) * fuel := by
  intro fuel
  induction fuel with
  | zero =>
    intro l h
    rfl
  | succ fuel ih =>
    intro l h
    have hcur : samples ((i + l) * ch + chan) = 0 := by
      have := h 0 (by omega)
      rw [show i + (l + 0) = i + l by omega] at this
      exact this
    show chunksWidth (sampleChunks k 0 (samples ((i + l) * ch + chan)) ++
      chanSampleChunks samples ch i chan k fuel (l + 1)
        (samples ((i + l) * ch + chan))) = (2 + k) * (fuel + 1)
    rw [hcur, chunksWidth_append]
    have ha : (BTW_abs ((0 : Int) - 0)).toNat = 0 := by decide
    have hw1 : chunksWidth (sampleChunks k 0 0) = 2 + k := by
      show 1 + ((BTW_abs ((0 : Int) - 0)).toNat >>> k + (1 + (k + 0))) = 2 + k
      rw [ha, Nat.zero_shiftRight]
      omega
    rw [hw1, ih (l + 1) (by
      intro m hm
      have := h (m + 1) (by omega)
      rw [show i + (l + (m + 1)) = i + (l + 1 + m) by omega] at this
      exact this)]
    ring

/-! ### The block-alignment defect: a two-block stream that does not
round-trip.  `ex1Samples` has 513 samples (two blocks), all zero except
sample 512 (the only sample of the second block).  The encoder writes
block 1 immediately after the 1185 bits of header+block 0; the decoder
realigns to byte 149 (bit 1192) first, and reads zeros there. -/

theorem ex1_block0_rice : riceLenOf ex1Samples 1 0 512 0 = 0 := by
  apply riceLenOf_zero
  intro m hm
  rw [show (0 + m) * 1 + 0 = m by omega]
  show (if m = 512 then (1 : Int) else 0) = 0
  rw [if_neg (by omega)]

theorem ex1_block0_width :
    chunksWidth (chanSampleChunks ex1Samples 1 0 0 0 512 0 0) = 1024 := by
  have h := chanSampleChunks_width_zero ex1Samples 1 0 0 0 512 0 (by
    intro m hm
    rw [show (0 + (0 + m)) * 1 + 0 = m by omega]
    show (if m = 512 then (1 : Int) else 0) = 0
    rw [if_neg (by omega)])
  rw [h]

theorem chunksWidth_cons (c : Nat × Nat) (L : List (Nat × Nat)) :
    chunksWidth (c :: L) = c.1 + chunksWidth L := rfl

theorem ex1_chans0_width :
    chunksWidth (channelsChunks ex1Samples 1 0 512 1 1 0) = 1025 := by
  have h1 : channelsChunks ex1Samples 1 0 512 1 1 0 =
      (1, riceLenOf ex1Samples 1 0 512 0) ::
        (chanSampleChunks ex1Samples 1 0 0
          (riceLenOf ex1Samples 1 0 512 0) 512 0 0 ++
         ([] : List (Nat × Nat))) := rfl
  rw [h1, ex1_block0_rice, chunksWidth_cons, chunksWidth_append,
    ex1_block0_width]
  rfl

theorem ex1_blocks_split : blocksChunks ex1Samples ex1Def 1 2 0 =
    channelsChunks ex1Samples 1 0 512 1 1 0 ++
      blocksChunks ex1Samples ex1Def 1 1 512 := by
  have hcap0 : (if ex1Def.sample_count - 0 < BTW_BLOCK_SIZE then
      ex1Def.sample_count - 0 else BTW_BLOCK_SIZE) = 512 := by decide
  show channelsChunks ex1Samples ex1Def.channels 0
      (if ex1Def.sample_count - 0 < BTW_BLOCK_SIZE then
        ex1Def.sample_count - 0 else BTW_BLOCK_SIZE) 1 ex1Def.channels 0 ++
    blocksChunks ex1Samples ex1Def 1 1
      (0 + (if ex1Def.sample_count - 0 < BTW_BLOCK_SIZE then
        ex1Def.sample_count - 0 else BTW_BLOCK_SIZE)) = _
  rw [hcap0]
  rfl

theorem ex1_block1_chunks : blocksChunks ex1Samples ex1Def 1 1 512 =
    channelsChunks ex1Samples 1 512 1 1 1 0 ++ ([] : List (Nat × Nat)) := by
  have hcap1 : (if ex1Def.sample_count - 512 < BTW_BLOCK_SIZE then
      ex1Def.sample_count - 512 else BTW_BLOCK_SIZE) = 1 := by decide
  show channelsChunks ex1Samples ex1Def.channels 512
      (if ex1Def.sample_count - 512 < BTW_BLOCK_SIZE then
        ex1Def.sample_count - 512 else BTW_BLOCK_SIZE) 1 ex1Def.channels 0 ++
    blocksChunks ex1Samples ex1Def 1 0
      (512 + (if ex1Def.sample_count - 512 < BTW_BLOCK_SIZE then
        ex1Def.sample_count - 512 else BTW_BLOCK_SIZE)) = _
  rw [hcap1]
  rfl

theorem ex1_block1_width :
    chunksWidth (channelsChunks ex1Samples 1 512 1 1 1 0) = 4 := by decide

theorem ex1_roundtrip_fails :
    ∃ buf len out,
      btw_encode (some ex1Samples) (some ex1Def) = some (buf, len) ∧
      btw_decode 1 (some buf) ex1Def (fun _ => 0) =
        some (out, ex1Def.sample_count * ex1Def.channels, ex1Def) ∧
      out 512 = 0 ∧ ex1Samples 512 = 1 := by
  obtain ⟨stF, henc, hcur, hb8, hB, hzero, hmHdr, hmBlocks⟩ :=
    btw_encode_spec ex1Samples ex1Def (by decide) (by decide) (by decide)
      (by decide)
  have hnb : (ex1Def.sample_count + 511) / 512 = 2 := by decide
  have hbprl : bits_required ex1Def.bits_per_sample = 1 := by decide
  rw [hnb, hbprl] at hcur hmBlocks
  rw [ex1_blocks_split] at hcur hmBlocks
  -- total bit count written: 160 + 1025 + 4 = 1189
  rw [chunksWidth_append, ex1_chans0_width, ex1_block1_chunks,
    chunksWidth_append, ex1_block1_width] at hcur
  have hcurTot : 8 * stF.2.1 + stF.2.2 = 1189 := by
    rw [hcur]
    rfl
  rw [hcurTot] at hzero
  -- the encoder stream matches block 0 at bit 160
  obtain ⟨hm0, -⟩ := (matchesChunks_append stF.1 160
    (channelsChunks ex1Samples 1 0 512 1 1 0)
    (blocksChunks ex1Samples ex1Def 1 1 512)).mp hmBlocks
  -- the decoder reads block 0 correctly
  obtain ⟨p1, b1, out1, hrun1, hcur1, hb1, hwr1, -⟩ :=
    decChannels_spec stF.1 ex1Samples 1 1 0 512 1 hB (by decide) 1 0 20 0
      (fun _ => 0) 0 (by norm_num) (by norm_num)
      (by rw [show 8 * 20 + 0 = 160 by norm_num]; exact hm0)
      (by
        intro c hc1 hc2
        have hc0 : c = 0 := by omega
        subst hc0
        rw [ex1_block0_rice]
        norm_num)
      (by
        intro c m hc1 hc2 hm'
        have hc0 : c = 0 := by omega
        subst hc0
        rw [ex1_block0_rice]
        have hs1 : ex1Samples ((0 + m) * 1 + 0) = 0 := by
          rw [show (0 + m) * 1 + 0 = m by omega]
          show (if m = 512 then (1 : Int) else 0) = 0
          rw [if_neg (by omega)]
        rw [hs1]
        by_cases hm0 : m = 0
        · subst hm0
          rw [if_pos rfl]
          decide
        · rw [if_neg hm0]
          have hs2 : ex1Samples ((0 + m - 1) * 1 + 0) = 0 := by
            rw [show (0 + m - 1) * 1 + 0 = m - 1 by omega]
            show (if m - 1 = 512 then (1 : Int) else 0) = 0
            rw [if_neg (by omega)]
          rw [hs2]
          decide)
  rw [show (0 : Nat) + 1 * 512 = 512 by norm_num] at hrun1
  have hc1185 : 8 * p1 + b1 = 1185 := by
    rw [ex1_chans0_width] at hcur1
    omega
  have hp1 : p1 = 148 := by omega
  have hb1v : b1 = 1 := by omega
  subst hp1 hb1v
  -- the decoder's cursor after realignment: byte 149, bit 0 = bit 1192
  -- block 1 field and codeword reads all fall in the zero tail
  obtain ⟨G, hG⟩ : ∃ x, grab_number stF.1 149 0 1 = x := ⟨_, rfl⟩
  have hg : G.1 = readVal stF.1 (8 * 149 + 0) 1 ∧
      8 * G.2.1 + G.2.2 = (8 * 149 + 0) + 1 ∧ G.2.2 < 8 := by
    rw [← hG]
    exact grab_number_spec stF.1 149 0 1 (by norm_num) hB
  have hgv : G.1 = 0 := by
    rw [hg.1]
    apply readVal_zero_region
    intro k hk
    apply hzero
    omega
  have hgp : G.2.1 = 149 ∧ G.2.2 = 1 := by omega
  -- the sign bit read at bit 1193 is zero
  have hgb := grab_bit_spec stF.1 149 1 (by norm_num)
  have hgbv : (grab_bit stF.1 149 1).1 = 0 := by
    rw [hgb.1, hzero (8 * 149 + 1) (by norm_num)]
    rfl
  have h1194 := hgb.2.1
  -- the unary scan terminates at once on the zero bit 1194
  obtain ⟨pu, bu, hGu, hcu, hbu⟩ :=
    grab_unary_spec stF.1 0 0 1 (grab_bit stF.1 149 1).2.1
      (grab_bit stF.1 149 1).2.2 0 hgb.2.2 (by norm_num)
      (fun m hm => absurd hm (by omega))
      (by
        rw [show 8 * (grab_bit stF.1 149 1).2.1 +
          (grab_bit stF.1 149 1).2.2 + 0 = 1194 by omega]
        exact hzero 1194 (by norm_num))
  obtain ⟨G2, hG2⟩ : ∃ x, grab_number stF.1 pu bu 0 = x := ⟨_, rfl⟩
  have hg2 : G2.1 = readVal stF.1 (8 * pu + bu) 0 ∧
      8 * G2.2.1 + G2.2.2 = (8 * pu + bu) + 0 ∧ G2.2.2 < 8 := by
    rw [← hG2]
    exact grab_number_spec stF.1 pu bu 0 hbu hB
  have hg2v : G2.1 = 0 := by
    rw [hg2.1, readVal_w_zero]
  -- one step of the per-sample decoder at block 1
  have hstepS := decSamples_step stF.1 1 1 512 0 0 0 0 0 149 1 out1 512
    (0 + 0 * (1 <<< 0)) pu bu hGu
  rw [hG2, hgbv, if_neg (show ¬(0 : Nat) = 1 by norm_num),
    show (0 : Nat) + 0 * (1 <<< 0) = 0 by decide, hg2v,
    show ((0 : Nat) ||| 0) = 0 by decide, Nat.cast_zero, add_zero,
    show (512 + 0) * 1 + 0 = 512 by norm_num] at hstepS
  -- hstepS now ends in the fuel-0 state; package it as a `some`
  have hSam : decSamples stF.1 1 1 512 0 0 1 0 0 149 1 out1 512 =
      some (G2.2.1, G2.2.2,
        (fun idx => if idx = 512 then (0 : Int) else out1 idx), 513) := by
    rw [hstepS]
    rfl
  have hSam' : decSamples stF.1 1 1 512 0 (grab_number stF.1 149 0 1).1 1 0 0
      (grab_number stF.1 149 0 1).2.1 (grab_number stF.1 149 0 1).2.2
      out1 512 =
      some (G2.2.1, G2.2.2,
        (fun idx => if idx = 512 then (0 : Int) else out1 idx), 513) := by
    rw [hG, hgv, hgp.1, hgp.2]
    exact hSam
  have hstepC := decChannels_step stF.1 1 1 512 1 1 0 0 149 0 out1 512
    G2.2.1 G2.2.2 (fun idx => if idx = 512 then (0 : Int) else out1 idx)
    513 hSam'
  have hchan1 : decChannels stF.1 1 1 512 1 1 1 0 149 0 out1 512 =
      some (G2.2.1, G2.2.2,
        (fun idx => if idx = 512 then (0 : Int) else out1 idx), 513) := by
    rw [hstepC]
    rfl
  -- assemble the two blocks of the decoder loop
  have hstep1 := decBlocks_step stF.1 1 ex1Def 1 1 0 20 0 (fun _ => 0) 0
    148 1 out1 512 hrun1
  have hcap0 : (if ex1Def.sample_count - 0 < BTW_BLOCK_SIZE then
      ex1Def.sample_count - 0 else BTW_BLOCK_SIZE) = 512 := by decide
  rw [hcap0, show (0 : Nat) + 512 = 512 by norm_num,
    show (148 : Nat) + (if (1 : Nat) ≠ 0 then 1 else 0) = 149 by norm_num]
    at hstep1
  have hstep2 := decBlocks_step stF.1 1 ex1Def 1 0 512 149 0 out1 512
    G2.2.1 G2.2.2 (fun idx => if idx = 512 then (0 : Int) else out1 idx)
    513 hchan1
  have hfinal : decBlocks stF.1 1 ex1Def 1 1 512 149 0 out1 512 =
      some (G2.2.1 + (if G2.2.2 ≠ 0 then 1 else 0), 0,
        (fun idx => if idx = 512 then (0 : Int) else out1 idx), 513) := by
    rw [hstep2]
    rfl
  -- metadata readback and the decode equation
  have hmeta : btw_read_metadata stF.1 ex1Def = ex1Def :=
    btw_read_metadata_spec stF.1 ex1Def ex1Def hB hmHdr (by decide)
      (by decide) (by decide) (by decide)
  have hval : ¬(ex1Def.channels = 0 ∨ ex1Def.sample_rate = 0 ∨
      ex1Def.sample_count = 0 ∨ ex1Def.bits_per_sample = 0) := by decide
  have hdec1 : btw_decode 1 (some stF.1) ex1Def (fun _ => 0) =
      match decBlocks stF.1 1 ex1Def 1 2 0 20 0 (fun _ => 0) 0 with
      | none => none
      | some (_, _, o, o_len) => some (o, o_len, ex1Def) := by
    show (if (btw_read_metadata stF.1 ex1Def).channels = 0 ∨
          (btw_read_metadata stF.1 ex1Def).sample_rate = 0 ∨
          (btw_read_metadata stF.1 ex1Def).sample_count = 0 ∨
          (btw_read_metadata stF.1 ex1Def).bits_per_sample = 0 then none
      else
        match decBlocks stF.1 1 (btw_read_metadata stF.1 ex1Def)
            (bits_required (btw_read_metadata stF.1 ex1Def).bits_per_sample)
            (((btw_read_metadata stF.1 ex1Def).sample_count + 511) / 512) 0
            BTW_HEADER_SIZE 0 (fun _ => 0) 0 with
        | none => none
        | some (_, _, o, o_len) =>
          some (o, o_len, btw_read_metadata stF.1 ex1Def)) = _
    rw [hmeta, hnb, hbprl, if_neg hval]
    rfl
  refine ⟨stF.1, stF.2.1 + (if stF.2.2 ≠ 0 then 1 else 0),
    (fun idx => if idx = 512 then (0 : Int) else out1 idx), henc, ?_, ?_, ?_⟩
  · rw [show ex1Def.sample_count * ex1Def.channels = 513 by decide]
    rw [hdec1, hstep1, hfinal]
  · show (if (512 : Nat) = 512 then (0 : Int) else out1 512) = 0
    rw [if_pos rfl]
  · rfl

/-! ### The allocation heuristic is not an upper bound: the alternating
one-bit signal `ex9Samples` (3072 samples) produces 1556 output bytes
while `btw_max_len` allocates only 1408. -/

theorem encAv_alt (i : Nat) : ∀ (fuel l : Nat) (acc : Int),
    encAv ex9Samples 1 i 0 fuel l
      (if (i + l) % 2 = 0 then 1 else -1) acc = acc + 2 * (fuel : Int) := by
  intro fuel
  induction fuel with
  | zero =>
    intro l acc
    show acc = acc + 2 * ((0 : Nat) : Int)
    norm_num
  | succ fuel ih =>
    intro l acc
    show encAv ex9Samples 1 i 0 fuel (l + 1) (ex9Samples ((i + l) * 1 + 0))
      (acc + BTW_abs (ex9Samples ((i + l) * 1 + 0) -
        (if (i + l) % 2 = 0 then 1 else -1))) =
      acc + 2 * ((fuel + 1 : Nat) : Int)
    have hcur : ex9Samples ((i + l) * 1 + 0) =
        (if (i + l) % 2 = 0 then (-1 : Int) else 1) := by
      rw [show (i + l) * 1 + 0 = i + l by omega]
      rfl
    rw [hcur]
    by_cases hp : (i + l) % 2 = 0
    · rw [if_pos hp, if_pos hp]
      have habs : BTW_abs ((-1 : Int) - 1) = 2 := by decide
      rw [habs]
      have hprev : (if (i + (l + 1)) % 2 = 0 then (1 : Int) else -1) = -1 := by
        rw [if_neg (by omega)]
      have h2 := ih (l + 1) (acc + 2)
      rw [hprev] at h2
      rw [h2]
      push_cast
      ring
    · rw [if_neg hp, if_neg hp]
      have habs : BTW_abs ((1 : Int) - -1) = 2 := by decide
      rw [habs]
      have hprev : (if (i + (l + 1)) % 2 = 0 then (1 : Int) else -1) = 1 := by
        rw [if_pos (by omega)]
      have h2 := ih (l + 1) (acc + 2)
      rw [hprev] at h2
      rw [h2]
      push_cast
      ring

theorem ex9_rice (i : Nat) (hi : i % 2 = 0) :
    riceLenOf ex9Samples 1 i 512 0 = 0 := by
  unfold riceLenOf
  have h1 : encAv ex9Samples 1 i 0 512 0 0 0 = 1023 := by
    show encAv ex9Samples 1 i 0 511 (0 + 1) (ex9Samples ((i + 0) * 1 + 0))
      (0 + BTW_abs (ex9Samples ((i + 0) * 1 + 0) - 0)) = 1023
    have hcur : ex9Samples ((i + 0) * 1 + 0) = -1 := by
      rw [show (i + 0) * 1 + 0 = i by omega]
      show (if i % 2 = 0 then (-1 : Int) else 1) = -1
      rw [if_pos hi]
    rw [hcur]
    have habs : (0 : Int) + BTW_abs (-1 - 0) = 1 := by decide
    rw [habs]
    have hprev : (if (i + (0 + 1)) % 2 = 0 then (1 : Int) else -1) = -1 := by
      rw [if_neg (by omega)]
    have h2 := encAv_alt i 511 (0 + 1) 1
    rw [hprev] at h2
    rw [h2]
    norm_num
  rw [h1]
  decide

theorem ex9_chanWidth (i : Nat) : ∀ (fuel l : Nat),
    chunksWidth (chanSampleChunks ex9Samples 1 i 0 0 fuel l
      (if (i + l) % 2 = 0 then 1 else -1)) = 4 * fuel := by
  intro fuel
  induction fuel with
  | zero =>
    intro l
    rfl
  | succ fuel ih =>
    intro l
    show chunksWidth (sampleChunks 0 (if (i + l) % 2 = 0 then (1 : Int)
        else -1) (ex9Samples ((i + l) * 1 + 0)) ++
      chanSampleChunks ex9Samples 1 i 0 0 fuel (l + 1)
        (ex9Samples ((i + l) * 1 + 0))) = 4 * (fuel + 1)
    have hcur : ex9Samples ((i + l) * 1 + 0) =
        (if (i + l) % 2 = 0 then (-1 : Int) else 1) := by
      rw [show (i + l) * 1 + 0 = i + l by omega]
      rfl
    rw [hcur, chunksWidth_append]
    by_cases hp : (i + l) % 2 = 0
    · rw [if_pos hp, if_pos hp]
      have hnext : (if (i + (l + 1)) % 2 = 0 then (1 : Int) else -1) = -1 := by
        rw [if_neg (by omega)]
      have h2 := ih (l + 1)
      rw [hnext] at h2
      rw [h2, show chunksWidth (sampleChunks 0 (1 : Int) (-1)) = 4 by decide]
      ring
    · rw [if_neg hp, if_neg hp]
      have hnext : (if (i + (l + 1)) % 2 = 0 then (1 : Int) else -1) = 1 := by
        rw [if_pos (by omega)]
      have h2 := ih (l + 1)
      rw [hnext] at h2
      rw [h2, show chunksWidth (sampleChunks 0 (-1 : Int) 1) = 4 by decide]
      ring

theorem ex9_blockWidth (i : Nat) (hi : i % 2 = 0) :
    chunksWidth (channelsChunks ex9Samples 1 i 512 0 1 0) = 2047 := by
  show chunksWidth (((0, riceLenOf ex9Samples 1 i 512 0) ::
    chanSampleChunks ex9Samples 1 i 0 (riceLenOf ex9Samples 1 i 512 0)
      512 0 0) ++ ([] : List (Nat × Nat))) = 2047
  rw [ex9_rice i hi, chunksWidth_append]
  show (0 + chunksWidth (chanSampleChunks ex9Samples 1 i 0 0 512 0 0)) +
    0 = 2047
  have h1 : chunksWidth (chanSampleChunks ex9Samples 1 i 0 0 512 0 0) =
      2047 := by
    show chunksWidth (sampleChunks 0 0 (ex9Samples ((i + 0) * 1 + 0)) ++
      chanSampleChunks ex9Samples 1 i 0 0 511 (0 + 1)
        (ex9Samples ((i + 0) * 1 + 0))) = 2047
    have hcur : ex9Samples ((i + 0) * 1 + 0) = -1 := by
      rw [show (i + 0) * 1 + 0 = i by omega]
      show (if i % 2 = 0 then (-1 : Int) else 1) = -1
      rw [if_pos hi]
    rw [hcur, chunksWidth_append]
    have hprev : (if (i + (0 + 1)) % 2 = 0 then (1 : Int) else -1) = -1 := by
      rw [if_neg (by omega)]
    have h2 := ex9_chanWidth i 511 (0 + 1)
    rw [hprev] at h2
    rw [h2, show chunksWidth (sampleChunks 0 (0 : Int) (-1)) = 3 by decide]
  rw [h1]

theorem ex9_blocks_width : ∀ (n i : Nat), i % 2 = 0 → i + 512 * n = 3072 →
    chunksWidth (blocksChunks ex9Samples ex9Def 0 n i) = 2047 * n := by
  intro n
  induction n with
  | zero =>
    intro i hi hsum
    rfl
  | succ n ih =>
    intro i hi hsum
    have hcap : (if ex9Def.sample_count - i < BTW_BLOCK_SIZE then
        ex9Def.sample_count - i else BTW_BLOCK_SIZE) = 512 := by
      show (if 3072 - i < 512 then 3072 - i else 512) = 512
      rw [if_neg (by omega)]
    show chunksWidth (channelsChunks ex9Samples 1 i
        (if ex9Def.sample_count - i < BTW_BLOCK_SIZE then
          ex9Def.sample_count - i else BTW_BLOCK_SIZE) 0 1 0 ++
      blocksChunks ex9Samples ex9Def 0 n
        (i + (if ex9Def.sample_count - i < BTW_BLOCK_SIZE then
          ex9Def.sample_count - i else BTW_BLOCK_SIZE))) = 2047 * (n + 1)
    rw [hcap, chunksWidth_append, ex9_blockWidth i hi,
      ih (i + 512) (by omega) (by omega)]
    ring

theorem ex9_overflow :
    (∀ idx, BTW_abs (ex9Samples idx) < 2 ^ ex9Def.bits_per_sample) ∧
    ∃ buf len,
      btw_encode (some ex9Samples) (some ex9Def) = some (buf, len) ∧
      len = 1556 ∧ btw_max_len ex9Def = 1408 := by
  constructor
  · intro idx
    show BTW_abs (if idx % 2 = 0 then (-1 : Int) else 1) <
      2 ^ ex9Def.bits_per_sample
    by_cases h : idx % 2 = 0
    · rw [if_pos h]
      decide
    · rw [if_neg h]
      decide
  · obtain ⟨stF, henc, hcur, hb8, hB, hzero, hmHdr, hmBlocks⟩ :=
      btw_encode_spec ex9Samples ex9Def (by decide) (by decide) (by decide)
        (by decide)
    have hnb : (ex9Def.sample_count + 511) / 512 = 6 := by decide
    have hbprl : bits_required ex9Def.bits_per_sample = 0 := by decide
    rw [hnb, hbprl, ex9_blocks_width 6 0 (by norm_num) (by norm_num)] at hcur
    have hp : stF.2.1 = 1555 := by omega
    have hbv : stF.2.2 = 2 := by omega
    refine ⟨stF.1, stF.2.1 + (if stF.2.2 ≠ 0 then 1 else 0), henc, ?_,
      by decide⟩
    rw [hp, hbv]
    norm_num

/-! ### `bits_required` is the floor base-2 logarithm -/

theorem bitsRequiredAux_log2 : ∀ (fuel n : Nat), n ≤ fuel →
    bitsRequiredAux fuel n = Nat.log2 n := by
  intro fuel
  induction fuel with
  | zero =>
    intro n hn
    have h0 : n = 0 := by omega
    subst h0
    rw [Nat.log2, if_neg (by omega)]
    rfl
  | succ fuel ih =>
    intro n hn
    show (if n >>> 1 ≠ 0 then bitsRequiredAux fuel (n >>> 1) + 1 else 0) =
      Nat.log2 n
    rw [Nat.shiftRight_one]
    by_cases h : n / 2 ≠ 0
    · rw [if_pos h, ih (n / 2) (by omega)]
      nth_rewrite 2 [Nat.log2]
      rw [if_pos (by omega)]
    · rw [if_neg h]
      rw [Nat.log2, if_neg (by omega)]

theorem bits_required_log2 (n : Nat) : bits_required n = Nat.log2 n :=
  bitsRequiredAux_log2 n n (le_refl n)

/-! ### The Rice-parameter estimate as a plain sum -/

theorem BTW_abs_natAbs (d : Int) : BTW_abs d = (d.natAbs : Int) := by
  unfold BTW_abs
  by_cases h : 0 ≤ d
  · rw [if_pos h]
    omega
  · rw [if_neg h]
    omega

theorem encAv_spec (samples : Nat → Int) (ch i chan : Nat) :
    ∀ (fuel l : Nat) (prev acc : Int),
    encAv samples ch i chan fuel l prev acc =
      acc + ∑ m ∈ Finset.range fuel,
        ((samples ((i + (l + m)) * ch + chan) -
          (if m = 0 then prev
           else samples ((i + (l + m) - 1) * ch + chan))).natAbs : Int) := by
  intro fuel
  induction fuel with
  | zero =>
    intro l prev acc
    show acc = acc + _
    rw [Finset.sum_range_zero, add_zero]
  | succ fuel ih =>
    intro l prev acc
    show encAv samples ch i chan fuel (l + 1) (samples ((i + l) * ch + chan))
      (acc + BTW_abs (samples ((i + l) * ch + chan) - prev)) = _
    rw [ih (l + 1) (samples ((i + l) * ch + chan))
      (acc + BTW_abs (samples ((i + l) * ch + chan) - prev)),
      BTW_abs_natAbs, Finset.sum_range_succ']
    have hbody : ∀ m ∈ Finset.range fuel,
        ((samples ((i + (l + 1 + m)) * ch + chan) -
          (if m = 0 then samples ((i + l) * ch + chan)
           else samples ((i + (l + 1 + m) - 1) * ch + chan))).natAbs : Int) =
        ((samples ((i + (l + (m + 1))) * ch + chan) -
          (if m + 1 = 0 then prev
           else samples ((i + (l + (m + 1)) - 1) * ch + chan))).natAbs :
          Int) := by
      intro m hm
      rw [if_neg (Nat.succ_ne_zero m)]
      by_cases hm0 : m = 0
      · subst hm0
        rw [if_pos rfl]
        rw [show i + (l + 1 + 0) = i + (l + (0 + 1)) by omega]
        rw [show i + (l + (0 + 1)) - 1 = i + l by omega]
      · rw [if_neg hm0]
        rw [show i + (l + 1 + m) = i + (l + (m + 1)) by omega]
    rw [Finset.sum_congr rfl hbody]
    have hf0 : ((samples ((i + (l + 0)) * ch + chan) -
        (if (0 : Nat) = 0 then prev
         else samples ((i + (l + 0) - 1) * ch + chan))).natAbs : Int) =
        ((samples ((i + l) * ch + chan) - prev).natAbs : Int) := by
      rw [if_pos rfl, show i + (l + 0) = i + l by omega]
    rw [hf0]
    ring

theorem riceLen_eq_spec (samples : Nat → Int) (ch i cap chan : Nat) :
    riceLenOf samples ch i cap chan =
      bits_required (specAbsSum samples ch i cap chan / 512) := by
  unfold riceLenOf specAbsSum
  rw [encAv_spec samples ch i chan cap 0 0 0, zero_add, ← Nat.cast_sum]
  have hS : ∑ m ∈ Finset.range cap,
      (samples ((i + (0 + m)) * ch + chan) -
        (if m = 0 then 0
         else samples ((i + (0 + m) - 1) * ch + chan))).natAbs =
      ∑ l ∈ Finset.range cap,
      (samples ((i + l) * ch + chan) -
        (if l = 0 then 0
         else samples ((i + l - 1) * ch + chan))).natAbs := by
    apply Finset.sum_congr rfl
    intro m hm
    rw [show i + (0 + m) = i + m by omega]
  rw [hS]
  congr 1

/-- The all-clear write state: fresh `calloc`ed buffer, cursor at bit 0. -/
theorem Inv_zero : Inv ((fun _ => 0 : Buf), 0, 0) := by
  refine ⟨by norm_num, ?_, ?_⟩
  · intro i
    show (0 : Nat) < 256
    norm_num
  · intro j _
    exact Nat.zero_testBit _

/-! ## The ten claims -/

/-- C1: Round-trip identity — REFUTED (code bug).  The 513-sample
one-channel input `ex1Samples` (all fields of `ex1Def` non-zero, every
magnitude representable in `bits_per_sample = 2`) encodes successfully,
and decoding the encoded stream succeeds with the right shape, but
sample 512 comes back 0 instead of 1: the decoder byte-aligns between
blocks while the encoder does not. -/
theorem claim_C1_roundtrip_identity :
    (ex1Def.channels ≠ 0 ∧ ex1Def.bits_per_sample ≠ 0 ∧
      ex1Def.sample_rate ≠ 0 ∧ ex1Def.sample_count ≠ 0) ∧
    (∀ idx, idx < ex1Def.sample_count * ex1Def.channels →
      BTW_abs (ex1Samples idx) < 2 ^ ex1Def.bits_per_sample) ∧
    ∃ buf len out,
      btw_encode (some ex1Samples) (some ex1Def) = some (buf, len) ∧
      btw_decode 1 (some buf) ex1Def (fun _ => 0) =
        some (out, ex1Def.sample_count * ex1Def.channels, ex1Def) ∧
      out 512 ≠ ex1Samples 512 := by
  refine ⟨by decide, ?_, ?_⟩
  · intro idx hidx
    show BTW_abs (if idx = 512 then (1 : Int) else 0) <
      2 ^ ex1Def.bits_per_sample
    by_cases h : idx = 512
    · rw [if_pos h]
      decide
    · rw [if_neg h]
      decide
  · obtain ⟨buf, len, out, henc, hdec, hout, hsamp⟩ := ex1_roundtrip_fails
    refine ⟨buf, len, out, henc, hdec, ?_⟩
    rw [hout, hsamp]
    decide

/-- C2: Block-boundary alignment — CONFIRMED.  The decoder's block loop
realigns its input cursor to the next byte boundary after each block
(`in_pos += (bit_pos != 0); bit_pos = 0`), while the encoder's block
loop advances one shared bit cursor by exactly the payload's total
chunk width, with no alignment padding between blocks. -/
theorem claim_C2_block_alignment :
    (∀ (data : Buf) (F : Nat) (d : btw_def) (bprl fuel i p b : Nat)
      (out : Nat → Int) (ol : Nat),
      decBlocks data F d bprl (fuel + 1) i p b out ol =
        match decChannels data F d.channels i
            (if d.sample_count - i < BTW_BLOCK_SIZE then d.sample_count - i
              else BTW_BLOCK_SIZE) bprl d.channels 0 p b out ol with
        | none => none
        | some (p', b', out', ol') =>
          decBlocks data F d bprl fuel
            (i + (if d.sample_count - i < BTW_BLOCK_SIZE then
              d.sample_count - i else BTW_BLOCK_SIZE))
            (p' + (if b' ≠ 0 then 1 else 0)) 0 out' ol') ∧
    (∀ (samples : Nat → Int) (d : btw_def) (bprl fuel i : Nat)
      (st : Buf × Nat × Nat), Inv st →
      8 * (encBlocks samples d bprl fuel i st).2.1 +
        (encBlocks samples d bprl fuel i st).2.2 =
      (8 * st.2.1 + st.2.2) + chunksWidth (blocksChunks samples d bprl fuel i))
    := by
  constructor
  · intro data F d bprl fuel i p b out ol
    rfl
  · intro samples d bprl fuel i st hInv
    exact (encBlocks_spec samples d bprl fuel i st hInv).1

theorem claim_C2_block_alignment_witness :
    Inv ((fun _ => 0 : Buf), 0, 0) ∧
    8 * (encBlocks zeroSig ex3Def 0 1 0 ((fun _ => 0 : Buf), 0, 0)).2.1 +
      (encBlocks zeroSig ex3Def 0 1 0 ((fun _ => 0 : Buf), 0, 0)).2.2 =
    (8 * 0 + 0) + chunksWidth (blocksChunks zeroSig ex3Def 0 1 0) :=
  ⟨Inv_zero,
    claim_C2_block_alignment.2 zeroSig ex3Def 0 1 0
      ((fun _ => 0 : Buf), 0, 0) Inv_zero⟩

/-- C3 (counterexample): the single-block exact-match claim as stated is
false: the one-sample stream `ex3Samples` (value 1024 at 1 bit per
sample, all parameter fields of `ex3Def` non-zero, `sample_count ≤ 512`)
decodes to 512, because `rice_len = 1` is truncated to 0 in its
`bits_required(1) = 0`-bit header field. -/
theorem claim_C3_counterexample :
    decodedAt ex3Samples ex3Def 600 0 = some 512 ∧
    ex3Samples 0 = 1024 ∧ ex3Def.sample_count ≤ 512 ∧
    ex3Def.channels ≠ 0 ∧ ex3Def.bits_per_sample ≠ 0 ∧
    ex3Def.sample_rate ≠ 0 ∧ ex3Def.sample_count ≠ 0 := by
  refine ⟨by decide, rfl, by decide, by decide, by decide, by decide,
    by decide⟩

/-- C3 (amended): single-block exact match holds under the additional
hypotheses that every channel's Rice parameter fits its
`bits_required(bits_per_sample)`-bit header field, the four parameter
fields are within their header widths, and the unary-scan fuel `F`
covers every quotient: then for `sample_count ≤ 512` the decoder
reproduces every sample exactly. -/
theorem claim_C3_single_block_roundtrip (samples : Nat → Int)
    (d d0 : btw_def) (F : Nat) (init : Nat → Int)
    (hch0 : d.channels ≠ 0) (hrate0 : d.sample_rate ≠ 0)
    (hcount0 : d.sample_count ≠ 0) (hbits0 : d.bits_per_sample ≠ 0)
    (hsc : d.sample_count ≤ 512)
    (hscR : d.sample_count < 2 ^ 64) (hchR : d.channels < 2 ^ 16)
    (hbpsR : d.bits_per_sample < 2 ^ 16) (hrateR : d.sample_rate < 2 ^ 32)
    (hfit : ∀ c, c < d.channels →
      riceLenOf samples d.channels 0 d.sample_count c <
        2 ^ bits_required d.bits_per_sample)
    (hF : ∀ c m, c < d.channels → m < d.sample_count →
      (BTW_abs (samples (m * d.channels + c) -
        (if m = 0 then 0 else samples ((m - 1) * d.channels + c)))).toNat >>>
        (riceLenOf samples d.channels 0 d.sample_count c) < F) :
    ∃ buf len out,
      btw_encode (some samples) (some d) = some (buf, len) ∧
      btw_decode F (some buf) d0 init =
        some (out, d.sample_count * d.channels, d) ∧
      ∀ idx, idx < d.sample_count * d.channels → out idx = samples idx :=
  btw_roundtrip_single samples d d0 F init hch0 hrate0 hcount0 hbits0 hsc
    hscR hchR hbpsR hrateR hfit hF

theorem claim_C3_single_block_roundtrip_witness :
    (⟨1, 1, 1, 1⟩ : btw_def).sample_count ≤ 512 ∧
    ∃ buf len out,
      btw_encode (some zeroSig) (some ⟨1, 1, 1, 1⟩) = some (buf, len) ∧
      btw_decode 1 (some buf) ⟨9, 9, 9, 9⟩ (fun _ => 0) =
        some (out, (⟨1, 1, 1, 1⟩ : btw_def).sample_count *
          (⟨1, 1, 1, 1⟩ : btw_def).channels, ⟨1, 1, 1, 1⟩) ∧
      ∀ idx, idx < (⟨1, 1, 1, 1⟩ : btw_def).sample_count *
        (⟨1, 1, 1, 1⟩ : btw_def).channels → out idx = zeroSig idx :=
  ⟨by decide,
    claim_C3_single_block_roundtrip zeroSig ⟨1, 1, 1, 1⟩ ⟨9, 9, 9, 9⟩ 1
      (fun _ => 0) (by decide) (by decide) (by decide) (by decide)
      (by decide) (by decide) (by decide) (by decide) (by decide)
      (by
        intro c hc
        have hc1 : c < 1 := hc
        have hc0 : c = 0 := by omega
        subst hc0
        decide)
      (by
        intro c m hc hm
        have hc1 : c < 1 := hc
        have hm1 : m < 1 := hm
        have hc0 : c = 0 := by omega
        have hm0 : m = 0 := by omega
        subst hc0
        subst hm0
        decide)⟩

/-- C4: Header read iff magic matches — CONFIRMED.  Every stream
`btw_encode` produces (with in-range parameter fields) starts with the
bytes 'b','t','w','f' and `btw_read_metadata` recovers exactly the
encoded fields from it; on any stream whose first four bytes are not the
magic, `btw_read_metadata` returns its `btw_def` argument unchanged
(every field untouched). -/
theorem claim_C4_header_magic :
    (∀ (samples : Nat → Int) (d d0 : btw_def),
      d.channels ≠ 0 → d.sample_rate ≠ 0 → d.sample_count ≠ 0 →
      d.bits_per_sample ≠ 0 → d.sample_count < 2 ^ 64 →
      d.channels < 2 ^ 16 → d.bits_per_sample < 2 ^ 16 →
      d.sample_rate < 2 ^ 32 →
      ∀ (buf : Buf) (len : Nat),
        btw_encode (some samples) (some d) = some (buf, len) →
        (buf 0 = 98 ∧ buf 1 = 116 ∧ buf 2 = 119 ∧ buf 3 = 102) ∧
        btw_read_metadata buf d0 = d) ∧
    (∀ (data : Buf) (d0 : btw_def),
      ¬(data 0 = 98 ∧ data 1 = 116 ∧ data 2 = 119 ∧ data 3 = 102) →
      btw_read_metadata data d0 = d0) := by
  constructor
  · intro samples d d0 h1 h2 h3 h4 r1 r2 r3 r4 buf len henc'
    obtain ⟨stF, henc, -, -, hB, -, hmHdr, -⟩ :=
      btw_encode_spec samples d h1 h2 h3 h4
    rw [henc] at henc'
    simp only [Option.some.injEq, Prod.mk.injEq] at henc'
    obtain ⟨hbuf, -⟩ := henc'
    obtain ⟨hb0, hb1, hb2, hb3⟩ := header_bytes stF.1 hB hmHdr.1
    have hmeta := btw_read_metadata_spec stF.1 d d0 hB hmHdr r1 r2 r3 r4
    rw [hbuf] at hb0 hb1 hb2 hb3 hmeta
    exact ⟨⟨hb0, hb1, hb2, hb3⟩, hmeta⟩
  · intro data d0 h
    exact btw_read_metadata_bad_magic data d0 h

theorem claim_C4_header_magic_witness :
    ¬((fun _ => 0 : Buf) 0 = 98 ∧ (fun _ => 0 : Buf) 1 = 116 ∧
      (fun _ => 0 : Buf) 2 = 119 ∧ (fun _ => 0 : Buf) 3 = 102) ∧
    btw_read_metadata (fun _ => 0) ⟨9, 9, 9, 9⟩ = ⟨9, 9, 9, 9⟩ :=
  ⟨by decide, claim_C4_header_magic.2 (fun _ => 0) ⟨9, 9, 9, 9⟩ (by decide)⟩

/-- C5: bit_length floor convention — CONFIRMED.  `bits_required` is
`Nat.log2` (the zero-based index of the highest set bit, i.e.
`⌊log₂ n⌋` for `n ≥ 1` and 0 for `n ≤ 1`), and takes the quoted values
at 0, 1, 2, 3, 4. -/
theorem claim_C5_bit_length :
    (∀ n : Nat, bits_required n = Nat.log2 n) ∧
    (∀ n : Nat, 1 ≤ n →
      2 ^ bits_required n ≤ n ∧ n < 2 ^ (bits_required n + 1)) ∧
    bits_required 0 = 0 ∧ bits_required 1 = 0 ∧ bits_required 2 = 1 ∧
    bits_required 3 = 1 ∧ bits_required 4 = 2 := by
  refine ⟨bits_required_log2, ?_, by decide, by decide, by decide,
    by decide, by decide⟩
  intro n hn
  rw [bits_required_log2]
  exact ⟨Nat.log2_self_le (by omega), Nat.lt_log2_self⟩

theorem claim_C5_bit_length_witness :
    1 ≤ 4 ∧ (2 ^ bits_required 4 ≤ 4 ∧ 4 < 2 ^ (bits_required 4 + 1)) :=
  ⟨by decide, claim_C5_bit_length.2.1 4 (by decide)⟩

/-- C6: Rice parameter estimation — CONFIRMED.  For every block of
every channel (any `cap`, so short final blocks included) the encoder's
Rice parameter is `bits_required` of the block's absolute-difference sum
divided by the constant 512; and dividing by the actual sample count
would give a different value (witnessed by a 1-sample block of value
600: 600/512 gives 0 bits, 600/1 gives 9). -/
theorem claim_C6_rice_estimation :
    (∀ (samples : Nat → Int) (ch i cap chan : Nat),
      riceLenOf samples ch i cap chan =
        bits_required (specAbsSum samples ch i cap chan / 512)) ∧
    riceLenOf (fun _ => 600) 1 0 1 0 ≠
      bits_required (specAbsSum (fun _ => 600) 1 0 1 0 / 1) :=
  ⟨riceLen_eq_spec, by decide⟩

/-- C7: Bit-cursor integer round-trip — CONFIRMED.  For every width
1–64, every cursor position (any byte, bit offset < 8) over a buffer
whose bits are clear from the cursor on, and every value below
`2^width`, `put_number` followed by `grab_number` at the same position
returns the value, and both cursors land exactly `width` bits further
on. -/
theorem claim_C7_bit_cursor_roundtrip (buf : Buf) (p b w v : Nat)
    (hw1 : 1 ≤ w) (hw64 : w ≤ 64) (hb : b < 8) (hB : bytesLT buf)
    (hz : zeroFrom buf (8 * p + b)) (hv : v < 2 ^ w) :
    (grab_number (put_number buf p b w v).1 p b w).1 = v ∧
    8 * (put_number buf p b w v).2.1 + (put_number buf p b w v).2.2 =
      (8 * p + b) + w ∧
    8 * (grab_number (put_number buf p b w v).1 p b w).2.1 +
      (grab_number (put_number buf p b w v).1 p b w).2.2 =
      (8 * p + b) + w := by
  obtain ⟨hc, hb', hB', huntouched, hmv⟩ :=
    put_number_spec buf p b w v hb hB (fun k hk => hz _ (by omega))
  obtain ⟨g1, g2, g3⟩ :=
    grab_number_spec (put_number buf p b w v).1 p b w hb hB'
  refine ⟨?_, hc, g2⟩
  rw [g1, readVal_of_matches _ _ _ _ hmv, Nat.mod_eq_of_lt hv]

theorem claim_C7_bit_cursor_roundtrip_witness :
    1 ≤ 9 ∧ 9 ≤ 64 ∧ 3 < 8 ∧ bytesLT (fun _ => 0 : Buf) ∧
    zeroFrom (fun _ => 0 : Buf) (8 * 1 + 3) ∧ 300 < 2 ^ 9 ∧
    ((grab_number (put_number (fun _ => 0 : Buf) 1 3 9 300).1 1 3 9).1 =
      300 ∧
    8 * (put_number (fun _ => 0 : Buf) 1 3 9 300).2.1 +
      (put_number (fun _ => 0 : Buf) 1 3 9 300).2.2 = (8 * 1 + 3) + 9 ∧
    8 * (grab_number (put_number (fun _ => 0 : Buf) 1 3 9 300).1 1 3 9).2.1 +
      (grab_number (put_number (fun _ => 0 : Buf) 1 3 9 300).1 1 3 9).2.2 =
      (8 * 1 + 3) + 9) :=
  ⟨by decide, by decide, by decide,
    (fun i => by show (0 : Nat) < 256; decide),
    (fun j hj => Nat.zero_testBit _),
    by decide,
    claim_C7_bit_cursor_roundtrip (fun _ => 0) 1 3 9 300 (by decide)
      (by decide) (by decide) (fun i => by show (0 : Nat) < 256; decide)
      (fun j hj => Nat.zero_testBit _) (by decide)⟩

/-- C8: Encode precondition failure — CONFIRMED.  `btw_encode` yields
no stream when any of the four parameter fields is zero (the
`exit(EXIT_FAILURE)` path, modelled as `none`) or when the samples
buffer or parameter struct is absent (NULL). -/
theorem claim_C8_encode_precondition :
    (∀ (samples : Nat → Int) (d : btw_def),
      d.channels = 0 ∨ d.sample_rate = 0 ∨ d.sample_count = 0 ∨
        d.bits_per_sample = 0 →
      btw_encode (some samples) (some d) = none) ∧
    (∀ d? : Option btw_def, btw_encode none d? = none) ∧
    (∀ samples : Nat → Int, btw_encode (some samples) none = none) := by
  refine ⟨?_, ?_, ?_⟩
  · intro samples d h
    show (if d.channels = 0 ∨ d.sample_rate = 0 ∨ d.sample_count = 0 ∨
        d.bits_per_sample = 0 then none else _) = none
    rw [if_pos h]
  · intro d?
    cases d? <;> rfl
  · intro samples
    rfl

theorem claim_C8_encode_precondition_witness :
    ((⟨0, 1, 1, 1⟩ : btw_def).channels = 0 ∨
      (⟨0, 1, 1, 1⟩ : btw_def).sample_rate = 0 ∨
      (⟨0, 1, 1, 1⟩ : btw_def).sample_count = 0 ∨
      (⟨0, 1, 1, 1⟩ : btw_def).bits_per_sample = 0) ∧
    btw_encode (some zeroSig) (some ⟨0, 1, 1, 1⟩) = none :=
  ⟨by decide,
    claim_C8_encode_precondition.1 zeroSig ⟨0, 1, 1, 1⟩ (by decide)⟩

/-- C9: Output buffer sufficiency — REFUTED (code bug).  The 3072-sample
alternating ±1 one-channel 1-bit stream `ex9Samples` (all fields of
`ex9Def` non-zero, every magnitude representable) makes `btw_encode`
return a byte count of 1556, beyond the allocated
`btw_max_len ex9Def = 1408` bytes — the final bytes are written out of
bounds. -/
theorem claim_C9_buffer_sufficiency :
    (∀ idx, BTW_abs (ex9Samples idx) < 2 ^ ex9Def.bits_per_sample) ∧
    ∃ buf len,
      btw_encode (some ex9Samples) (some ex9Def) = some (buf, len) ∧
      btw_max_len ex9Def < len := by
  obtain ⟨hrep, buf, len, henc, hlen, hmax⟩ := ex9_overflow
  refine ⟨hrep, buf, len, henc, ?_⟩
  rw [hlen, hmax]
  norm_num

/-- C10: Decode output count — CONFIRMED.  Whenever `btw_decode` returns
a result, the returned count is exactly `sample_count * channels` of the
parsed header, and every one of those output elements was assigned by
the decoder: decoding again over a different initial buffer content
gives the same count and the same values at every index below the
count. -/
theorem claim_C10_decode_output_count (F : Nat) (data : Buf)
    (d0 : btw_def) (init1 init2 : Nat → Int) (out : Nat → Int) (ol : Nat)
    (d : btw_def)
    (h : btw_decode F (some data) d0 init1 = some (out, ol, d)) :
    ol = d.sample_count * d.channels ∧
    ∃ out', btw_decode F (some data) d0 init2 = some (out', ol, d) ∧
      ∀ idx, idx < ol → out' idx = out idx :=
  btw_decode_count F data d0 init1 init2 out ol d h

theorem claim_C10_decode_output_count_witness :
    ((btw_decode 2 (some ex10Data) ⟨9, 9, 9, 9⟩ (fun _ => 7)).getD
      ((fun _ => 0), 0, ⟨0, 0, 0, 0⟩)).2.1 =
    (⟨1, 1, 1, 1⟩ : btw_def).sample_count *
      (⟨1, 1, 1, 1⟩ : btw_def).channels := by
  obtain ⟨out, h⟩ : ∃ o, btw_decode 2 (some ex10Data) ⟨9, 9, 9, 9⟩
      (fun _ => 7) = some (o, 1, ⟨1, 1, 1, 1⟩) := ⟨_, rfl⟩
  rw [h]
  exact (claim_C10_decode_output_count 2 ex10Data ⟨9, 9, 9, 9⟩
    (fun _ => 7) (fun _ => 7) out 1 ⟨1, 1, 1, 1⟩ h).1

end BTW
